import Mathlib

/-!
# gitlab-dl-pipes: a verification development

A shallow embedding of `main.go` (the whole program is one file) together with the parts of
Go's `flag`, `net/url`, `strings` and `fmt` that the program calls.

* Go strings are byte sequences: `GoString := List Byte`.
* `uint64` values are natural numbers, reduced modulo `2 ^ 64` where the program increments them.
* The remote API and the file system are a `World`: for every point in time (the number of
  effects performed so far) and every request it says what the program gets back.
* A run yields the transcript of its effects (`Event`s, in order) and an `Outcome`.
-/

set_option maxRecDepth 100000
set_option maxHeartbeats 1000000

namespace GitlabDl

instance instDecidableEqExcept {ε α : Type} [DecidableEq ε] [DecidableEq α] :
    DecidableEq (Except ε α)
  | .ok a, .ok b => if h : a = b then isTrue (by rw [h]) else isFalse (fun e => h (Except.ok.inj e))
  | .error a, .error b =>
    if h : a = b then isTrue (by rw [h]) else isFalse (fun e => h (Except.error.inj e))
  | .ok _, .error _ => isFalse (fun e => Except.noConfusion e)
  | .error _, .ok _ => isFalse (fun e => Except.noConfusion e)

/-! ## Go strings -/

abbrev Byte := Fin 256

abbrev GoString := List Byte

/-- The byte of an ASCII character. -/
def byteOf (c : Char) : Byte := ⟨c.toNat % 256, Nat.mod_lt _ (by decide)⟩

/-- The byte string of an ASCII string literal. -/
def lit (s : String) : GoString := s.toList.map byteOf

/-- Go `strings.HasPrefix`. -/
def startsWith : GoString → GoString → Bool
  | _, [] => true
  | [], _ :: _ => false
  | c :: s, d :: p => c == d && startsWith s p

/-- Go `strings.HasSuffix`. -/
def endsWith (s suffix : GoString) : Bool := startsWith s.reverse suffix.reverse

/-- Go `strings.Cut(s, sep)` for a one-byte separator: the text before the first `sep`, the
text after it, and whether `sep` occurs. -/
def cut (sep : Byte) : GoString → GoString × GoString × Bool
  | [] => ([], [], false)
  | c :: s =>
    if c = sep then ([], s, true)
    else
      let r := cut sep s
      (c :: r.1, r.2.1, r.2.2)

/-- The slice `s[:strings.LastIndex(s, sep)+1]`: `s` up to and including its last `sep`, the
empty string when `sep` does not occur. -/
def throughLast (sep : Byte) (s : GoString) : GoString :=
  (s.reverse.dropWhile (fun c => c != sep)).reverse

/-- The slice `str[:strings.LastIndexByte(str, sep)]`: `str` up to its last `sep`, without
it; `none` when `sep` does not occur (the index is -1). -/
def beforeLast (sep : Byte) : GoString → Option GoString
  | [] => none
  | c :: s =>
    match beforeLast sep s with
    | some r => some (c :: r)
    | none => if c = sep then some [] else none

/-- Go `strings.Count(s, sep)` for a one-byte separator. -/
def countByte (sep : Byte) (s : GoString) : Nat := s.count sep

/-- Go `strings.ToLower` on ASCII letters (other bytes are kept). -/
def toLower (s : GoString) : GoString :=
  s.map (fun c => if 65 ≤ c.val ∧ c.val ≤ 90 then ⟨(c.val + 32) % 256, Nat.mod_lt _ (by decide)⟩ else c)

/-! ## `fmt.Sprintf("%d", n)` for `uint64` -/

/-- The decimal digits of `n`, most significant first, using at most `fuel` digits. -/
def fmtDigits : Nat → Nat → GoString
  | 0, _ => []
  | fuel + 1, n =>
    if n < 10 then [⟨(48 + n) % 256, Nat.mod_lt _ (by decide)⟩]
    else fmtDigits fuel (n / 10) ++ [⟨(48 + n % 10) % 256, Nat.mod_lt _ (by decide)⟩]

/-- The decimal representation of a natural number. -/
def decimal (n : Nat) : GoString := fmtDigits (n + 1) n

/-- The verb `%d` applied to a `uint64`. -/
def fmtUint (n : Nat) : GoString := decimal (n % 2 ^ 64)

/-! ## `net/url` -/

/-- The `encoding` modes of `net/url`. -/
inductive Encoding
  | encodePath
  | encodePathSegment
  | encodeHost
  | encodeZone
  | encodeUserPassword
  | encodeQueryComponent
  | encodeFragment
  deriving DecidableEq, Repr

/-- Errors of `net/url`. -/
inductive URLError
  | escapeError (s : GoString)
  | invalidHostError (s : GoString)
  | controlCharacter
  | emptyURL
  | missingProtocolScheme
  | invalidURIForRequest
  | colonInFirstPathSegment
  | authority (msg : GoString)
  deriving DecidableEq, Repr

def isAlnum (c : Byte) : Bool :=
  (97 ≤ c.val && c.val ≤ 122) || (65 ≤ c.val && c.val ≤ 90) || (48 ≤ c.val && c.val ≤ 57)

/-- Go `url.shouldEscape`: whether byte `c` has to be percent-encoded in the given mode. -/
def shouldEscape (c : Byte) (mode : Encoding) : Bool :=
  if isAlnum c then false
  else if (mode = .encodeHost ∨ mode = .encodeZone) ∧
      c ∈ lit "!$&\x27()*+,;=:[]<>\x22" then false
  else if c ∈ lit "-_.~" then false
  else if c ∈ lit "$&+,/:;=?@" then
    match mode with
    | .encodePath => c = byteOf '?'
    | .encodePathSegment =>
      c = byteOf '/' || c = byteOf ';' || c = byteOf ',' || c = byteOf '?'
    | .encodeUserPassword =>
      c = byteOf '@' || c = byteOf '/' || c = byteOf '?' || c = byteOf ':'
    | .encodeQueryComponent => true
    | .encodeFragment => false
    | _ => true
  else if mode = .encodeFragment ∧ c ∈ lit "!()*" then false
  else true

def upperhex : GoString := lit "0123456789ABCDEF"

/-- The byte `upperhex[n]`. -/
def hexDigit (n : Nat) : Byte := upperhex.getD n 0

/-- Go `url.escape`. -/
def escape (mode : Encoding) : GoString → GoString
  | [] => []
  | c :: s =>
    if c = byteOf ' ' ∧ mode = .encodeQueryComponent then byteOf '+' :: escape mode s
    else if shouldEscape c mode then
      byteOf '%' :: hexDigit (c.val >>> 4) :: hexDigit (c.val &&& 15) :: escape mode s
    else c :: escape mode s

/-- Go `url.ishex`. -/
def ishex (c : Byte) : Bool :=
  (48 ≤ c.val && c.val ≤ 57) || (97 ≤ c.val && c.val ≤ 102) || (65 ≤ c.val && c.val ≤ 70)

/-- Go `url.unhex`. -/
def unhex (c : Byte) : Nat :=
  if 48 ≤ c.val ∧ c.val ≤ 57 then c.val - 48
  else if 97 ≤ c.val ∧ c.val ≤ 102 then c.val - 97 + 10
  else if 65 ≤ c.val ∧ c.val ≤ 70 then c.val - 65 + 10
  else 0

/-- The byte `unhex(a)<<4 | unhex(b)`. -/
def unhexPair (a b : Byte) : Byte := ⟨(unhex a <<< 4 ||| unhex b) % 256, Nat.mod_lt _ (by decide)⟩

/-- Go `url.unescape`: percent-decoding; a malformed escape is an error. -/
def unescape (mode : Encoding) : GoString → Except URLError GoString
  | [] => .ok []
  | c :: s =>
    if c = byteOf '%' then
      match s with
      | a :: b :: s2 =>
        if ishex a && ishex b then
          if mode = .encodeHost ∧ unhex a < 8 ∧ [c, a, b] ≠ lit "%25" then
            .error (.escapeError [c, a, b])
          else if mode = .encodeZone ∧ [c, a, b] ≠ lit "%25" ∧ unhexPair a b ≠ byteOf ' ' ∧
              shouldEscape (unhexPair a b) .encodeHost then
            .error (.escapeError [c, a, b])
          else
            match unescape mode s2 with
            | .ok r => .ok (unhexPair a b :: r)
            | .error e => .error e
        else .error (.escapeError ((c :: s).take 3))
      | _ => .error (.escapeError ((c :: s).take 3))
    else if c = byteOf '+' then
      match unescape mode s with
      | .ok r => .ok ((if mode = .encodeQueryComponent then byteOf ' ' else c) :: r)
      | .error e => .error e
    else if (mode = .encodeHost ∨ mode = .encodeZone) ∧ c.val < 128 ∧ shouldEscape c .encodeHost then
      .error (.invalidHostError [c])
    else
      match unescape mode s with
      | .ok r => .ok (c :: r)
      | .error e => .error e

/-- Go `url.PathEscape`. -/
def PathEscape (s : GoString) : GoString := escape .encodePathSegment s

/-- Go `url.PathUnescape`. -/
def PathUnescape (s : GoString) : Except URLError GoString := unescape .encodePathSegment s

/-- Go `url.validEncoded`. -/
def validEncoded (mode : Encoding) (s : GoString) : Bool :=
  s.all (fun c =>
    if c ∈ lit "!$&\x27()*+,;=:@" then true
    else if c ∈ lit "[]" then true
    else if c = byteOf '%' then true
    else !shouldEscape c mode)

/-- Go `url.Userinfo`. -/
structure Userinfo where
  username : GoString
  password : GoString
  passwordSet : Bool
  deriving DecidableEq, Repr

/-- Go `url.URL`. -/
structure URL where
  Scheme : GoString := []
  Opaque : GoString := []
  User : Option Userinfo := none
  Host : GoString := []
  Path : GoString := []
  RawPath : GoString := []
  ForceQuery : Bool := false
  RawQuery : GoString := []
  Fragment : GoString := []
  RawFragment : GoString := []
  deriving DecidableEq, Repr

/-- Go `(*URL).setPath`: `none` when `p` has a malformed escape. -/
def URL.setPath (u : URL) (p : GoString) : Except URLError URL :=
  match unescape .encodePath p with
  | .error e => .error e
  | .ok path =>
    if p = escape .encodePath path then .ok { u with Path := path, RawPath := [] }
    else .ok { u with Path := path, RawPath := p }

/-- Go `(*URL).setFragment`. -/
def URL.setFragment (u : URL) (f : GoString) : Except URLError URL :=
  match unescape .encodeFragment f with
  | .error e => .error e
  | .ok frag =>
    if f = escape .encodeFragment frag then .ok { u with Fragment := frag, RawFragment := [] }
    else .ok { u with Fragment := frag, RawFragment := f }

/-- Go `(*URL).EscapedPath`. -/
def URL.EscapedPath (u : URL) : GoString :=
  if u.RawPath ≠ [] ∧ validEncoded .encodePath u.RawPath ∧
      unescape .encodePath u.RawPath = .ok u.Path then u.RawPath
  else if u.Path = lit "*" then lit "*"
  else escape .encodePath u.Path

/-- The loop of Go `url.getScheme`; `i` is the index of the head of the remaining text. -/
def getSchemeAux (rawURL : GoString) : Nat → GoString → Except URLError (GoString × GoString)
  | _, [] => .ok ([], rawURL)
  | i, c :: s =>
    if (97 ≤ c.val && c.val ≤ 122) || (65 ≤ c.val && c.val ≤ 90) then getSchemeAux rawURL (i + 1) s
    else if (48 ≤ c.val && c.val ≤ 57) || c = byteOf '+' || c = byteOf '-' || c = byteOf '.' then
      if i = 0 then .ok ([], rawURL) else getSchemeAux rawURL (i + 1) s
    else if c = byteOf ':' then
      if i = 0 then .error .missingProtocolScheme else .ok (rawURL.take i, s)
    else .ok ([], rawURL)

/-- Go `url.getScheme`: splits `scheme:rest`. -/
def getScheme (rawURL : GoString) : Except URLError (GoString × GoString) :=
  getSchemeAux rawURL 0 rawURL

/-- Go `url.stringContainsCTLByte`. -/
def stringContainsCTLByte (s : GoString) : Bool := s.any (fun b => b.val < 32 || b.val = 127)

/-- The result type of Go `url.parseAuthority`, which is not embedded: it is a parameter of
the development. None of the fixed or escaped references the program parses has an authority. -/
abbrev AuthorityParser := GoString → Except URLError (Option Userinfo × GoString)

/-- Go `url.parse(rawURL, viaRequest)`. -/
def parse (pa : AuthorityParser) (rawURL : GoString) (viaRequest : Bool) : Except URLError URL :=
  if stringContainsCTLByte rawURL then .error .controlCharacter
  else if rawURL = [] ∧ viaRequest then .error .emptyURL
  else if rawURL = lit "*" then .ok { Path := lit "*" }
  else
    match getScheme rawURL with
    | .error e => .error e
    | .ok (scheme, rest0) =>
      let url : URL := { Scheme := toLower scheme }
      let forceQuery := endsWith rest0 (lit "?") && countByte (byteOf '?') rest0 == 1
      let rest := if forceQuery then rest0.dropLast else (cut (byteOf '?') rest0).1
      let url : URL :=
        if forceQuery then { url with ForceQuery := true }
        else { url with RawQuery := (cut (byteOf '?') rest0).2.1 }
      if !startsWith rest (lit "/") ∧ url.Scheme ≠ [] then .ok { url with Opaque := rest }
      else if !startsWith rest (lit "/") ∧ viaRequest then .error .invalidURIForRequest
      else if !startsWith rest (lit "/") ∧ byteOf ':' ∈ (cut (byteOf '/') rest).1 then
        .error .colonInFirstPathSegment
      else if (url.Scheme ≠ [] ∨ (!viaRequest ∧ !startsWith rest (lit "///"))) ∧
          startsWith rest (lit "//") then
        let authority := (rest.drop 2).takeWhile (fun c => c != byteOf '/')
        let rest := (rest.drop 2).dropWhile (fun c => c != byteOf '/')
        match pa authority with
        | .error e => .error e
        | .ok (user, host) => ({ url with User := user, Host := host }).setPath rest
      else url.setPath rest

/-- Go `url.Parse`. -/
def Parse (pa : AuthorityParser) (rawURL : GoString) : Except URLError URL :=
  let c := cut (byteOf '#') rawURL
  match parse pa c.1 false with
  | .error e => .error e
  | .ok url => if c.2.1 = [] then .ok url else url.setFragment c.2.1

/-- The text `full` that Go `url.resolvePath` normalises: `ref` put after the directory of
`base`. -/
def resolveFull (base ref : GoString) : GoString :=
  if ref = [] then base
  else if ref.head? ≠ some (byteOf '/') then throughLast (byteOf '/') base ++ ref
  else ref

/-- The body of the loop of Go `url.resolvePath` over the path elements. The state is the text
that `dst` holds after its leading slash and the flag `first`: `.` is dropped, `..` cuts
`dst` back to its last slash, every other element is written after a slash, which is left
out while `first` is set. -/
def dotStep (st : GoString × Bool) (elem : GoString) : GoString × Bool :=
  if elem = lit "." then (st.1, false)
  else if elem = lit ".." then
    match beforeLast (byteOf '/') st.1 with
    | none => ([], true)
    | some str => (str, st.2)
  else ((if st.2 then st.1 else st.1 ++ [byteOf '/']) ++ elem, false)

/-- Go `url.resolvePath`: resolves `ref` against `base` and removes dot segments. -/
def resolvePath (base ref : GoString) : GoString :=
  let full := resolveFull base ref
  if full = [] then []
  else
    let src := full.splitOn (byteOf '/')
    let st := src.foldl dotStep ([], true)
    let dst :=
      if src.getLast? = some (lit ".") ∨ src.getLast? = some (lit "..") then
        st.1 ++ [byteOf '/']
      else st.1
    let r := byteOf '/' :: dst
    if r.length > 1 ∧ r.get? 1 = some (byteOf '/') then r.drop 1 else r

/-- Go `(*URL).ResolveReference`. The error of `setPath` is ignored, as in Go. -/
def URL.ResolveReference (u ref : URL) : URL :=
  let url : URL := if ref.Scheme = [] then { ref with Scheme := u.Scheme } else ref
  let orElse (r : Except URLError URL) (d : URL) : URL :=
    match r with
    | .ok v => v
    | .error _ => d
  if ref.Scheme ≠ [] ∨ ref.Host ≠ [] ∨ ref.User ≠ none then
    orElse (url.setPath (resolvePath ref.EscapedPath [])) url
  else if ref.Opaque ≠ [] then { url with User := none, Host := [], Path := [] }
  else
    let url : URL :=
      if ref.Path = [] ∧ !ref.ForceQuery ∧ ref.RawQuery = [] then
        if ref.Fragment = [] then
          { url with RawQuery := u.RawQuery, Fragment := u.Fragment, RawFragment := u.RawFragment }
        else { url with RawQuery := u.RawQuery }
      else url
    if ref.Path = [] ∧ u.Opaque ≠ [] then
      { url with Opaque := u.Opaque, User := none, Host := [], Path := [] }
    else
      let url : URL := { url with Host := u.Host, User := u.User }
      orElse (url.setPath (resolvePath u.EscapedPath ref.EscapedPath)) url

/-! ## `main.go`: data -/

/-- The struct `glProject`. -/
structure glProject where
  ID : Nat
  PathWithNamespace : GoString
  deriving DecidableEq, Repr

/-- The struct `glBranch` (`Commit.ID` is flattened to `CommitID`). -/
structure glBranch where
  CommitID : GoString
  deriving DecidableEq, Repr

/-- The struct `glCommit` (`LastPipeline.ID` is flattened to `LastPipelineID`). -/
structure glCommit where
  LastPipelineID : Nat
  deriving DecidableEq, Repr

/-- The struct `glJob`; `Artifacts` is a slice of empty structs. -/
structure glJob where
  ID : Nat
  Stage : GoString
  Artifacts : List Unit
  deriving DecidableEq, Repr

/-- The message of a Go `error` coming from the network, the JSON decoder or the file system. -/
abbrev Err := GoString

/-- An `http.Request` as the program builds it: always `GET`, with one `Private-Token` header. -/
structure Request where
  URL : URL
  PrivateToken : GoString
  deriving DecidableEq, Repr

/-- The remote API and the file system. The first argument of every field is the time: the
number of effects the run has performed before this one. `projects`, `branch`, `commit` and
`jobs` are `getJson` into a `[]glProject`, `glBranch`, `glCommit` and `[]glJob`: the error is a
failed request, a failed read or a failed decode. `create` is `os.Create`, `artifacts` is
`client.Do` for an artifact archive, `copy` is `io.Copy` of that response into that file. -/
structure World where
  projects : Nat → Request → Except Err (List glProject)
  branch : Nat → Request → Except Err glBranch
  commit : Nat → Request → Except Err glCommit
  jobs : Nat → Request → Except Err (List glJob)
  create : Nat → GoString → Except Err Unit
  artifacts : Nat → Request → Except Err Unit
  copy : Nat → GoString → Request → Except Err Unit

/-- One effect of a run, with what came back. -/
inductive Event
  | getProjects (req : Request) (res : Except Err (List glProject))
  | getBranch (req : Request) (res : Except Err glBranch)
  | getCommit (req : Request) (res : Except Err glCommit)
  | getJobs (req : Request) (res : Except Err (List glJob))
  | create (name : GoString) (res : Except Err Unit)
  | artifacts (req : Request) (res : Except Err Unit)
  | copy (name : GoString) (req : Request) (res : Except Err Unit)
  | closeFile (name : GoString)
  | closeBody (req : Request)
  deriving DecidableEq

/-- The errors of Go `flag.(*FlagSet).parseOne`: `help` is `flag.ErrHelp`, the others are the
errors that `failf` builds. -/
inductive FlagError
  | help
  | badSyntax (s : GoString)
  | notDefined (name : GoString)
  | needsArgument (name : GoString)
  deriving DecidableEq, Repr

/-- The values of the three string flags that lines 43-45 define on `flag.CommandLine`; each
has the default `""`. -/
structure Flags where
  baseurl : GoString := []
  project : GoString := []
  stage : GoString := []
  deriving DecidableEq, Repr

/-- Why `main` printed the usage text and called `os.Exit(2)`. -/
inductive UsageError
  | baseURLMissing
  | projectMissing
  | stageMissing
  | branchesMissing
  | tokenMissing
  | badBaseURL (e : URLError)
  | badBranch
  deriving DecidableEq, Repr

/-- The error handed to `assert`. -/
inductive Failure
  | noSuchProject
  | io (e : Err)
  deriving DecidableEq, Repr

/-- How a run ends. `usage` is `os.Exit(2)` after the usage text, `failed` is `assert` with a
non-nil error (`os.Exit(1)`), `panicked` is the `panic` of `parseURL`, `finished` is `main`
returning, `running` is a run cut off after the given number of project pages, `flagExit` is
`flag.Parse()` ending the process. -/
inductive Outcome
  | usage (e : UsageError)
  | failed (e : Failure)
  | panicked (e : URLError)
  | finished
  | running
  | flagExit (e : FlagError)
  deriving DecidableEq, Repr

/-- The exit status of the process: a Go program that panics exits with status 2, and
`flag.Parse()` on `flag.CommandLine` (error handling `ExitOnError`) calls `os.Exit(0)` on
`flag.ErrHelp` and `os.Exit(2)` on every other error. -/
def Outcome.exitStatus : Outcome → Option Nat
  | .usage _ => some 2
  | .failed _ => some 1
  | .panicked _ => some 2
  | .finished => some 0
  | .running => none
  | .flagExit .help => some 0
  | .flagExit _ => some 2

/-- What `main` works on once `flag.Parse()` has returned (line 50): the values of the three
flags, `flag.Args()` and the value of `TOKEN` in the environment. -/
structure Args where
  baseUrl : GoString
  project : GoString
  stage : GoString
  branches : List GoString
  token : GoString

/-! ## Go `flag`: parsing the command line -/

/-- The lookup `f.formal[name]` and `flag.Value.Set(value)` for the string flags of the
program: `none` when no flag has this name. -/
def Flags.set (f : Flags) (name value : GoString) : Option Flags :=
  if name = lit "baseurl" then some { f with baseurl := value }
  else if name = lit "project" then some { f with project := value }
  else if name = lit "stage" then some { f with stage := value }
  else none

/-- The loop of `parseOne` that splits `name=value` at the first `=` that is not the first
byte of `name`: the name and, when there is such a `=`, the value. -/
def splitFlag (name : GoString) : GoString × Option GoString :=
  match name with
  | [] => ([], none)
  | c :: rest =>
    let r := cut (byteOf '=') rest
    if r.2.2 then (c :: r.1, some r.2.1) else (name, none)

/-- The error of `parseOne` for a name that is not a defined flag. -/
def undefinedFlag (name : GoString) : FlagError :=
  if name = lit "help" ∨ name = lit "h" then .help else .notDefined name

/-- Go `flag.(*FlagSet).Parse` with `parseOne`, for the flag set of the program: the calls of
`parseOne` go on while each sees a flag. The result is the flag values, the arguments that
are left (`f.args`, which `flag.Args()` returns) and the error that ended the loop, if any. -/
def parseFlags (f : Flags) : List GoString → Flags × List GoString × Option FlagError
  | [] => (f, [], none)
  | s :: rest =>
    if s.length < 2 ∨ s.head? ≠ some (byteOf '-') then (f, s :: rest, none)
    else if s = lit "--" then (f, rest, none)
    else
      let name := if s.get? 1 = some (byteOf '-') then s.drop 2 else s.drop 1
      if name = [] ∨ name.head? = some (byteOf '-') ∨ name.head? = some (byteOf '=') then
        (f, s :: rest, some (.badSyntax s))
      else
        let nv := splitFlag name
        match nv.2 with
        | some value =>
          match f.set nv.1 value with
          | none => (f, rest, some (undefinedFlag nv.1))
          | some f2 => parseFlags f2 rest
        | none =>
          match rest with
          | [] =>
            match f.set nv.1 [] with
            | none => (f, [], some (undefinedFlag nv.1))
            | some _ => (f, [], some (.needsArgument nv.1))
          | value :: rest2 =>
            match f.set nv.1 value with
            | none => (f, value :: rest2, some (undefinedFlag nv.1))
            | some f2 => parseFlags f2 rest2

/-! ## `main.go`: code -/

/-- The function `parseURL`: `url.Parse`, with the `panic` as an error. -/
def parseURL (pa : AuthorityParser) (uri : GoString) : Except URLError URL := Parse pa uri

/-- The function `getJson` at target type `α`: one request, answered by the world at time `t`. -/
def getJson {α : Type} (answer : Nat → Request → Except Err α) (token : GoString) (urAL : URL)
    (t : Nat) : Except Err α :=
  answer t { URL := urAL, PrivateToken := token }

/-- Lines 52-96 of `main`: the checks that end in `usage(); os.Exit(2)`; on success the parsed
base URL. -/
def validate (pa : AuthorityParser) (a : Args) : Except UsageError URL :=
  if a.baseUrl = [] then .error .baseURLMissing
  else if a.project = [] then .error .projectMissing
  else if a.stage = [] then .error .stageMissing
  else if a.branches.length < 1 then .error .branchesMissing
  else if a.token = [] then .error .tokenMissing
  else
    match Parse pa a.baseUrl with
    | .error e => .error (.badBaseURL e)
    | .ok rootURL => if a.branches.any (fun branch => branch = []) then .error .badBranch else .ok rootURL

/-- Lines 98-101 of `main`: the base URL gets a trailing slash. -/
def withTrailingSlash (rootURL : URL) : URL :=
  if !endsWith rootURL.Path (lit "/") then
    { rootURL with Path := rootURL.Path ++ lit "/", RawPath := rootURL.RawPath ++ lit "/" }
  else rootURL

/-- What the loop `PaginatingProjects` leaves behind. -/
inductive Located
  | found (projectID : Nat)
  | stop (o : Outcome)
  deriving DecidableEq

/-- The loop `PaginatingProjects` (lines 111-130), cut off after `fuel` pages; `page` is the
`uint64` page counter and `t` the time at which the loop is entered. -/
def paginatingProjects (w : World) (token project : GoString) (projectsURL : URL) :
    Nat → Nat → Nat → List Event × Located
  | 0, _, _ => ([], .stop .running)
  | fuel + 1, page, t =>
    let urAL : URL := { projectsURL with RawQuery := lit "page=" ++ fmtUint page }
    let res := getJson w.projects token urAL t
    let ev := Event.getProjects { URL := urAL, PrivateToken := token } res
    match res with
    | .error e => ([ev], .stop (.failed (.io e)))
    | .ok projects =>
      if projects.length < 1 then ([ev], .stop (.failed .noSuchProject))
      else
        match projects.find? (fun projct => projct.PathWithNamespace = project) with
        | some projct => ([ev], .found projct.ID)
        | none =>
          let r := paginatingProjects w token project projectsURL fuel ((page + 1) % 2 ^ 64) (t + 1)
          (ev :: r.1, r.2)

/-- The name of the file created for a job of a branch (line 150). -/
def fileName (branch : GoString) (jobID : Nat) : GoString :=
  PathEscape branch ++ lit "-" ++ fmtUint jobID ++ lit ".zip"

/-- The loop over the jobs of one branch (lines 148-166), entered at time `t`: `none` when the
loop runs to its end. -/
def jobLoop (pa : AuthorityParser) (w : World) (token stage branch : GoString) (jobsURL : URL) :
    List glJob → Nat → List Event × Option Outcome
  | [], _ => ([], none)
  | job :: jobs, t =>
    if job.Stage = stage ∧ job.Artifacts.length > 0 then
      let name := fileName branch job.ID
      let errOpen := w.create t name
      match errOpen with
      | .error e => ([.create name errOpen], some (.failed (.io e)))
      | .ok _ =>
        match parseURL pa (fmtUint job.ID ++ lit "/artifacts") with
        | .error e => ([.create name errOpen], some (.panicked e))
        | .ok ref =>
          let req : Request := { URL := jobsURL.ResolveReference ref, PrivateToken := token }
          let errReq := w.artifacts (t + 1) req
          match errReq with
          | .error e => ([.create name errOpen, .artifacts req errReq], some (.failed (.io e)))
          | .ok _ =>
            let errCopy := w.copy (t + 2) name req
            match errCopy with
            | .error e =>
              ([.create name errOpen, .artifacts req errReq, .copy name req errCopy],
                some (.failed (.io e)))
            | .ok _ =>
              let r := jobLoop pa w token stage branch jobsURL jobs (t + 5)
              (.create name errOpen :: .artifacts req errReq :: .copy name req errCopy ::
                .closeFile name :: .closeBody req :: r.1, r.2)
    else jobLoop pa w token stage branch jobsURL jobs t

/-- The loop over the branch arguments (lines 138-167), entered at time `t`. -/
def branchLoop (pa : AuthorityParser) (w : World) (token stage : GoString)
    (branchesURL commitsURL pipelinesURL jobsURL : URL) :
    List GoString → Nat → List Event × Outcome
  | [], _ => ([], .finished)
  | branch :: branches, t =>
    match parseURL pa (PathEscape branch) with
    | .error e => ([], .panicked e)
    | .ok ref =>
      let u1 := branchesURL.ResolveReference ref
      let r1 := getJson w.branch token u1 t
      let e1 := Event.getBranch { URL := u1, PrivateToken := token } r1
      match r1 with
      | .error e => ([e1], .failed (.io e))
      | .ok brnch =>
        match parseURL pa (PathEscape brnch.CommitID) with
        | .error e => ([e1], .panicked e)
        | .ok ref =>
          let u2 := commitsURL.ResolveReference ref
          let r2 := getJson w.commit token u2 (t + 1)
          let e2 := Event.getCommit { URL := u2, PrivateToken := token } r2
          match r2 with
          | .error e => ([e1, e2], .failed (.io e))
          | .ok commit =>
            match parseURL pa (fmtUint commit.LastPipelineID ++ lit "/jobs") with
            | .error e => ([e1, e2], .panicked e)
            | .ok ref =>
              let u3 := pipelinesURL.ResolveReference ref
              let r3 := getJson w.jobs token u3 (t + 2)
              let e3 := Event.getJobs { URL := u3, PrivateToken := token } r3
              match r3 with
              | .error e => ([e1, e2, e3], .failed (.io e))
              | .ok jobs =>
                let dl := jobLoop pa w token stage branch jobsURL jobs (t + 3)
                match dl.2 with
                | some o => (e1 :: e2 :: e3 :: dl.1, o)
                | none =>
                  let r := branchLoop pa w token stage branchesURL commitsURL pipelinesURL jobsURL
                    branches (t + 3 + dl.1.length)
                  (e1 :: e2 :: e3 :: (dl.1 ++ r.1), r.2)

/-- The URL `apiURL` of line 103. -/
def apiURLOf (pa : AuthorityParser) (rootURL : URL) : Except URLError URL :=
  match parseURL pa (lit "api/v4/") with
  | .error e => .error e
  | .ok ref => .ok ((withTrailingSlash rootURL).ResolveReference ref)

/-- The URL that `Sprintf(format, projectID)` names below `apiURL` (lines 133-136): `head`
and `tail` are the text before and after the verb `%d`. -/
def projectURL (pa : AuthorityParser) (apiURL : URL) (head : GoString) (projectID : Nat)
    (tail : GoString) : Except URLError URL :=
  match parseURL pa (head ++ fmtUint projectID ++ tail) with
  | .error e => .error e
  | .ok ref => .ok (apiURL.ResolveReference ref)

/-- The function `main` from line 50 on, that is once `flag.Parse()` has returned, with the
loop `PaginatingProjects` cut off after `fuel` pages: the transcript of the run and how it
ends. The whole function, from the command line, is `run`. -/
def main (pa : AuthorityParser) (w : World) (a : Args) (fuel : Nat) : List Event × Outcome :=
  match validate pa a with
  | .error e => ([], .usage e)
  | .ok rootURL =>
    match apiURLOf pa rootURL with
    | .error e => ([], .panicked e)
    | .ok apiURL =>
      match parseURL pa (lit "projects") with
      | .error e => ([], .panicked e)
      | .ok ref =>
        let projectsURL := apiURL.ResolveReference ref
        match paginatingProjects w a.token a.project projectsURL fuel 1 0 with
        | (tr, .stop o) => (tr, o)
        | (tr, .found projectID) =>
          match projectURL pa apiURL (lit "projects/") projectID (lit "/repository/branches/") with
          | .error e => (tr, .panicked e)
          | .ok branchesURL =>
            match projectURL pa apiURL (lit "projects/") projectID (lit "/repository/commits/") with
            | .error e => (tr, .panicked e)
            | .ok commitsURL =>
              match projectURL pa apiURL (lit "projects/") projectID (lit "/pipelines/") with
              | .error e => (tr, .panicked e)
              | .ok pipelinesURL =>
                match projectURL pa apiURL (lit "projects/") projectID (lit "/jobs/") with
                | .error e => (tr, .panicked e)
                | .ok jobsURL =>
                  let r := branchLoop pa w a.token a.stage branchesURL commitsURL pipelinesURL
                    jobsURL a.branches tr.length
                  (tr ++ r.1, r.2)

/-- The function `main` from its first line: `flag.Parse()` on the command line `arguments`
(`os.Args[1:]`), which ends the process on `-h`, `-help` and on a flag error, and then the
rest of `main` on the flag values, the remaining arguments and `TOKEN`, the value of that
variable in the environment (`""` when it is not set). -/
def run (pa : AuthorityParser) (w : World) (arguments : List GoString) (TOKEN : GoString)
    (fuel : Nat) : List Event × Outcome :=
  match parseFlags {} arguments with
  | (_, _, some e) => ([], .flagExit e)
  | (f, branches, none) =>
    main pa w { baseUrl := f.baseurl, project := f.project, stage := f.stage,
                branches := branches, token := TOKEN } fuel

/-! ## Definitions used in the statements -/

/-- Bytes that stand for themselves in a path and start nothing: letters, digits, `/` and the
unreserved marks. -/
def plainByte (c : Byte) : Bool := isAlnum c || c = byteOf '/' || decide (c ∈ lit "-_.~")

/-- The reference that `parseURL` makes of `uri` (the empty reference if it panics). -/
def refOf (pa : AuthorityParser) (uri : GoString) : URL :=
  match parseURL pa uri with
  | .ok ref => ref
  | .error _ => {}

/-- The condition of line 149: the job is in the requested stage and has artifacts. -/
def selected (stage : GoString) (job : glJob) : Bool :=
  decide (job.Stage = stage ∧ job.Artifacts.length > 0)

/-- The request of line 153 for the artifacts of a job. -/
def artifactsRequest (pa : AuthorityParser) (token : GoString) (jobsURL : URL) (jobID : Nat) :
    Request :=
  { URL := jobsURL.ResolveReference (refOf pa (fmtUint jobID ++ lit "/artifacts")),
    PrivateToken := token }

/-- The effects of one download in which nothing fails: the file is created, the archive is
requested and copied, the file and the response body are closed. -/
def download (pa : AuthorityParser) (token branch : GoString) (jobsURL : URL) (job : glJob) :
    List Event :=
  [.create (fileName branch job.ID) (.ok ()),
   .artifacts (artifactsRequest pa token jobsURL job.ID) (.ok ()),
   .copy (fileName branch job.ID) (artifactsRequest pa token jobsURL job.ID) (.ok ()),
   .closeFile (fileName branch job.ID),
   .closeBody (artifactsRequest pa token jobsURL job.ID)]

/-- An authority parser for the examples: no user, the authority is the host. -/
def hostOnly : AuthorityParser := fun authority => .ok (none, authority)

/-- The value `apiURL` of a run whose base URL parsed as `rootURL`. -/
def apiURL (rootURL : URL) : URL :=
  (withTrailingSlash rootURL).ResolveReference { Path := lit "api/v4/" }

/-- The value `projectsURL` of a run, before a query is set. -/
def projectsURLOf (rootURL : URL) : URL :=
  (apiURL rootURL).ResolveReference { Path := lit "projects" }

/-- The values `branchesURL`, `commitsURL`, `pipelinesURL` and `jobsURL` of a run: `tail` is
the format string after `projects/%d`. -/
def projectURLOf (rootURL : URL) (projectID : Nat) (tail : GoString) : URL :=
  (apiURL rootURL).ResolveReference { Path := lit "projects/" ++ fmtUint projectID ++ tail }

/-- The request for the project page with the query `page=<page>`. -/
def pageRequest (token : GoString) (projectsURL : URL) (page : Nat) : Request :=
  { URL := { projectsURL with RawQuery := lit "page=" ++ decimal page }, PrivateToken := token }

/-- The first entry of a page whose path is the target. -/
def firstMatch (project : GoString) (page : List glProject) : Option glProject :=
  page.find? (fun projct => projct.PathWithNamespace = project)

/-- The transcript of `k` answered page requests, for the pages `first`, `first + 1`, ... -/
def pageEvents (token : GoString) (projectsURL : URL) (pages : Nat → List glProject)
    (first k : Nat) : List Event :=
  (List.range k).map (fun i =>
    Event.getProjects (pageRequest token projectsURL (first + i)) (.ok (pages (first + i))))

def Event.isPageRequest : Event → Bool
  | .getProjects _ _ => true
  | _ => false

/-- The number a string of decimal digits stands for. -/
def digitsValue (s : GoString) : Nat := s.foldl (fun acc c => 10 * acc + (c.val - 48)) 0

/-- The request the loop sends for the page counter `page`. -/
def sentPageRequest (token : GoString) (projectsURL : URL) (page : Nat) : Request :=
  { URL := { projectsURL with RawQuery := lit "page=" ++ fmtUint page }, PrivateToken := token }

/-- A world for the examples: `projects` answers the page requests, every branch is at commit
`abc123`, every commit has the pipeline 99 with the given jobs, and nothing fails. -/
def worldOf (projects : Nat → Request → Except Err (List glProject)) (jobs : List glJob) : World where
  projects := projects
  branch := fun _ _ => .ok { CommitID := lit "abc123" }
  commit := fun _ _ => .ok { LastPipelineID := 99 }
  jobs := fun _ _ => .ok jobs
  create := fun _ _ => .ok ()
  artifacts := fun _ _ => .ok ()
  copy := fun _ _ _ => .ok ()

/-- A command line for the examples. -/
def exampleArgs : Args where
  baseUrl := lit "https://gitlab.example.com"
  project := lit "group/project"
  stage := lit "test"
  branches := [lit "master"]
  token := lit "secret"

/-- The base URL of `exampleArgs`, parsed. -/
def exampleRoot : URL := { Scheme := lit "https", Host := lit "gitlab.example.com" }

/-- An API that answers every page request with the same non-empty page. -/
def echoWorld : World := worldOf (fun _ _ => .ok [{ ID := 1, PathWithNamespace := lit "other/project" }]) []

/-- Pages of which only page `2 ^ 64` has the target. -/
def farPages (p : Nat) : List glProject :=
  if p = 2 ^ 64 then [{ ID := 7, PathWithNamespace := lit "group/project" }]
  else [{ ID := 1, PathWithNamespace := lit "other/project" }]

/-- An API that serves `farPages`. -/
def farWorld : World :=
  worldOf (fun _ r =>
    if r.URL.RawQuery = lit "page=" ++ decimal (2 ^ 64) then
      .ok [{ ID := 7, PathWithNamespace := lit "group/project" }]
    else .ok [{ ID := 1, PathWithNamespace := lit "other/project" }]) []

/-- Pages of which only page `2 ^ 64` is empty. -/
def longPages (p : Nat) : List glProject :=
  if p = 2 ^ 64 then [] else [{ ID := 1, PathWithNamespace := lit "other/project" }]

/-- An API that serves `longPages`. -/
def longWorld : World :=
  worldOf (fun _ r =>
    if r.URL.RawQuery = lit "page=" ++ decimal (2 ^ 64) then .ok []
    else .ok [{ ID := 1, PathWithNamespace := lit "other/project" }]) []

/-- Two pages, the target is the second entry of the second. -/
def twoPages (p : Nat) : List glProject :=
  if p = 2 then
    [{ ID := 5, PathWithNamespace := lit "group/other" },
     { ID := 7, PathWithNamespace := lit "group/project" }]
  else if p = 1 then [{ ID := 1, PathWithNamespace := lit "other/project" }]
  else []

/-- An API that serves `twoPages`. -/
def twoPageWorld (jobs : List glJob) : World :=
  worldOf (fun _ r =>
    if r.URL.RawQuery = lit "page=2" then .ok (twoPages 2)
    else if r.URL.RawQuery = lit "page=1" then .ok (twoPages 1)
    else .ok []) jobs

/-- The open file handles (by name) and the open artifact response bodies (by request). -/
abbrev Handles := List GoString × List Request

/-- The effect of one event on the open handles: a successful `os.Create` opens a file, a
successful artifact request opens a response body, the two `Close` calls release them. The
response body of `getJson` is opened and closed inside `getJson` (`defer res.Body.Close()`). -/
def track (h : Handles) : Event → Handles
  | .create name (.ok _) => (name :: h.1, h.2)
  | .artifacts req (.ok _) => (h.1, req :: h.2)
  | .closeFile name => (h.1.erase name, h.2)
  | .closeBody req => (h.1, h.2.erase req)
  | _ => h

/-- The handles that are open after a transcript that started with the handles `h`. -/
def openFrom (h : Handles) (tr : List Event) : Handles := tr.foldl track h

/-- The handles that are open after a transcript. -/
def openAfter (tr : List Event) : Handles := openFrom ([], []) tr

/-- The events with which the run moves on to the next page, branch or job: the JSON requests
and the file creations. -/
def Event.startsStep : Event → Bool
  | .getProjects _ _ => true
  | .getBranch _ _ => true
  | .getCommit _ _ => true
  | .getJobs _ _ => true
  | .create _ _ => true
  | _ => false

/-- A failed artifact request or a failed copy. -/
def Event.failedTransfer : Event → Bool
  | .artifacts _ (.error _) => true
  | .copy _ _ (.error _) => true
  | _ => false

/-- No handle is open whenever the transcript moves on. -/
def wellScoped : Handles → List Event → Prop
  | _, [] => True
  | h, e :: es => (e.startsStep = true → h = ([], [])) ∧ wellScoped (track h e) es

/-- An API whose artifact download breaks off: one selected job, the copy fails. -/
def brokenCopyWorld : World :=
  { worldOf (fun _ _ => .ok [{ ID := 7, PathWithNamespace := lit "group/project" }])
      [{ ID := 11, Stage := lit "test", Artifacts := [()] }] with
    copy := fun _ _ _ => .error (lit "unexpected EOF") }

/-- Whether the last event of a transcript is a failed artifact request or a failed copy. -/
def lastFailed (tr : List Event) : Bool :=
  match tr.getLast? with
  | some e => e.failedTransfer
  | none => false

/-- The handle discipline of a transcript `tr` of a piece of the run that starts without open
handles: no handle is open when it moves on; none is open at its end unless it ends with a
failed transfer, and then `broke` holds, a file is still open and, when the failed transfer is
a copy, a response body too. -/
def Disciplined (tr : List Event) (broke : Prop) : Prop :=
  wellScoped ([], []) tr ∧
    (lastFailed tr = false → openFrom ([], []) tr = ([], [])) ∧
    (lastFailed tr = true → broke ∧ (openFrom ([], []) tr).1 ≠ [] ∧
      ∀ name req e, tr.getLast? = some (.copy name req (.error e)) →
        (openFrom ([], []) tr).2 ≠ [])

/-- The error of a failed step. -/
def Event.error : Event → Option Err
  | .getProjects _ (.error e) => some e
  | .getBranch _ (.error e) => some e
  | .getCommit _ (.error e) => some e
  | .getJobs _ (.error e) => some e
  | .create _ (.error e) => some e
  | .artifacts _ (.error e) => some e
  | .copy _ _ (.error e) => some e
  | _ => none

/-- The request of line 140 for a branch. -/
def branchRequest (pa : AuthorityParser) (token : GoString) (branchesURL : URL)
    (branch : GoString) : Request :=
  { URL := branchesURL.ResolveReference (refOf pa (PathEscape branch)), PrivateToken := token }

/-- The request of line 143 for a commit. -/
def commitRequest (pa : AuthorityParser) (token : GoString) (commitsURL : URL)
    (commitID : GoString) : Request :=
  { URL := commitsURL.ResolveReference (refOf pa (PathEscape commitID)), PrivateToken := token }

/-- The request of line 146 for the jobs of a pipeline. -/
def jobsRequest (pa : AuthorityParser) (token : GoString) (pipelinesURL : URL)
    (pipelineID : Nat) : Request :=
  { URL := pipelinesURL.ResolveReference (refOf pa (fmtUint pipelineID ++ lit "/jobs")),
    PrivateToken := token }

/-- What the API answered for one branch: the branch, its commit, the jobs of its pipeline. -/
abbrev Answers := glBranch × glCommit × List glJob

/-- The effects of one branch in which nothing fails: the branch request, the commit request
for the commit of the answer, the jobs request for the last pipeline of that commit, and the
downloads of the selected jobs. -/
def branchBlock (pa : AuthorityParser) (token stage : GoString) (rootURL : URL)
    (projectID : Nat) (branch : GoString) (x : Answers) : List Event :=
  [.getBranch (branchRequest pa token
      (projectURLOf rootURL projectID (lit "/repository/branches/")) branch) (.ok x.1),
   .getCommit (commitRequest pa token
      (projectURLOf rootURL projectID (lit "/repository/commits/")) x.1.CommitID) (.ok x.2.1),
   .getJobs (jobsRequest pa token
      (projectURLOf rootURL projectID (lit "/pipelines/")) x.2.1.LastPipelineID) (.ok x.2.2)] ++
    (x.2.2.filter (selected stage)).flatMap
      (download pa token branch (projectURLOf rootURL projectID (lit "/jobs/")))

/-- The blocks of the branches, in order. -/
def branchBlocks (pa : AuthorityParser) (token stage : GoString) (rootURL : URL)
    (projectID : Nat) : List GoString → List Answers → List Event
  | branch :: branches, x :: xs =>
    branchBlock pa token stage rootURL projectID branch x ++
      branchBlocks pa token stage rootURL projectID branches xs
  | _, _ => []

/-- An API on which everything works and whose first page has the target project. -/
def workingWorld : World :=
  worldOf (fun _ _ => .ok [{ ID := 7, PathWithNamespace := lit "group/project" }])
    [{ ID := 11, Stage := lit "test", Artifacts := [()] }]

/-- The error of the last event of a transcript, if that event failed. -/
def lastError (tr : List Event) : Option Err :=
  match tr.getLast? with
  | some ev => ev.error
  | none => none

/-- Fail-fast: every event but the last succeeded, and the last event failed with `e`
exactly when `failedWith e` holds of the result. -/
def FailFast (tr : List Event) (failedWith : Err → Prop) : Prop :=
  (∀ ev ∈ tr.dropLast, ev.error = none) ∧ ∀ e, lastError tr = some e ↔ failedWith e

/-- A request or a file creation. -/
inductive Effect
  | request (req : Request)
  | creation (name : GoString)
  deriving DecidableEq

/-- The request or file creation of an event, whatever came back. -/
def Event.effect : Event → Option Effect
  | .getProjects req _ => some (.request req)
  | .getBranch req _ => some (.request req)
  | .getCommit req _ => some (.request req)
  | .getJobs req _ => some (.request req)
  | .create name _ => some (.creation name)
  | .artifacts req _ => some (.request req)
  | _ => none

/-- The sequence of requests and file creations of a transcript. -/
def effects (tr : List Event) : List Effect := tr.filterMap Event.effect

/-- An event without what came back. -/
def Event.strip : Event → Event
  | .getProjects req _ => .getProjects req (.error [])
  | .getBranch req _ => .getBranch req (.error [])
  | .getCommit req _ => .getCommit req (.error [])
  | .getJobs req _ => .getJobs req (.error [])
  | .create name _ => .create name (.error [])
  | .artifacts req _ => .artifacts req (.error [])
  | .copy name req _ => .copy name req (.error [])
  | e => e

/-- Two worlds answer alike at time `t`. -/
def agreeAt (w w2 : World) (t : Nat) : Prop :=
  (∀ r, w.projects t r = w2.projects t r) ∧ (∀ r, w.branch t r = w2.branch t r) ∧
    (∀ r, w.commit t r = w2.commit t r) ∧ (∀ r, w.jobs t r = w2.jobs t r) ∧
    (∀ n, w.create t n = w2.create t n) ∧ (∀ r, w.artifacts t r = w2.artifacts t r) ∧
    (∀ n r, w.copy t n r = w2.copy t n r)

/-- Two worlds answer alike at all times before `n`. -/
def agreeBefore (w w2 : World) (n : Nat) : Prop := ∀ t, t < n → agreeAt w w2 t

/-- Two transcripts that start at time `t` are the same before time `n` and do the same thing
at time `n`. -/
def simFrom (n : Nat) : Nat → List Event → List Event → Prop
  | _, [], [] => True
  | t, e :: es, e2 :: es2 => if t < n then e = e2 ∧ simFrom n (t + 1) es es2 else e.strip = e2.strip
  | _, _, _ => False

/-- Two results of a piece of the run entered at time `t`: the transcripts are similar up to
time `n`, and the results are equal when the first ends by time `n`. -/
def Sim {ρ : Type} (n t : Nat) (x y : List Event × ρ) : Prop :=
  simFrom n t x.1 y.1 ∧ (t + x.1.length ≤ n → y = x)

/-- An API like `workingWorld` whose answer at time 5 (the first artifact request of a run that
finds the project on the first page) is an error. -/
def brokenArtifactsWorld : World :=
  { workingWorld with
    artifacts := fun t _ => if t = 5 then .error (lit "connection reset") else .ok () }

/-- A result with one more event in front. -/
abbrev emit {ρ : Type} (e : Event) (x : List Event × ρ) : List Event × ρ := (e :: x.1, x.2)

/-- A piece that may stop the run, followed by the piece `k`, which is told how many events
the first made. -/
abbrev andThen (x : List Event × Option Outcome) (k : Nat → List Event × Outcome) :
    List Event × Outcome :=
  match x.2 with
  | some o => (x.1, o)
  | none => (x.1 ++ (k x.1.length).1, (k x.1.length).2)

/-- The command line of `exampleArgs` with the single branch argument `:`. -/
def colonArgs : Args := { exampleArgs with branches := [lit ":"] }

/-- A path element that is neither `.` nor `..`. -/
def nonDot (seg : GoString) : Prop := seg ≠ lit "." ∧ seg ≠ lit ".."

/-- A path none of whose elements is `.` or `..`. -/
def NoDot (s : GoString) : Prop := ∀ seg ∈ s.splitOn (byteOf '/'), nonDot seg

/-- Every `%` is followed by two hexadecimal digits. -/
def escOK : GoString → Bool
  | [] => true
  | c :: s =>
    if c = byteOf '%' then
      match s with
      | a :: b :: s2 => ishex a && ishex b && escOK s2
      | _ => false
    else escOK s

/-- An escaped path as `EscapedPath` returns it: validly encoded and decodable. -/
def pathOK (s : GoString) : Bool := validEncoded .encodePath s && escOK s

/-- The arguments of `exampleArgs` with the branch `.`. -/
def dotArgs : Args := { exampleArgs with branches := [lit "."] }

/-- The value `branchesURL` of the runs on `exampleRoot` that find the project 7. -/
def exampleBranchesURL : URL := projectURLOf exampleRoot 7 (lit "/repository/branches/")

/-- A command line that names the flags of `exampleArgs` and the branch `master`. -/
def exampleCommandLine : List GoString :=
  [lit "-baseurl", lit "https://gitlab.example.com", lit "--project=group/project",
   lit "-stage", lit "test", lit "master"]


/-- The path elements that the loop of `resolvePath` has kept, as a list: `.` makes the empty
list the list of one empty element, `..` drops the last element, every other element is
added. -/
def segStep (segs : List GoString) (elem : GoString) : List GoString :=
  if elem = lit "." then (if segs = [] then [[]] else segs)
  else if elem = lit ".." then segs.dropLast
  else segs ++ [elem]

/-- The state of the loop of `resolvePath` holds the elements `segs`: the text is the
elements joined by slashes, and `first` is set when there is none. -/
def Holds (st : GoString × Bool) (segs : List GoString) : Prop :=
  st.1 = [byteOf '/'].intercalate segs ∧ (st.2 = true ↔ segs = []) ∧
    ∀ seg ∈ segs, byteOf '/' ∉ seg


/-! ## Facts about the string helpers -/

theorem cut_of_not_mem (sep : Byte) (s : GoString) (h : sep ∉ s) : cut sep s = (s, [], false) := by
  induction s with
  | nil => rfl
  | cons c s ih =>
    have hc : c ≠ sep := fun e => h (by simp [e])
    have hs : sep ∉ s := fun e => h (by simp [e])
    simp [cut, hc, ih hs]

theorem mem_of_mem_cut_fst (sep : Byte) (s : GoString) (c : Byte) (h : c ∈ (cut sep s).1) : c ∈ s := by
  induction s with
  | nil => simp [cut] at h
  | cons d s ih =>
    by_cases hd : d = sep
    · simp [cut, hd] at h
    · simp [cut, hd] at h
      rcases h with h | h
      · simp [h]
      · simp [ih h]

theorem getSchemeAux_of_no_colon (raw s : GoString) (i : Nat) (h : byteOf ':' ∉ s) :
    getSchemeAux raw i s = .ok ([], raw) := by
  induction s generalizing i with
  | nil => rfl
  | cons c s ih =>
    have hc : c ≠ byteOf ':' := fun e => h (by simp [e])
    have hs : byteOf ':' ∉ s := fun e => h (by simp [e])
    unfold getSchemeAux
    split
    · exact ih _ hs
    · split
      · split
        · rfl
        · exact ih _ hs
      · simp [hc]

theorem unescape_of_no_percent (mode : Encoding) (hm : mode = .encodePath ∨ mode = .encodePathSegment ∨ mode = .encodeFragment)
    (s : GoString) (h : byteOf '%' ∉ s) : unescape mode s = .ok s := by
  induction s with
  | nil => rfl
  | cons c s ih =>
    have hc : c ≠ byteOf '%' := fun e => h (by simp [e])
    have hs : byteOf '%' ∉ s := fun e => h (by simp [e])
    have h1 : mode ≠ .encodeQueryComponent := by rcases hm with h | h | h <;> simp [h]
    have h2 : ¬ (mode = .encodeHost ∨ mode = .encodeZone) := by rcases hm with h | h | h <;> simp [h]
    unfold unescape
    simp [hc, ih hs, h1, h2]

theorem escape_of_not_shouldEscape (mode : Encoding) (hm : mode ≠ .encodeQueryComponent)
    (s : GoString) (h : ∀ c ∈ s, shouldEscape c mode = false) : escape mode s = s := by
  induction s with
  | nil => rfl
  | cons c s ih =>
    have hc := h c (by simp)
    have hs : ∀ c ∈ s, shouldEscape c mode = false := fun d hd => h d (by simp [hd])
    simp [escape, hm, hc, ih hs]


theorem countByte_of_not_mem (sep : Byte) (s : GoString) (h : sep ∉ s) : countByte sep s = 0 := by
  simp [countByte, List.count_eq_zero, h]

theorem startsWith_slash_iff (s : GoString) : startsWith s (lit "/") = true ↔ s.head? = some (byteOf '/') := by
  cases s with
  | nil => simp [startsWith, lit]
  | cons c s =>
    simp [startsWith, lit]

/-- A string without control bytes, `#`, `?` and `:` that is not `*` and does not start with
`//` parses as a bare path. -/
theorem Parse_relative (pa : AuthorityParser) (s : GoString)
    (hctl : stringContainsCTLByte s = false) (hstar : s ≠ lit "*")
    (hhash : byteOf '#' ∉ s) (hq : byteOf '?' ∉ s) (hcolon : byteOf ':' ∉ s)
    (hss : startsWith s (lit "//") = false) :
    Parse pa s = ({} : URL).setPath s := by
  have hcolon2 : byteOf ':' ∉ (cut (byteOf '/') s).1 := fun h => hcolon (mem_of_mem_cut_fst _ _ _ h)
  simp only [Parse, cut_of_not_mem _ _ hhash, parse, hctl, getScheme,
    getSchemeAux_of_no_colon _ _ _ hcolon, countByte_of_not_mem _ _ hq, cut_of_not_mem _ _ hq, hss]
  simp [hstar, toLower, hcolon2, hss]
  cases h : URL.setPath { } s <;> simp


theorem plainByte_facts : ∀ c : Byte, plainByte c = true →
    (c.val < 32 || c.val = 127) = false ∧ c ≠ byteOf '#' ∧ c ≠ byteOf '?' ∧ c ≠ byteOf ':' ∧
    c ≠ byteOf '%' ∧ c ≠ byteOf '*' ∧ shouldEscape c .encodePath = false := by
  decide

theorem setPath_plain (u : URL) (s : GoString) (h : ∀ c ∈ s, plainByte c = true) :
    u.setPath s = .ok { u with Path := s, RawPath := [] } := by
  have h1 : byteOf '%' ∉ s := fun hm => (plainByte_facts _ (h _ hm)).2.2.2.2.1 rfl
  have h2 : escape .encodePath s = s :=
    escape_of_not_shouldEscape _ (by decide) s (fun c hc => (plainByte_facts _ (h _ hc)).2.2.2.2.2.2)
  simp [URL.setPath, unescape_of_no_percent _ (Or.inl rfl) s h1, h2]

theorem startsWith_two_slashes_false (s : GoString) (h : s.head? ≠ some (byteOf '/')) :
    startsWith s (lit "//") = false := by
  cases s with
  | nil => rfl
  | cons c s =>
    have hc : c ≠ byteOf '/' := fun e => h (by simp [e])
    cases s with
    | nil => simp [startsWith, lit, hc]
    | cons d s => simp [startsWith, lit, hc]

/-- A reference made of plain bytes that does not start with a slash parses as its own path. -/
theorem Parse_plain (pa : AuthorityParser) (s : GoString) (h : ∀ c ∈ s, plainByte c = true)
    (hs : s.head? ≠ some (byteOf '/')) : Parse pa s = .ok { Path := s } := by
  rw [Parse_relative pa s, setPath_plain _ s h]
  · simp [stringContainsCTLByte]
    intro c hc
    have := (plainByte_facts c (h c hc)).1
    simpa using this
  · intro e
    have := (plainByte_facts (byteOf '*') (h _ (by rw [e]; decide))).2.2.2.2.2.1
    exact this rfl
  · exact fun hm => (plainByte_facts _ (h _ hm)).2.1 rfl
  · exact fun hm => (plainByte_facts _ (h _ hm)).2.2.1 rfl
  · exact fun hm => (plainByte_facts _ (h _ hm)).2.2.2.1 rfl
  · exact startsWith_two_slashes_false s hs

theorem fmtDigits_digit (fuel n : Nat) : ∀ c ∈ fmtDigits fuel n, 48 ≤ c.val ∧ c.val ≤ 57 := by
  induction fuel generalizing n with
  | zero => simp [fmtDigits]
  | succ f ih =>
    intro c hc
    unfold fmtDigits at hc
    split at hc
    · simp at hc
      subst hc
      simp
      omega
    · simp at hc
      rcases hc with hc | hc
      · exact ih _ c hc
      · subst hc
        simp
        omega

theorem fmtDigits_ne_nil (fuel n : Nat) : fmtDigits (fuel + 1) n ≠ [] := by
  unfold fmtDigits
  split <;> simp

theorem decimal_digit (n : Nat) : ∀ c ∈ decimal n, 48 ≤ c.val ∧ c.val ≤ 57 := fmtDigits_digit _ _

theorem fmtUint_digit (n : Nat) : ∀ c ∈ fmtUint n, 48 ≤ c.val ∧ c.val ≤ 57 := decimal_digit _

theorem decimal_ne_nil (n : Nat) : decimal n ≠ [] := fmtDigits_ne_nil _ _

theorem fmtUint_ne_nil (n : Nat) : fmtUint n ≠ [] := decimal_ne_nil _

theorem digit_plain : ∀ c : Byte, 48 ≤ c.val ∧ c.val ≤ 57 → plainByte c = true ∧ c ≠ byteOf '/' ∧ c ≠ byteOf '-' := by
  decide

theorem fmtUint_plain (n : Nat) : ∀ c ∈ fmtUint n, plainByte c = true :=
  fun c hc => (digit_plain c (fmtUint_digit n c hc)).1

theorem parseURL_api (pa : AuthorityParser) : parseURL pa (lit "api/v4/") = .ok { Path := lit "api/v4/" } :=
  Parse_plain pa _ (by decide) (by decide)

theorem parseURL_projects (pa : AuthorityParser) : parseURL pa (lit "projects") = .ok { Path := lit "projects" } :=
  Parse_plain pa _ (by decide) (by decide)

/-- The references built with `Sprintf` from a number parse as bare paths: `parseURL` does not
panic on them. -/
theorem parseURL_sprintf (pa : AuthorityParser) (head tail : GoString) (n : Nat)
    (hh : ∀ c ∈ head, plainByte c = true) (ht : ∀ c ∈ tail, plainByte c = true)
    (h0 : (head ++ fmtUint n).head? ≠ some (byteOf '/')) :
    parseURL pa (head ++ fmtUint n ++ tail) = .ok { Path := head ++ fmtUint n ++ tail } := by
  apply Parse_plain
  · intro c hc
    simp only [List.mem_append] at hc
    rcases hc with (hc | hc) | hc
    · exact hh c hc
    · exact fmtUint_plain n c hc
    · exact ht c hc
  · cases hhd : head ++ fmtUint n with
    | nil => simp [fmtUint_ne_nil] at hhd
    | cons c s => rw [hhd] at h0; simpa using h0

theorem fmtUint_head (n : Nat) : (fmtUint n).head? ≠ some (byteOf '/') := by
  cases h : fmtUint n with
  | nil => simp
  | cons c s =>
    have := (digit_plain c (fmtUint_digit n c (by simp [h]))).2.1
    simpa using this

theorem parseURL_number (pa : AuthorityParser) (n : Nat) (tail : GoString)
    (ht : ∀ c ∈ tail, plainByte c = true) :
    parseURL pa (fmtUint n ++ tail) = .ok { Path := fmtUint n ++ tail } := by
  have := parseURL_sprintf pa [] tail n (by simp) ht (by simpa using fmtUint_head n)
  simpa using this

theorem parseURL_project (pa : AuthorityParser) (n : Nat) (tail : GoString)
    (ht : ∀ c ∈ tail, plainByte c = true) :
    parseURL pa (lit "projects/" ++ fmtUint n ++ tail) =
      .ok { Path := lit "projects/" ++ fmtUint n ++ tail } :=
  parseURL_sprintf pa _ tail n (by decide) ht (by simp [lit, byteOf])


/-! ### Decimal numbers -/

theorem digitsValue_fmtDigits (fuel n : Nat) (h : n < 10 ^ fuel) :
    digitsValue (fmtDigits fuel n) = n := by
  induction fuel generalizing n with
  | zero =>
    have h0 : n = 0 := by simpa using h
    subst h0
    rfl
  | succ f ih =>
    unfold fmtDigits
    split
    · rename_i h10
      simp [digitsValue]
      omega
    · rename_i h10
      have hdiv : n / 10 < 10 ^ f := by
        rw [Nat.div_lt_iff_lt_mul (by decide)]
        rw [pow_succ] at h
        exact h
      have := ih (n / 10) hdiv
      simp only [digitsValue, List.foldl_append, List.foldl_cons, List.foldl_nil] at this ⊢
      rw [this]
      omega

theorem digitsValue_decimal (n : Nat) : digitsValue (decimal n) = n := by
  apply digitsValue_fmtDigits
  calc n < 10 ^ n := Nat.lt_pow_self (by decide) n
    _ ≤ 10 ^ (n + 1) := Nat.pow_le_pow_right (by decide) (by omega)

theorem decimal_injective (m n : Nat) (h : decimal m = decimal n) : m = n := by
  have := congrArg digitsValue h
  simpa [digitsValue_decimal] using this

theorem fmtUint_of_lt (n : Nat) (h : n < 2 ^ 64) : fmtUint n = decimal n := by
  unfold fmtUint
  rw [Nat.mod_eq_of_lt h]

/-! ### The loop `PaginatingProjects` -/

theorem main_of_valid (pa : AuthorityParser) (w : World) (a : Args) (fuel : Nat) (rootURL : URL)
    (hv : validate pa a = .ok rootURL) :
    main pa w a fuel =
      match paginatingProjects w a.token a.project (projectsURLOf rootURL) fuel 1 0 with
      | (tr, .stop o) => (tr, o)
      | (tr, .found projectID) =>
        (tr ++ (branchLoop pa w a.token a.stage
            (projectURLOf rootURL projectID (lit "/repository/branches/"))
            (projectURLOf rootURL projectID (lit "/repository/commits/"))
            (projectURLOf rootURL projectID (lit "/pipelines/"))
            (projectURLOf rootURL projectID (lit "/jobs/")) a.branches tr.length).1,
         (branchLoop pa w a.token a.stage
            (projectURLOf rootURL projectID (lit "/repository/branches/"))
            (projectURLOf rootURL projectID (lit "/repository/commits/"))
            (projectURLOf rootURL projectID (lit "/pipelines/"))
            (projectURLOf rootURL projectID (lit "/jobs/")) a.branches tr.length).2) := by
  have h1 := fun n => parseURL_project pa n (lit "/repository/branches/") (by decide)
  have h2 := fun n => parseURL_project pa n (lit "/repository/commits/") (by decide)
  have h3 := fun n => parseURL_project pa n (lit "/pipelines/") (by decide)
  have h4 := fun n => parseURL_project pa n (lit "/jobs/") (by decide)
  simp only [main, hv, apiURLOf, parseURL_api, parseURL_projects, projectURL, h1, h2, h3, h4,
    projectsURLOf, apiURL, projectURLOf]

theorem pageEvents_succ (token : GoString) (projectsURL : URL) (pages : Nat → List glProject)
    (first k : Nat) :
    pageEvents token projectsURL pages first (k + 1) =
      Event.getProjects (pageRequest token projectsURL first) (.ok (pages first)) ::
        pageEvents token projectsURL pages (first + 1) k := by
  simp only [pageEvents, List.range_succ_eq_map, List.map_cons, List.map_map, Nat.add_zero]
  congr 1
  apply List.map_congr_left
  intro i _
  simp only [Function.comp, Nat.add_assoc, Nat.add_comm 1 i, Nat.succ_eq_add_one]

theorem pageEvents_length (token : GoString) (projectsURL : URL) (pages : Nat → List glProject)
    (first k : Nat) : (pageEvents token projectsURL pages first k).length = k := by
  simp [pageEvents]

theorem sentPageRequest_of_lt (token : GoString) (projectsURL : URL) (page : Nat)
    (h : page < 2 ^ 64) :
    sentPageRequest token projectsURL page = pageRequest token projectsURL page := by
  simp [sentPageRequest, pageRequest, fmtUint_of_lt page h]

theorem paginatingProjects_succ (w : World) (token project : GoString) (projectsURL : URL)
    (fuel page t : Nat) :
    paginatingProjects w token project projectsURL (fuel + 1) page t =
      match w.projects t
          (sentPageRequest token projectsURL page) with
      | .error e =>
        ([.getProjects (sentPageRequest token projectsURL page) (.error e)], .stop (.failed (.io e)))
      | .ok projects =>
        if projects.length < 1 then
          ([.getProjects (sentPageRequest token projectsURL page) (.ok projects)], .stop (.failed .noSuchProject))
        else
          match firstMatch project projects with
          | some projct =>
            ([.getProjects (sentPageRequest token projectsURL page) (.ok projects)], .found projct.ID)
          | none =>
            (.getProjects (sentPageRequest token projectsURL page) (.ok projects) ::
              (paginatingProjects w token project projectsURL fuel ((page + 1) % 2 ^ 64) (t + 1)).1,
             (paginatingProjects w token project projectsURL fuel ((page + 1) % 2 ^ 64) (t + 1)).2) := by
  conv => lhs; unfold paginatingProjects
  simp only [getJson, firstMatch, sentPageRequest]
  generalize w.projects t _ = r
  cases r <;> rfl

/-- While pages are non-empty and without a match the loop goes on to the next page. -/
theorem paginatingProjects_skip (w : World) (token project : GoString) (projectsURL : URL)
    (pages : Nat → List glProject) (m : Nat) :
    ∀ (page t fuel : Nat), page + m < 2 ^ 64 →
      (∀ i, i < m → w.projects (t + i) (pageRequest token projectsURL (page + i)) =
          .ok (pages (page + i)) ∧ pages (page + i) ≠ [] ∧
          firstMatch project (pages (page + i)) = none) →
      paginatingProjects w token project projectsURL (m + fuel) page t =
        (pageEvents token projectsURL pages page m ++
          (paginatingProjects w token project projectsURL fuel (page + m) (t + m)).1,
         (paginatingProjects w token project projectsURL fuel (page + m) (t + m)).2) := by
  induction m with
  | zero =>
    intro page t fuel hp _
    simp [pageEvents]
  | succ m ih =>
    intro page t fuel hp h
    have h0 := h 0 (by omega)
    simp only [Nat.add_zero] at h0
    obtain ⟨hw, hne, hnm⟩ := h0
    have hlt : page < 2 ^ 64 := by omega
    have hfuel : m + 1 + fuel = (m + fuel) + 1 := by omega
    have hnext : (page + 1) % 2 ^ 64 = page + 1 := Nat.mod_eq_of_lt (by omega)
    have hlen : ¬ (pages page).length < 1 := by
      cases hpg : pages page with
      | nil => exact absurd hpg hne
      | cons p ps => simp
    have hrec := ih (page + 1) (t + 1) fuel (by omega) (fun i hi => by
      have := h (i + 1) (by omega)
      simpa [Nat.add_assoc, Nat.add_comm 1 i] using this)
    have e1 : page + 1 + m = page + (m + 1) := by omega
    have e2 : t + 1 + m = t + (m + 1) := by omega
    rw [e1, e2] at hrec
    rw [hfuel, paginatingProjects_succ, sentPageRequest_of_lt token projectsURL page hlt, hw]
    simp only [hlen, if_false, hnm, hnext, hrec, pageEvents_succ, List.cons_append]

theorem not_length_lt_one {α : Type} (l : List α) (h : l ≠ []) : ¬ l.length < 1 := by
  cases l with
  | nil => exact absurd rfl h
  | cons a l => simp

theorem firstMatch_none_iff (project : GoString) (ps : List glProject) :
    firstMatch project ps = none ↔ ∀ p ∈ ps, p.PathWithNamespace ≠ project := by
  simp [firstMatch, List.find?_eq_none]

/-- A loop that is answered with non-empty pages without a match uses up all its fuel. -/
theorem paginatingProjects_running (w : World) (token project : GoString) (projectsURL : URL)
    (hw : ∀ t page, ∃ ps, w.projects t (sentPageRequest token projectsURL page) = .ok ps ∧
      ps ≠ [] ∧ ∀ p ∈ ps, p.PathWithNamespace ≠ project)
    (fuel : Nat) : ∀ page t,
      (paginatingProjects w token project projectsURL fuel page t).2 = .stop .running ∧
      (paginatingProjects w token project projectsURL fuel page t).1.length = fuel ∧
      ∀ e ∈ (paginatingProjects w token project projectsURL fuel page t).1,
        e.isPageRequest = true := by
  induction fuel with
  | zero => intro page t; simp [paginatingProjects]
  | succ fuel ih =>
    intro page t
    rw [paginatingProjects_succ]
    obtain ⟨ps, hps, hne, hnm⟩ := hw t page
    rw [hps]
    have hfm := (firstMatch_none_iff project ps).2 hnm
    simp only [not_length_lt_one ps hne, if_false, hfm]
    obtain ⟨h1, h2, h3⟩ := ih ((page + 1) % 2 ^ 64) (t + 1)
    refine ⟨h1, by rw [List.length_cons, h2], ?_⟩
    intro e he
    simp only [List.mem_cons] at he
    rcases he with he | he
    · subst he; rfl
    · exact h3 e he

/-- The loop ends only at a failed request, an empty page or a page with a match. -/
theorem paginatingProjects_ends (w : World) (token project : GoString) (projectsURL : URL)
    (fuel : Nat) : ∀ page t,
      (paginatingProjects w token project projectsURL fuel page t).2 ≠ .stop .running →
      ∃ req res, (paginatingProjects w token project projectsURL fuel page t).1.getLast? =
          some (.getProjects req res) ∧
        ((∃ e, res = .error e) ∨ res = .ok [] ∨
          ∃ ps p, res = .ok ps ∧ p ∈ ps ∧ p.PathWithNamespace = project) := by
  induction fuel with
  | zero => intro page t h; simp [paginatingProjects] at h
  | succ fuel ih =>
    intro page t
    rw [paginatingProjects_succ]
    cases hres : w.projects t (sentPageRequest token projectsURL page) with
    | error e =>
      intro _
      exact ⟨_, _, rfl, Or.inl ⟨e, rfl⟩⟩
    | ok ps =>
      by_cases hlen : ps.length < 1
      · intro _
        have : ps = [] := by
          cases ps with
          | nil => rfl
          | cons p ps => simp at hlen
        subst this
        simp only [hlen, if_true]
        exact ⟨_, _, rfl, Or.inr (Or.inl rfl)⟩
      · simp only [hlen, if_false]
        cases hf : firstMatch project ps with
        | some p =>
          intro _
          unfold firstMatch at hf
          refine ⟨_, _, rfl, Or.inr (Or.inr ⟨ps, p, rfl, List.mem_of_find?_eq_some hf, ?_⟩)⟩
          have := List.find?_some hf
          simpa using this
        | none =>
          intro h
          obtain ⟨req, res, h1, h2⟩ := ih ((page + 1) % 2 ^ 64) (t + 1) h
          refine ⟨req, res, ?_, h2⟩
          simp only
          rw [List.getLast?_cons, h1]
          rfl

theorem refOf_number (pa : AuthorityParser) (n : Nat) (tail : GoString)
    (ht : ∀ c ∈ tail, plainByte c = true) :
    refOf pa (fmtUint n ++ tail) = { Path := fmtUint n ++ tail } := by
  simp [refOf, parseURL_number pa n tail ht]


/-! ### The job loop, one job at a time -/

theorem jobLoop_cons (pa : AuthorityParser) (w : World) (token stage branch : GoString)
    (jobsURL : URL) (job : glJob) (jobs : List glJob) (t : Nat) :
    jobLoop pa w token stage branch jobsURL (job :: jobs) t =
      if selected stage job = true then
        match w.create t (fileName branch job.ID) with
        | .error e => ([.create (fileName branch job.ID) (.error e)], some (.failed (.io e)))
        | .ok u =>
          match w.artifacts (t + 1) (artifactsRequest pa token jobsURL job.ID) with
          | .error e =>
            ([.create (fileName branch job.ID) (.ok u),
              .artifacts (artifactsRequest pa token jobsURL job.ID) (.error e)],
             some (.failed (.io e)))
          | .ok u2 =>
            match w.copy (t + 2) (fileName branch job.ID)
                (artifactsRequest pa token jobsURL job.ID) with
            | .error e =>
              ([.create (fileName branch job.ID) (.ok u),
                .artifacts (artifactsRequest pa token jobsURL job.ID) (.ok u2),
                .copy (fileName branch job.ID) (artifactsRequest pa token jobsURL job.ID)
                  (.error e)],
               some (.failed (.io e)))
            | .ok u3 =>
              (.create (fileName branch job.ID) (.ok u) ::
                .artifacts (artifactsRequest pa token jobsURL job.ID) (.ok u2) ::
                .copy (fileName branch job.ID) (artifactsRequest pa token jobsURL job.ID)
                  (.ok u3) ::
                .closeFile (fileName branch job.ID) ::
                .closeBody (artifactsRequest pa token jobsURL job.ID) ::
                (jobLoop pa w token stage branch jobsURL jobs (t + 5)).1,
               (jobLoop pa w token stage branch jobsURL jobs (t + 5)).2)
      else jobLoop pa w token stage branch jobsURL jobs t := by
  conv => lhs; unfold jobLoop
  by_cases hsel : job.Stage = stage ∧ job.Artifacts.length > 0
  · have hs : selected stage job = true := by simp [selected, hsel]
    simp only [hsel, and_self, if_true, hs,
      parseURL_number pa job.ID (lit "/artifacts") (by decide), artifactsRequest,
      refOf_number pa job.ID (lit "/artifacts") (by decide)]
    cases w.create t (fileName branch job.ID) with
    | error e => rfl
    | ok u =>
      simp only
      cases w.artifacts (t + 1) _ with
      | error e => rfl
      | ok u2 =>
        simp only
        cases w.copy (t + 2) (fileName branch job.ID) _ with
        | error e => rfl
        | ok u3 => rfl
  · have hs : selected stage job = false := by simp [selected, hsel]
    simp only [hsel, if_false, hs, Bool.false_eq_true]

/-! ### Open handles -/

theorem openFrom_append (h : Handles) (xs ys : List Event) :
    openFrom h (xs ++ ys) = openFrom (openFrom h xs) ys := by
  simp [openFrom, List.foldl_append]

theorem wellScoped_append (xs ys : List Event) : ∀ h : Handles,
    wellScoped h (xs ++ ys) ↔ wellScoped h xs ∧ wellScoped (openFrom h xs) ys := by
  induction xs with
  | nil => intro h; simp [wellScoped, openFrom]
  | cons e xs ih =>
    intro h
    show ((e.startsStep = true → h = ([], [])) ∧ wellScoped (track h e) (xs ++ ys)) ↔
      ((e.startsStep = true → h = ([], [])) ∧ wellScoped (track h e) xs) ∧
        wellScoped (openFrom (track h e) xs) ys
    rw [ih (track h e), and_assoc]

theorem wellScoped_split (tr : List Event) : ∀ (h : Handles) (p : List Event) (e : Event)
    (rest : List Event), wellScoped h tr → tr = p ++ e :: rest → e.startsStep = true →
    openFrom h p = ([], []) := by
  intro h p e rest hs htr he
  subst htr
  have := ((wellScoped_append p (e :: rest) h).1 hs).2
  exact this.1 he

theorem getLast?_append_cons {α : Type} (xs : List α) (y : α) (ys : List α) :
    (xs ++ y :: ys).getLast? = (y :: ys).getLast? := by
  rw [List.getLast?_append]
  cases h : (y :: ys).getLast? with
  | none => simp at h
  | some a => rfl

theorem lastFailed_append (xs ys : List Event) :
    lastFailed (xs ++ ys) = if ys = [] then lastFailed xs else lastFailed ys := by
  cases ys with
  | nil => simp
  | cons y ys =>
    unfold lastFailed
    rw [getLast?_append_cons]
    simp

theorem Disciplined_nil (broke : Prop) : Disciplined [] broke := by
  simp [Disciplined, wellScoped, lastFailed, openFrom]

theorem Disciplined_append (xs ys : List Event) (broke : Prop)
    (h1 : wellScoped ([], []) xs) (h2 : openFrom ([], []) xs = ([], []))
    (h3 : lastFailed xs = false) (h : Disciplined ys broke) : Disciplined (xs ++ ys) broke := by
  obtain ⟨a, b, c⟩ := h
  refine ⟨(wellScoped_append xs ys _).2 ⟨h1, by rw [h2]; exact a⟩, ?_, ?_⟩
  · intro hl
    rw [openFrom_append, h2]
    rw [lastFailed_append] at hl
    by_cases hy : ys = []
    · subst hy; rfl
    · rw [if_neg hy] at hl
      exact b hl
  · intro hl
    rw [openFrom_append, h2]
    rw [lastFailed_append] at hl
    by_cases hy : ys = []
    · rw [if_pos hy, h3] at hl
      cases hl
    · rw [if_neg hy] at hl
      obtain ⟨c1, c2, c3⟩ := c hl
      refine ⟨c1, c2, fun name req e hg => c3 name req e ?_⟩
      obtain ⟨y, ys2, hys⟩ := List.exists_cons_of_ne_nil hy
      rw [hys, getLast?_append_cons] at hg
      rw [hys]
      exact hg

theorem Disciplined_mono (tr : List Event) (p q : Prop) (hpq : p → q) (h : Disciplined tr p) :
    Disciplined tr q :=
  ⟨h.1, h.2.1, fun hl => ⟨hpq (h.2.2 hl).1, (h.2.2 hl).2⟩⟩

theorem jobLoop_disciplined (pa : AuthorityParser) (w : World) (token stage branch : GoString)
    (jobsURL : URL) (jobs : List glJob) : ∀ t,
    Disciplined (jobLoop pa w token stage branch jobsURL jobs t).1
        (∃ e, (jobLoop pa w token stage branch jobsURL jobs t).2 = some (.failed (.io e))) ∧
      ((jobLoop pa w token stage branch jobsURL jobs t).2 = none →
        lastFailed (jobLoop pa w token stage branch jobsURL jobs t).1 = false) := by
  induction jobs with
  | nil =>
    intro t
    exact ⟨Disciplined_nil _, fun _ => rfl⟩
  | cons job jobs ih =>
    intro t
    rw [jobLoop_cons]
    by_cases hs : selected stage job = true
    · simp only [hs, if_true]
      cases w.create t (fileName branch job.ID) with
      | error e =>
        simp [Disciplined, wellScoped, lastFailed, openFrom, track, Event.startsStep,
          Event.failedTransfer]
      | ok u =>
        cases w.artifacts (t + 1) (artifactsRequest pa token jobsURL job.ID) with
        | error e =>
          simp [Disciplined, wellScoped, lastFailed, openFrom, track, Event.startsStep,
            Event.failedTransfer]
        | ok u2 =>
          cases w.copy (t + 2) (fileName branch job.ID) (artifactsRequest pa token jobsURL job.ID) with
          | error e =>
            simp [Disciplined, wellScoped, lastFailed, openFrom, track, Event.startsStep,
              Event.failedTransfer]
          | ok u3 =>
            obtain ⟨h1, h2⟩ := ih (t + 5)
            simp only
            constructor
            · exact Disciplined_append
                [.create (fileName branch job.ID) (.ok u),
                 .artifacts (artifactsRequest pa token jobsURL job.ID) (.ok u2),
                 .copy (fileName branch job.ID) (artifactsRequest pa token jobsURL job.ID) (.ok u3),
                 .closeFile (fileName branch job.ID),
                 .closeBody (artifactsRequest pa token jobsURL job.ID)] _ _
                (by simp [wellScoped, track, Event.startsStep])
                (by simp [openFrom, track])
                (by simp [lastFailed, Event.failedTransfer]) h1
            · intro hn
              have := lastFailed_append
                [.create (fileName branch job.ID) (.ok u),
                 .artifacts (artifactsRequest pa token jobsURL job.ID) (.ok u2),
                 .copy (fileName branch job.ID) (artifactsRequest pa token jobsURL job.ID) (.ok u3),
                 .closeFile (fileName branch job.ID),
                 .closeBody (artifactsRequest pa token jobsURL job.ID)]
                (jobLoop pa w token stage branch jobsURL jobs (t + 5)).1
              simp only [List.cons_append, List.nil_append] at this
              rw [this]
              split
              · simp [lastFailed, Event.failedTransfer]
              · exact h2 hn
    · simp only [hs, if_false]
      exact ih t

theorem branchLoop_disciplined (pa : AuthorityParser) (w : World) (token stage : GoString)
    (branchesURL commitsURL pipelinesURL jobsURL : URL) (branches : List GoString) : ∀ t,
    Disciplined (branchLoop pa w token stage branchesURL commitsURL pipelinesURL jobsURL branches t).1
      (∃ e, (branchLoop pa w token stage branchesURL commitsURL pipelinesURL jobsURL
        branches t).2 = .failed (.io e)) := by
  induction branches with
  | nil => intro t; exact Disciplined_nil _
  | cons branch branches ih =>
    intro t
    simp only [branchLoop, getJson]
    cases parseURL pa (PathEscape branch) with
    | error e => exact Disciplined_nil _
    | ok ref1 =>
      simp only
      cases w.branch t { URL := branchesURL.ResolveReference ref1, PrivateToken := token } with
      | error e =>
        simp [Disciplined, wellScoped, lastFailed, openFrom, track, Event.startsStep,
          Event.failedTransfer]
      | ok brnch =>
        simp only
        cases parseURL pa (PathEscape brnch.CommitID) with
        | error e =>
          simp [Disciplined, wellScoped, lastFailed, openFrom, track, Event.startsStep,
            Event.failedTransfer]
        | ok ref2 =>
          simp only
          cases w.commit (t + 1) { URL := commitsURL.ResolveReference ref2, PrivateToken := token } with
          | error e =>
            simp [Disciplined, wellScoped, lastFailed, openFrom, track, Event.startsStep,
              Event.failedTransfer]
          | ok commit =>
            simp only [parseURL_number pa commit.LastPipelineID (lit "/jobs") (by decide)]
            cases w.jobs (t + 2)
                { URL := pipelinesURL.ResolveReference
                    { Path := fmtUint commit.LastPipelineID ++ lit "/jobs" },
                  PrivateToken := token } with
            | error e =>
              simp [Disciplined, wellScoped, lastFailed, openFrom, track, Event.startsStep,
                Event.failedTransfer]
            | ok jobs =>
              simp only
              obtain ⟨hd, hn⟩ := jobLoop_disciplined pa w token stage branch jobsURL jobs (t + 3)
              cases hdl : (jobLoop pa w token stage branch jobsURL jobs (t + 3)).2 with
              | some o =>
                simp only
                refine Disciplined_append [_, _, _] _ _ (by simp [wellScoped, track, Event.startsStep])
                  (by simp [openFrom, track]) (by simp [lastFailed, Event.failedTransfer])
                  (Disciplined_mono _ _ _ ?_ hd)
                rintro ⟨e, he⟩
                rw [hdl] at he
                exact ⟨e, Option.some.inj he⟩
              | none =>
                simp only
                have hl := hn hdl
                refine Disciplined_append [_, _, _] _ _ (by simp [wellScoped, track, Event.startsStep])
                  (by simp [openFrom, track]) (by simp [lastFailed, Event.failedTransfer])
                  (Disciplined_append _ _ _ hd.1 (hd.2.1 hl) hl (ih _))

theorem pages_only (w : World) (token project : GoString) (projectsURL : URL) (fuel : Nat) :
    ∀ page t, ∀ e ∈ (paginatingProjects w token project projectsURL fuel page t).1,
      e.isPageRequest = true := by
  induction fuel with
  | zero => intro page t; simp [paginatingProjects]
  | succ fuel ih =>
    intro page t
    rw [paginatingProjects_succ]
    cases w.projects t (sentPageRequest token projectsURL page) with
    | error e => simp [Event.isPageRequest]
    | ok ps =>
      simp only
      split
      · simp [Event.isPageRequest]
      · split
        · simp [Event.isPageRequest]
        · intro e he
          simp only [List.mem_cons] at he
          rcases he with he | he
          · subst he; rfl
          · exact ih _ _ e he

theorem Disciplined_pages (tr : List Event) (h : ∀ e ∈ tr, e.isPageRequest = true) :
    wellScoped ([], []) tr ∧ openFrom ([], []) tr = ([], []) ∧ lastFailed tr = false := by
  induction tr using List.reverseRecOn with
  | nil => simp [wellScoped, openFrom, lastFailed]
  | append_singleton tr e ih =>
    obtain ⟨h1, h2, h3⟩ := ih (fun x hx => h x (by simp [hx]))
    have he := h e (by simp)
    cases e <;> simp [Event.isPageRequest] at he
    refine ⟨(wellScoped_append _ _ _).2 ⟨h1, by rw [h2]; simp [wellScoped]⟩, ?_, ?_⟩
    · rw [openFrom_append, h2]; rfl
    · rw [lastFailed_append]; simp [lastFailed, Event.failedTransfer]

theorem main_disciplined (pa : AuthorityParser) (w : World) (a : Args) (fuel : Nat) :
    Disciplined (main pa w a fuel).1 (∃ e, (main pa w a fuel).2 = .failed (.io e)) := by
  cases hv : validate pa a with
  | error e =>
    have : main pa w a fuel = ([], .usage e) := by simp [main, hv]
    rw [this]
    exact Disciplined_nil _
  | ok rootURL =>
    rw [main_of_valid pa w a fuel rootURL hv]
    have hp := pages_only w a.token a.project (projectsURLOf rootURL) fuel 1 0
    generalize paginatingProjects w a.token a.project (projectsURLOf rootURL) fuel 1 0 = r at hp
    rcases r with ⟨tr, id | o⟩
    · obtain ⟨h1, h2, h3⟩ := Disciplined_pages tr hp
      exact Disciplined_append _ _ _ h1 h2 h3 (branchLoop_disciplined _ _ _ _ _ _ _ _ _ _)
    · obtain ⟨h1, h2, h3⟩ := Disciplined_pages tr hp
      exact ⟨h1, fun _ => h2, fun hl => by rw [h3] at hl; cases hl⟩

theorem jobLoop_no_error (pa : AuthorityParser) (w : World) (token stage branch : GoString)
    (jobsURL : URL) (jobs : List glJob) : ∀ t,
    (∀ ev ∈ (jobLoop pa w token stage branch jobsURL jobs t).1, ev.error = none) →
    jobLoop pa w token stage branch jobsURL jobs t =
      ((jobs.filter (selected stage)).flatMap (download pa token branch jobsURL), none) := by
  induction jobs with
  | nil => intro t _; rfl
  | cons job jobs ih =>
    intro t
    rw [jobLoop_cons]
    by_cases hs : selected stage job = true
    · simp only [hs, if_true, List.filter_cons]
      cases w.create t (fileName branch job.ID) with
      | error e => intro h; simp [Event.error] at h
      | ok u =>
        cases w.artifacts (t + 1) (artifactsRequest pa token jobsURL job.ID) with
        | error e => intro h; simp [Event.error] at h
        | ok u2 =>
          cases w.copy (t + 2) (fileName branch job.ID) (artifactsRequest pa token jobsURL job.ID) with
          | error e => intro h; simp [Event.error] at h
          | ok u3 =>
            intro h
            have := ih (t + 5) (fun ev hev => h ev (by simp [hev]))
            simp only [this]
            rfl
    · simp only [hs, if_false, List.filter_cons]
      intro h
      exact ih t h

theorem refOf_of_ok (pa : AuthorityParser) (uri : GoString) (ref : URL)
    (h : parseURL pa uri = .ok ref) : refOf pa uri = ref := by
  simp [refOf, h]

theorem branchLoop_no_error (pa : AuthorityParser) (w : World) (token stage : GoString)
    (rootURL : URL) (projectID : Nat) (branches : List GoString) : ∀ t,
    (∀ ev ∈ (branchLoop pa w token stage
        (projectURLOf rootURL projectID (lit "/repository/branches/"))
        (projectURLOf rootURL projectID (lit "/repository/commits/"))
        (projectURLOf rootURL projectID (lit "/pipelines/"))
        (projectURLOf rootURL projectID (lit "/jobs/")) branches t).1, ev.error = none) →
    (∀ e, (branchLoop pa w token stage
        (projectURLOf rootURL projectID (lit "/repository/branches/"))
        (projectURLOf rootURL projectID (lit "/repository/commits/"))
        (projectURLOf rootURL projectID (lit "/pipelines/"))
        (projectURLOf rootURL projectID (lit "/jobs/")) branches t).2 ≠ .panicked e) →
    (branchLoop pa w token stage
        (projectURLOf rootURL projectID (lit "/repository/branches/"))
        (projectURLOf rootURL projectID (lit "/repository/commits/"))
        (projectURLOf rootURL projectID (lit "/pipelines/"))
        (projectURLOf rootURL projectID (lit "/jobs/")) branches t).2 = .finished ∧
      ∃ xs : List Answers, xs.length = branches.length ∧
        (branchLoop pa w token stage
          (projectURLOf rootURL projectID (lit "/repository/branches/"))
          (projectURLOf rootURL projectID (lit "/repository/commits/"))
          (projectURLOf rootURL projectID (lit "/pipelines/"))
          (projectURLOf rootURL projectID (lit "/jobs/")) branches t).1 =
        branchBlocks pa token stage rootURL projectID branches xs := by
  induction branches with
  | nil => intro t _ _; exact ⟨rfl, [], rfl, rfl⟩
  | cons branch branches ih =>
    intro t
    simp only [branchLoop, getJson]
    cases hp1 : parseURL pa (PathEscape branch) with
    | error e => intro _ h; exact absurd rfl (h e)
    | ok ref1 =>
      simp only
      cases hb : w.branch t
        { URL := (projectURLOf rootURL projectID (lit "/repository/branches/")).ResolveReference ref1,
          PrivateToken := token } with
      | error e => intro h; simp [Event.error] at h
      | ok brnch =>
        simp only
        cases hp2 : parseURL pa (PathEscape brnch.CommitID) with
        | error e => intro _ h; exact absurd rfl (h e)
        | ok ref2 =>
          simp only
          cases hc : w.commit (t + 1)
            { URL := (projectURLOf rootURL projectID (lit "/repository/commits/")).ResolveReference ref2,
              PrivateToken := token } with
          | error e => intro h; simp [Event.error] at h
          | ok commit =>
            simp only [parseURL_number pa commit.LastPipelineID (lit "/jobs") (by decide)]
            cases hj : w.jobs (t + 2)
              { URL := (projectURLOf rootURL projectID (lit "/pipelines/")).ResolveReference
                  { Path := fmtUint commit.LastPipelineID ++ lit "/jobs" },
                PrivateToken := token } with
            | error e => intro h; simp [Event.error] at h
            | ok jobs =>
              simp only
              cases hdl : (jobLoop pa w token stage branch
                  (projectURLOf rootURL projectID (lit "/jobs/")) jobs (t + 3)).2 with
              | some o =>
                simp only
                intro h _
                have hjl := jobLoop_no_error pa w token stage branch
                  (projectURLOf rootURL projectID (lit "/jobs/")) jobs (t + 3)
                  (fun ev hev => h ev (by simp [hev]))
                rw [hjl] at hdl
                cases hdl
              | none =>
                simp only
                intro h hpanic
                have hjl := jobLoop_no_error pa w token stage branch
                  (projectURLOf rootURL projectID (lit "/jobs/")) jobs (t + 3)
                  (fun ev hev => h ev (by simp [hev]))
                obtain ⟨hfin, xs, hlen, hxs⟩ := ih (t + 3 + (jobLoop pa w token stage branch
                  (projectURLOf rootURL projectID (lit "/jobs/")) jobs (t + 3)).1.length)
                  (fun ev hev => h ev (by simp [hev])) hpanic
                refine ⟨hfin, (brnch, commit, jobs) :: xs, by simp [hlen], ?_⟩
                rw [hxs, hjl]
                simp only [branchBlocks, branchBlock, branchRequest, commitRequest, jobsRequest,
                  refOf_of_ok pa _ _ hp1, refOf_of_ok pa _ _ hp2,
                  refOf_number pa commit.LastPipelineID (lit "/jobs") (by decide),
                  List.cons_append, List.nil_append, List.append_assoc]

theorem paginatingProjects_io_error (w : World) (token project : GoString) (projectsURL : URL)
    (fuel : Nat) : ∀ page t e,
    (paginatingProjects w token project projectsURL fuel page t).2 = .stop (.failed (.io e)) →
    ∃ ev ∈ (paginatingProjects w token project projectsURL fuel page t).1, ev.error = some e := by
  induction fuel with
  | zero => intro page t e h; simp [paginatingProjects] at h
  | succ fuel ih =>
    intro page t e
    rw [paginatingProjects_succ]
    cases w.projects t (sentPageRequest token projectsURL page) with
    | error e2 =>
      intro h
      simp only [Located.stop.injEq, Outcome.failed.injEq, Failure.io.injEq] at h
      subst h
      exact ⟨.getProjects (sentPageRequest token projectsURL page) (.error e2),
        List.mem_singleton.2 rfl, rfl⟩
    | ok ps =>
      simp only
      split
      · intro h; simp at h
      · split
        · intro h; simp at h
        · intro h
          obtain ⟨ev, hev, he⟩ := ih _ _ e h
          exact ⟨ev, List.mem_cons_of_mem _ hev, he⟩

theorem paginatingProjects_stop (w : World) (token project : GoString) (projectsURL : URL)
    (fuel : Nat) : ∀ page t o,
    (paginatingProjects w token project projectsURL fuel page t).2 = .stop o →
    o = .running ∨ ∃ f, o = .failed f := by
  induction fuel with
  | zero =>
    intro page t o h
    simp only [paginatingProjects, Located.stop.injEq] at h
    exact Or.inl h.symm
  | succ fuel ih =>
    intro page t o
    rw [paginatingProjects_succ]
    cases w.projects t (sentPageRequest token projectsURL page) with
    | error e2 =>
      intro h
      simp only [Located.stop.injEq] at h
      exact Or.inr ⟨_, h.symm⟩
    | ok ps =>
      simp only
      split
      · intro h
        simp only [Located.stop.injEq] at h
        exact Or.inr ⟨_, h.symm⟩
      · split
        · intro h; simp at h
        · intro h
          exact ih _ _ o h

theorem branchBlocks_no_page (pa : AuthorityParser) (token stage : GoString) (rootURL : URL)
    (projectID : Nat) (branches : List GoString) : ∀ xs : List Answers,
    ∀ e ∈ branchBlocks pa token stage rootURL projectID branches xs, e.isPageRequest = false := by
  induction branches with
  | nil => intro xs e he; simp [branchBlocks] at he
  | cons branch branches ih =>
    intro xs
    cases xs with
    | nil => intro e he; simp [branchBlocks] at he
    | cons x xs =>
      intro e he
      simp only [branchBlocks, branchBlock, List.mem_append, List.mem_cons, List.mem_flatMap,
        download, List.mem_singleton, List.not_mem_nil, or_false] at he
      rcases he with ((he | he | he) | ⟨job, _, he⟩) | he
      · subst he; rfl
      · subst he; rfl
      · subst he; rfl
      · rcases he with he | he | he | he | he <;> subst he <;> rfl
      · exact ih xs e he


/-! ### Fail-fast -/

theorem lastError_append (xs ys : List Event) :
    lastError (xs ++ ys) = if ys = [] then lastError xs else lastError ys := by
  cases ys with
  | nil => simp
  | cons y ys =>
    unfold lastError
    rw [getLast?_append_cons]
    simp

theorem FailFast_nil (failedWith : Err → Prop) (h : ∀ e, ¬ failedWith e) :
    FailFast [] failedWith := by
  refine ⟨by simp, fun e => ?_⟩
  simp [lastError, h e]

theorem lastError_of_ok (xs : List Event) (h : ∀ ev ∈ xs, ev.error = none) : lastError xs = none := by
  unfold lastError
  cases hg : xs.getLast? with
  | none => rfl
  | some ev => exact h ev (List.mem_of_getLast?_eq_some hg)

theorem FailFast_append (xs ys : List Event) (failedWith : Err → Prop)
    (hx : ∀ ev ∈ xs, ev.error = none) (h : FailFast ys failedWith) :
    FailFast (xs ++ ys) failedWith := by
  obtain ⟨h1, h2⟩ := h
  by_cases hy : ys = []
  · subst hy
    rw [List.append_nil]
    refine ⟨fun ev hev => hx ev (List.mem_of_mem_dropLast hev), fun e => ?_⟩
    rw [lastError_of_ok xs hx]
    have := h2 e
    simpa [lastError] using this
  · refine ⟨?_, fun e => ?_⟩
    · intro ev hev
      rw [List.dropLast_append_of_ne_nil _ hy] at hev
      rcases List.mem_append.1 hev with h | h
      · exact hx ev h
      · exact h1 ev h
    · rw [lastError_append, if_neg hy]
      exact h2 e

theorem FailFast_congr (tr : List Event) (p q : Err → Prop) (hpq : ∀ e, p e ↔ q e)
    (h : FailFast tr p) : FailFast tr q :=
  ⟨h.1, fun e => (h.2 e).trans (hpq e)⟩

theorem FailFast_all_ok (tr : List Event) (p : Err → Prop) (h : FailFast tr p)
    (hp : ∀ e, ¬ p e) : ∀ ev ∈ tr, ev.error = none := by
  intro ev hev
  obtain ⟨h1, h2⟩ := h
  rcases List.eq_nil_or_concat tr with h | ⟨xs, x, h⟩
  · subst h; simp at hev
  · subst h
    simp only [List.concat_eq_append, List.dropLast_concat] at h1 hev
    rcases List.mem_append.1 hev with h | h
    · exact h1 ev h
    · simp only [List.mem_singleton] at h
      subst h
      cases hx : ev.error with
      | none => rfl
      | some e =>
        exfalso
        apply hp e
        apply (h2 e).1
        simp [lastError, hx]

theorem jobLoop_failFast (pa : AuthorityParser) (w : World) (token stage branch : GoString)
    (jobsURL : URL) (jobs : List glJob) : ∀ t,
    FailFast (jobLoop pa w token stage branch jobsURL jobs t).1
      (fun e => (jobLoop pa w token stage branch jobsURL jobs t).2 = some (.failed (.io e))) := by
  induction jobs with
  | nil => intro t; exact FailFast_nil _ (by simp [jobLoop])
  | cons job jobs ih =>
    intro t
    rw [jobLoop_cons]
    by_cases hs : selected stage job = true
    · simp only [hs, if_true]
      cases w.create t (fileName branch job.ID) with
      | error e => simp [FailFast, lastError, Event.error, eq_comm]
      | ok u =>
        cases w.artifacts (t + 1) (artifactsRequest pa token jobsURL job.ID) with
        | error e => simp [FailFast, lastError, Event.error, eq_comm]
        | ok u2 =>
          cases w.copy (t + 2) (fileName branch job.ID) (artifactsRequest pa token jobsURL job.ID) with
          | error e => simp [FailFast, lastError, Event.error, eq_comm]
          | ok u3 =>
            exact FailFast_append [_, _, _, _, _] _ _ (by simp [Event.error]) (ih (t + 5))
    · simp only [hs, if_false]
      exact ih t

theorem branchLoop_failFast (pa : AuthorityParser) (w : World) (token stage : GoString)
    (branchesURL commitsURL pipelinesURL jobsURL : URL) (branches : List GoString) : ∀ t,
    FailFast (branchLoop pa w token stage branchesURL commitsURL pipelinesURL jobsURL branches t).1
      (fun e => (branchLoop pa w token stage branchesURL commitsURL pipelinesURL jobsURL
        branches t).2 = .failed (.io e)) := by
  induction branches with
  | nil => intro t; exact FailFast_nil _ (by simp [branchLoop])
  | cons branch branches ih =>
    intro t
    simp only [branchLoop, getJson]
    cases parseURL pa (PathEscape branch) with
    | error e => exact FailFast_nil _ (by simp)
    | ok ref1 =>
      simp only
      cases w.branch t { URL := branchesURL.ResolveReference ref1, PrivateToken := token } with
      | error e => simp [FailFast, lastError, Event.error, eq_comm]
      | ok brnch =>
        simp only
        cases parseURL pa (PathEscape brnch.CommitID) with
        | error e => simp [FailFast, lastError, Event.error]
        | ok ref2 =>
          simp only
          cases w.commit (t + 1) { URL := commitsURL.ResolveReference ref2, PrivateToken := token } with
          | error e => simp [FailFast, lastError, Event.error, eq_comm]
          | ok commit =>
            simp only [parseURL_number pa commit.LastPipelineID (lit "/jobs") (by decide)]
            cases w.jobs (t + 2)
                { URL := pipelinesURL.ResolveReference
                    { Path := fmtUint commit.LastPipelineID ++ lit "/jobs" },
                  PrivateToken := token } with
            | error e => simp [FailFast, lastError, Event.error, eq_comm]
            | ok jobs =>
              simp only
              have hj := jobLoop_failFast pa w token stage branch jobsURL jobs (t + 3)
              cases hdl : (jobLoop pa w token stage branch jobsURL jobs (t + 3)).2 with
              | some o =>
                simp only
                refine FailFast_append [_, _, _] _ _ (by simp [Event.error])
                  (FailFast_congr _ _ _ (fun e => ?_) hj)
                rw [hdl]
                simp
              | none =>
                simp only
                have hok := FailFast_all_ok _ _ hj (fun e => by rw [hdl]; simp)
                exact FailFast_append [_, _, _] _ _ (by simp [Event.error])
                  (FailFast_append _ _ _ hok (ih _))

theorem paginatingProjects_failFast (w : World) (token project : GoString) (projectsURL : URL)
    (fuel : Nat) : ∀ page t,
    FailFast (paginatingProjects w token project projectsURL fuel page t).1
      (fun e => (paginatingProjects w token project projectsURL fuel page t).2 =
        .stop (.failed (.io e))) := by
  induction fuel with
  | zero => intro page t; exact FailFast_nil _ (by simp [paginatingProjects])
  | succ fuel ih =>
    intro page t
    rw [paginatingProjects_succ]
    cases w.projects t (sentPageRequest token projectsURL page) with
    | error e => simp [FailFast, lastError, Event.error, eq_comm]
    | ok ps =>
      simp only
      split
      · simp [FailFast, lastError, Event.error]
      · split
        · simp [FailFast, lastError, Event.error]
        · exact FailFast_append [_] _ _ (by simp [Event.error]) (ih _ _)

theorem main_failFast (pa : AuthorityParser) (w : World) (a : Args) (fuel : Nat) :
    FailFast (main pa w a fuel).1 (fun e => (main pa w a fuel).2 = .failed (.io e)) := by
  cases hv : validate pa a with
  | error e =>
    have : main pa w a fuel = ([], .usage e) := by simp [main, hv]
    rw [this]
    exact FailFast_nil _ (by simp)
  | ok rootURL =>
    rw [main_of_valid pa w a fuel rootURL hv]
    have hp := paginatingProjects_failFast w a.token a.project (projectsURLOf rootURL) fuel 1 0
    generalize paginatingProjects w a.token a.project (projectsURLOf rootURL) fuel 1 0 = r at hp
    rcases r with ⟨tr, id | o⟩
    · have hok := FailFast_all_ok _ _ hp (fun e => by simp)
      exact FailFast_append _ _ _ hok (branchLoop_failFast _ _ _ _ _ _ _ _ _ _)
    · refine FailFast_congr _ _ _ (fun e => ?_) hp
      simp

theorem FailFast_split (tr : List Event) (p : Err → Prop) (h : FailFast tr p)
    (pre : List Event) (ev : Event) (rest : List Event) (e : Err)
    (htr : tr = pre ++ ev :: rest) (he : ev.error = some e) : rest = [] ∧ p e := by
  subst htr
  obtain ⟨h1, h2⟩ := h
  have hrest : rest = [] := by
    by_contra hne
    have : ev ∈ (pre ++ ev :: rest).dropLast := by
      rw [List.dropLast_append_of_ne_nil _ (by simp), List.dropLast_cons_of_ne_nil hne]
      simp
    rw [h1 ev this] at he
    cases he
  subst hrest
  refine ⟨rfl, (h2 e).1 ?_⟩
  simp [lastError, he]

/-! ### Two worlds that agree for a while -/

theorem simFrom_refl (n : Nat) (es : List Event) : ∀ t, simFrom n t es es := by
  induction es with
  | nil => intro t; simp [simFrom]
  | cons e es ih =>
    intro t
    simp only [simFrom]
    split
    · exact ⟨trivial, ih _⟩
    · trivial

theorem Sim_refl {ρ : Type} (n t : Nat) (x : List Event × ρ) : Sim n t x x :=
  ⟨simFrom_refl n x.1 t, fun _ => rfl⟩

theorem Sim_cons {ρ : Type} (n t : Nat) (e : Event) (x y : List Event × ρ)
    (h : t < n → Sim n (t + 1) x y) : Sim n t (e :: x.1, x.2) (e :: y.1, y.2) := by
  constructor
  · simp only [simFrom]
    split
    · rename_i ht
      exact ⟨trivial, (h ht).1⟩
    · trivial
  · intro hl
    simp only [List.length_cons] at hl
    have ht : t < n := by omega
    have := (h ht).2 (by omega)
    rw [this]

theorem Sim_beyond {ρ : Type} (n t : Nat) (e e2 : Event) (es es2 : List Event) (r r2 : ρ)
    (ht : ¬ t < n) (hs : e.strip = e2.strip) : Sim n t (e :: es, r) (e2 :: es2, r2) := by
  constructor
  · simp only [simFrom, ht, if_false]
    exact hs
  · intro hl
    simp only [List.length_cons] at hl
    omega

theorem simFrom_append_same (n : Nat) (xs ys ys2 : List Event) : ∀ t,
    simFrom n (t + xs.length) ys ys2 → simFrom n t (xs ++ ys) (xs ++ ys2) := by
  induction xs with
  | nil => intro t h; simpa using h
  | cons x xs ih =>
    intro t h
    simp only [List.cons_append, simFrom]
    split
    · refine ⟨trivial, ih _ ?_⟩
      have e : t + (x :: xs).length = t + 1 + xs.length := by simp; omega
      rw [← e]
      exact h
    · trivial

theorem simFrom_append_beyond (n : Nat) (xs : List Event) : ∀ (t : Nat) (xs2 ys ys2 : List Event),
    t ≤ n → n < t + xs.length → simFrom n t xs xs2 → simFrom n t (xs ++ ys) (xs2 ++ ys2) := by
  induction xs with
  | nil => intro t xs2 ys ys2 h1 h2 _; simp at h2; omega
  | cons x xs ih =>
    intro t xs2 ys ys2 h1 h2 h
    cases xs2 with
    | nil => simp [simFrom] at h
    | cons x2 xs2 =>
      simp only [List.cons_append, simFrom] at h ⊢
      split
      · rename_i ht
        rw [if_pos ht] at h
        refine ⟨h.1, ih (t + 1) xs2 ys ys2 (by omega) ?_ h.2⟩
        simp only [List.length_cons] at h2
        omega
      · rename_i ht
        rw [if_neg ht] at h
        exact h

theorem simFrom_length (n : Nat) (xs : List Event) : ∀ (t : Nat) (xs2 : List Event),
    t ≤ n → n < t + xs.length → simFrom n t xs xs2 → n < t + xs2.length := by
  induction xs with
  | nil => intro t xs2 h1 h2 _; simp at h2; omega
  | cons x xs ih =>
    intro t xs2 h1 h2 h
    cases xs2 with
    | nil => simp [simFrom] at h
    | cons x2 xs2 =>
      simp only [simFrom] at h
      by_cases ht : t < n
      · rw [if_pos ht] at h
        have := ih (t + 1) xs2 (by omega) (by simp only [List.length_cons] at h2; omega) h.2
        simp only [List.length_cons]
        omega
      · simp only [List.length_cons]
        omega

/-- A piece that may stop the run, followed by a piece entered when the first has gone
through. -/
theorem Sim_seq (n t : Nat) (x y : List Event × Option Outcome)
    (k k2 : Nat → List Event × Outcome) (ht : t ≤ n) (h : Sim n t x y)
    (hk : ∀ len, t + len ≤ n → Sim n (t + len) (k len) (k2 len)) :
    Sim n t
      (match x.2 with
        | some o => (x.1, o)
        | none => (x.1 ++ (k x.1.length).1, (k x.1.length).2))
      (match y.2 with
        | some o => (y.1, o)
        | none => (y.1 ++ (k2 y.1.length).1, (k2 y.1.length).2)) := by
  by_cases hl : t + x.1.length ≤ n
  · have hxy := h.2 hl
    rw [hxy]
    cases hx : x.2 with
    | some o => exact Sim_refl _ _ _
    | none =>
      simp only
      obtain ⟨h1, h2⟩ := hk x.1.length hl
      constructor
      · exact simFrom_append_same n _ _ _ t h1
      · intro hlen
        simp only [List.length_append] at hlen
        have := h2 (by omega)
        rw [this]
  · have hb : n < t + x.1.length := by omega
    constructor
    · have e1 : ∀ (z : List Event × Option Outcome) (kk : Nat → List Event × Outcome),
          (match z.2 with
            | some o => (z.1, o)
            | none => (z.1 ++ (kk z.1.length).1, (kk z.1.length).2)).1 =
          z.1 ++ (match z.2 with
            | some _ => []
            | none => (kk z.1.length).1) := by
        intro z kk
        cases z.2 <;> simp
      rw [e1, e1]
      exact simFrom_append_beyond n _ t _ _ _ ht hb h.1
    · intro hlen
      exfalso
      have : x.1.length ≤ (match x.2 with
            | some o => (x.1, o)
            | none => (x.1 ++ (k x.1.length).1, (k x.1.length).2)).1.length := by
        cases x.2 <;> simp
      omega

theorem jobLoop_emit (pa : AuthorityParser) (w : World) (token stage branch : GoString)
    (jobsURL : URL) (job : glJob) (jobs : List glJob) (t : Nat) :
    jobLoop pa w token stage branch jobsURL (job :: jobs) t =
      if selected stage job = true then
        emit (.create (fileName branch job.ID) (w.create t (fileName branch job.ID)))
          (match w.create t (fileName branch job.ID) with
          | .error e => ([], some (.failed (.io e)))
          | .ok _ =>
            emit (.artifacts (artifactsRequest pa token jobsURL job.ID)
                (w.artifacts (t + 1) (artifactsRequest pa token jobsURL job.ID)))
              (match w.artifacts (t + 1) (artifactsRequest pa token jobsURL job.ID) with
              | .error e => ([], some (.failed (.io e)))
              | .ok _ =>
                emit (.copy (fileName branch job.ID) (artifactsRequest pa token jobsURL job.ID)
                    (w.copy (t + 2) (fileName branch job.ID)
                      (artifactsRequest pa token jobsURL job.ID)))
                  (match w.copy (t + 2) (fileName branch job.ID)
                      (artifactsRequest pa token jobsURL job.ID) with
                  | .error e => ([], some (.failed (.io e)))
                  | .ok _ =>
                    emit (.closeFile (fileName branch job.ID))
                      (emit (.closeBody (artifactsRequest pa token jobsURL job.ID))
                        (jobLoop pa w token stage branch jobsURL jobs (t + 5))))))
      else jobLoop pa w token stage branch jobsURL jobs t := by
  rw [jobLoop_cons]
  split
  · cases w.create t (fileName branch job.ID) with
    | error e => rfl
    | ok u =>
      cases w.artifacts (t + 1) (artifactsRequest pa token jobsURL job.ID) with
      | error e => rfl
      | ok u2 =>
        cases w.copy (t + 2) (fileName branch job.ID) (artifactsRequest pa token jobsURL job.ID) with
        | error e => rfl
        | ok u3 => rfl
  · rfl

theorem jobLoop_sim (pa : AuthorityParser) (w w2 : World) (n : Nat) (hag : agreeBefore w w2 n)
    (token stage branch : GoString) (jobsURL : URL) (jobs : List glJob) : ∀ t,
    Sim n t (jobLoop pa w token stage branch jobsURL jobs t)
      (jobLoop pa w2 token stage branch jobsURL jobs t) := by
  induction jobs with
  | nil => intro t; exact Sim_refl _ _ _
  | cons job jobs ih =>
    intro t
    rw [jobLoop_emit, jobLoop_emit]
    split
    · by_cases h0 : t < n
      · rw [← (hag t h0).2.2.2.2.1]
        apply Sim_cons
        intro _
        cases w.create t (fileName branch job.ID) with
        | error e => exact Sim_refl _ _ _
        | ok u =>
          simp only
          by_cases h1 : t + 1 < n
          · rw [← (hag (t + 1) h1).2.2.2.2.2.1]
            apply Sim_cons
            intro _
            cases w.artifacts (t + 1) (artifactsRequest pa token jobsURL job.ID) with
            | error e => exact Sim_refl _ _ _
            | ok u2 =>
              simp only
              by_cases h2 : t + 1 + 1 < n
              · rw [← (hag (t + 2) h2).2.2.2.2.2.2]
                apply Sim_cons
                intro _
                cases w.copy (t + 2) (fileName branch job.ID)
                    (artifactsRequest pa token jobsURL job.ID) with
                | error e => exact Sim_refl _ _ _
                | ok u3 =>
                  simp only
                  apply Sim_cons
                  intro _
                  apply Sim_cons
                  intro _
                  exact ih _
              · exact Sim_beyond n _ _ _ _ _ _ _ h2 rfl
          · exact Sim_beyond n _ _ _ _ _ _ _ h1 rfl
      · exact Sim_beyond n _ _ _ _ _ _ _ h0 rfl
    · exact ih t

theorem branchLoop_emit (pa : AuthorityParser) (w : World) (token stage : GoString)
    (branchesURL commitsURL pipelinesURL jobsURL : URL) (branch : GoString)
    (branches : List GoString) (t : Nat) :
    branchLoop pa w token stage branchesURL commitsURL pipelinesURL jobsURL (branch :: branches) t =
      match parseURL pa (PathEscape branch) with
      | .error e => ([], .panicked e)
      | .ok _ =>
        emit (.getBranch (branchRequest pa token branchesURL branch)
            (w.branch t (branchRequest pa token branchesURL branch)))
          (match w.branch t (branchRequest pa token branchesURL branch) with
          | .error e => ([], .failed (.io e))
          | .ok brnch =>
            match parseURL pa (PathEscape brnch.CommitID) with
            | .error e => ([], .panicked e)
            | .ok _ =>
              emit (.getCommit (commitRequest pa token commitsURL brnch.CommitID)
                  (w.commit (t + 1) (commitRequest pa token commitsURL brnch.CommitID)))
                (match w.commit (t + 1) (commitRequest pa token commitsURL brnch.CommitID) with
                | .error e => ([], .failed (.io e))
                | .ok commit =>
                  emit (.getJobs (jobsRequest pa token pipelinesURL commit.LastPipelineID)
                      (w.jobs (t + 2) (jobsRequest pa token pipelinesURL commit.LastPipelineID)))
                    (match w.jobs (t + 2)
                        (jobsRequest pa token pipelinesURL commit.LastPipelineID) with
                    | .error e => ([], .failed (.io e))
                    | .ok jobs =>
                      andThen (jobLoop pa w token stage branch jobsURL jobs (t + 3))
                        (fun len => branchLoop pa w token stage branchesURL commitsURL
                          pipelinesURL jobsURL branches (t + 3 + len))))) := by
  simp only [branchLoop, getJson]
  cases hp1 : parseURL pa (PathEscape branch) with
  | error e => rfl
  | ok ref1 =>
    simp only [branchRequest, refOf_of_ok pa _ _ hp1]
    cases w.branch t { URL := branchesURL.ResolveReference ref1, PrivateToken := token } with
    | error e => rfl
    | ok brnch =>
      simp only
      cases hp2 : parseURL pa (PathEscape brnch.CommitID) with
      | error e => rfl
      | ok ref2 =>
        simp only [commitRequest, refOf_of_ok pa _ _ hp2]
        cases w.commit (t + 1) { URL := commitsURL.ResolveReference ref2, PrivateToken := token } with
        | error e => rfl
        | ok commit =>
          simp only [parseURL_number pa commit.LastPipelineID (lit "/jobs") (by decide),
            jobsRequest, refOf_number pa commit.LastPipelineID (lit "/jobs") (by decide)]
          cases w.jobs (t + 2)
              { URL := pipelinesURL.ResolveReference
                  { Path := fmtUint commit.LastPipelineID ++ lit "/jobs" },
                PrivateToken := token } with
          | error e => rfl
          | ok jobs =>
            simp only [emit, andThen]
            cases (jobLoop pa w token stage branch jobsURL jobs (t + 3)).2 <;> rfl

theorem branchLoop_sim (pa : AuthorityParser) (w w2 : World) (n : Nat) (hag : agreeBefore w w2 n)
    (token stage : GoString) (branchesURL commitsURL pipelinesURL jobsURL : URL)
    (branches : List GoString) : ∀ t, t ≤ n →
    Sim n t (branchLoop pa w token stage branchesURL commitsURL pipelinesURL jobsURL branches t)
      (branchLoop pa w2 token stage branchesURL commitsURL pipelinesURL jobsURL branches t) := by
  induction branches with
  | nil => intro t _; exact Sim_refl _ _ _
  | cons branch branches ih =>
    intro t ht
    rw [branchLoop_emit, branchLoop_emit]
    cases parseURL pa (PathEscape branch) with
    | error e => exact Sim_refl _ _ _
    | ok ref1 =>
      simp only
      by_cases h0 : t < n
      · rw [← (hag t h0).2.1]
        apply Sim_cons
        intro _
        cases w.branch t (branchRequest pa token branchesURL branch) with
        | error e => exact Sim_refl _ _ _
        | ok brnch =>
          simp only
          cases parseURL pa (PathEscape brnch.CommitID) with
          | error e => exact Sim_refl _ _ _
          | ok ref2 =>
            simp only
            by_cases h1 : t + 1 < n
            · rw [← (hag (t + 1) h1).2.2.1]
              apply Sim_cons
              intro _
              cases w.commit (t + 1) (commitRequest pa token commitsURL brnch.CommitID) with
              | error e => exact Sim_refl _ _ _
              | ok commit =>
                simp only
                by_cases h2 : t + 1 + 1 < n
                · rw [← (hag (t + 2) h2).2.2.2.1]
                  apply Sim_cons
                  intro _
                  cases w.jobs (t + 2) (jobsRequest pa token pipelinesURL commit.LastPipelineID) with
                  | error e => exact Sim_refl _ _ _
                  | ok jobs =>
                    simp only
                    have e3 : t + 1 + 1 + 1 = t + 3 := by omega
                    rw [e3]
                    exact Sim_seq n (t + 3) _ _ _ _ (by omega)
                      (jobLoop_sim pa w w2 n hag token stage branch jobsURL jobs (t + 3))
                      (fun len hlen => ih (t + 3 + len) hlen)
                · exact Sim_beyond n _ _ _ _ _ _ _ h2 rfl
            · exact Sim_beyond n _ _ _ _ _ _ _ h1 rfl
      · exact Sim_beyond n _ _ _ _ _ _ _ h0 rfl

theorem paginatingProjects_emit (w : World) (token project : GoString) (projectsURL : URL)
    (fuel page t : Nat) :
    paginatingProjects w token project projectsURL (fuel + 1) page t =
      emit (.getProjects (sentPageRequest token projectsURL page)
          (w.projects t (sentPageRequest token projectsURL page)))
        (match w.projects t (sentPageRequest token projectsURL page) with
        | .error e => ([], .stop (.failed (.io e)))
        | .ok projects =>
          if projects.length < 1 then ([], .stop (.failed .noSuchProject))
          else
            match firstMatch project projects with
            | some projct => ([], .found projct.ID)
            | none =>
              paginatingProjects w token project projectsURL fuel ((page + 1) % 2 ^ 64) (t + 1)) := by
  rw [paginatingProjects_succ]
  cases w.projects t (sentPageRequest token projectsURL page) with
  | error e => rfl
  | ok ps =>
    simp only
    by_cases hl : ps.length < 1
    · simp only [hl, if_true]
    · simp only [hl, if_false]
      cases firstMatch project ps <;> rfl

theorem paginatingProjects_sim (w w2 : World) (n : Nat) (hag : agreeBefore w w2 n)
    (token project : GoString) (projectsURL : URL) (fuel : Nat) : ∀ page t,
    Sim n t (paginatingProjects w token project projectsURL fuel page t)
      (paginatingProjects w2 token project projectsURL fuel page t) := by
  induction fuel with
  | zero => intro page t; exact Sim_refl _ _ _
  | succ fuel ih =>
    intro page t
    rw [paginatingProjects_emit, paginatingProjects_emit]
    by_cases h0 : t < n
    · rw [← (hag t h0).1]
      apply Sim_cons
      intro _
      cases w.projects t (sentPageRequest token projectsURL page) with
      | error e => exact Sim_refl _ _ _
      | ok ps =>
        simp only
        split
        · exact Sim_refl _ _ _
        · split
          · exact Sim_refl _ _ _
          · exact ih _ _
    · exact Sim_beyond n _ _ _ _ _ _ _ h0 rfl

theorem main_sim (pa : AuthorityParser) (w w2 : World) (n : Nat) (hag : agreeBefore w w2 n)
    (a : Args) (fuel : Nat) : Sim n 0 (main pa w a fuel) (main pa w2 a fuel) := by
  cases hv : validate pa a with
  | error e =>
    have h1 : main pa w a fuel = ([], .usage e) := by simp [main, hv]
    have h2 : main pa w2 a fuel = ([], .usage e) := by simp [main, hv]
    rw [h1, h2]
    exact Sim_refl _ _ _
  | ok rootURL =>
    rw [main_of_valid pa w a fuel rootURL hv, main_of_valid pa w2 a fuel rootURL hv]
    have hs := paginatingProjects_sim w w2 n hag a.token a.project (projectsURLOf rootURL) fuel 1 0
    generalize paginatingProjects w a.token a.project (projectsURLOf rootURL) fuel 1 0 = x at hs
    generalize paginatingProjects w2 a.token a.project (projectsURLOf rootURL) fuel 1 0 = y at hs
    by_cases hl : 0 + x.1.length ≤ n
    · have hxy := hs.2 hl
      rw [hxy]
      rcases x with ⟨tr, id | o⟩
      · simp only
        simp only [Nat.zero_add] at hl
        obtain ⟨h1, h2⟩ := branchLoop_sim pa w w2 n hag a.token a.stage
          (projectURLOf rootURL id (lit "/repository/branches/"))
          (projectURLOf rootURL id (lit "/repository/commits/"))
          (projectURLOf rootURL id (lit "/pipelines/"))
          (projectURLOf rootURL id (lit "/jobs/")) a.branches tr.length hl
        constructor
        · exact simFrom_append_same n tr _ _ 0 (by simpa using h1)
        · intro hlen
          simp only [List.length_append] at hlen
          have := h2 (by omega)
          rw [this]
      · exact Sim_refl _ _ _
    · have hb : n < 0 + x.1.length := by omega
      have key : ∀ ys ys2 : List Event, simFrom n 0 (x.1 ++ ys) (y.1 ++ ys2) := fun ys ys2 =>
        simFrom_append_beyond n _ 0 _ ys ys2 (Nat.zero_le _) hb hs.1
      rcases x with ⟨tr, id | o⟩ <;> rcases y with ⟨tr2, id2 | o2⟩
      · refine ⟨key _ _, fun hlen => ?_⟩
        simp only [List.length_append, Nat.zero_add] at hlen hb
        omega
      · refine ⟨?_, fun hlen => ?_⟩
        · have := key (branchLoop pa w a.token a.stage
            (projectURLOf rootURL id (lit "/repository/branches/"))
            (projectURLOf rootURL id (lit "/repository/commits/"))
            (projectURLOf rootURL id (lit "/pipelines/"))
            (projectURLOf rootURL id (lit "/jobs/")) a.branches tr.length).1 []
          simp only [List.append_nil] at this
          exact this
        · simp only [List.length_append, Nat.zero_add] at hlen hb
          omega
      · refine ⟨?_, fun hlen => ?_⟩
        · have := key [] (branchLoop pa w2 a.token a.stage
            (projectURLOf rootURL id2 (lit "/repository/branches/"))
            (projectURLOf rootURL id2 (lit "/repository/commits/"))
            (projectURLOf rootURL id2 (lit "/pipelines/"))
            (projectURLOf rootURL id2 (lit "/jobs/")) a.branches tr2.length).1
          simp only [List.append_nil] at this
          exact this
        · simp only [Nat.zero_add] at hlen hb
          omega
      · refine ⟨?_, fun hlen => ?_⟩
        · have := key [] []
          simp only [List.append_nil] at this
          exact this
        · simp only [Nat.zero_add] at hlen hb
          omega

theorem paginatingProjects_mono (w : World) (token project : GoString) (projectsURL : URL)
    (k fuel : Nat) : ∀ page t,
    (paginatingProjects w token project projectsURL fuel page t).2 ≠ .stop .running →
    paginatingProjects w token project projectsURL (fuel + k) page t =
      paginatingProjects w token project projectsURL fuel page t := by
  induction fuel with
  | zero => intro page t h; simp [paginatingProjects] at h
  | succ fuel ih =>
    intro page t
    have e : fuel + 1 + k = fuel + k + 1 := by omega
    rw [e, paginatingProjects_emit, paginatingProjects_emit]
    cases w.projects t (sentPageRequest token projectsURL page) with
    | error e => intro _; rfl
    | ok ps =>
      simp only
      split
      · intro _; rfl
      · split
        · intro _; rfl
        · intro h
          rw [ih _ _ h]

theorem main_mono (pa : AuthorityParser) (w : World) (a : Args) (k fuel : Nat)
    (h : (main pa w a fuel).2 ≠ .running) : main pa w a (fuel + k) = main pa w a fuel := by
  cases hv : validate pa a with
  | error e => simp [main, hv]
  | ok rootURL =>
    rw [main_of_valid pa w a fuel rootURL hv] at h
    rw [main_of_valid pa w a fuel rootURL hv, main_of_valid pa w a (fuel + k) rootURL hv]
    have hm := paginatingProjects_mono w a.token a.project (projectsURLOf rootURL) k fuel 1 0
    generalize paginatingProjects w a.token a.project (projectsURLOf rootURL) fuel 1 0 = x at h hm
    rw [hm]
    intro hx
    rcases x with ⟨tr, id | o⟩
    · cases hx
    · simp only at hx h
      cases hx
      exact h rfl

theorem effect_strip (e : Event) : e.strip.effect = e.effect := by
  cases e <;> rfl

theorem effects_eq (tr : List Event) : effects tr = (tr.map Event.strip).filterMap Event.effect := by
  simp only [effects, List.filterMap_map]
  congr 1
  funext e
  exact (effect_strip e).symm

theorem simFrom_strip (n : Nat) (tr : List Event) : ∀ (t : Nat) (tr2 : List Event),
    t ≤ n → t + tr.length ≤ n + 1 → simFrom n t tr tr2 →
    tr.map Event.strip <+: tr2.map Event.strip := by
  induction tr with
  | nil => intro t tr2 _ _ _; simp
  | cons e es ih =>
    intro t tr2 h1 h2 h
    cases tr2 with
    | nil => simp [simFrom] at h
    | cons e2 es2 =>
      simp only [simFrom] at h
      simp only [List.length_cons] at h2
      simp only [List.map_cons, List.cons_prefix_cons]
      by_cases ht : t < n
      · rw [if_pos ht] at h
        exact ⟨by rw [h.1], ih (t + 1) es2 (by omega) (by omega) h.2⟩
      · rw [if_neg ht] at h
        have : es = [] := by
          cases es with
          | nil => rfl
          | cons x xs => simp only [List.length_cons] at h2; omega
        subst this
        exact ⟨h, by simp⟩

/-- A run whose page requests are all answered with non-empty pages without the target is
still in the locator when its fuel is used up. -/
theorem main_running (pa : AuthorityParser) (w : World) (a : Args) (rootURL : URL)
    (hv : validate pa a = .ok rootURL)
    (hw : ∀ t r, ∃ ps, w.projects t r = .ok ps ∧ ps ≠ [] ∧
      ∀ p ∈ ps, p.PathWithNamespace ≠ a.project) :
    ∀ fuel, (main pa w a fuel).2 = .running ∧ (main pa w a fuel).1.length = fuel ∧
      ∀ e ∈ (main pa w a fuel).1, e.isPageRequest = true := by
  intro fuel
  obtain ⟨h1, h2, h3⟩ := paginatingProjects_running w a.token a.project (projectsURLOf rootURL)
    (fun t page => hw t _) fuel 1 0
  rw [main_of_valid pa w a fuel rootURL hv]
  generalize paginatingProjects w a.token a.project (projectsURLOf rootURL) fuel 1 0 = r at h1 h2 h3
  rcases r with ⟨tr, id | o⟩
  · cases h1
  · simp only at h1 h2 h3 ⊢
    cases h1
    exact ⟨rfl, h2, h3⟩

/-! ### Splitting paths at slashes -/

theorem lit_slash : lit "/" = [byteOf '/'] := by decide

theorem splitOn_cons (x c : Byte) (s : GoString) :
    (c :: s).splitOn x =
      if c = x then [] :: s.splitOn x else (s.splitOn x).modifyHead (List.cons c) := by
  simp only [List.splitOn, List.splitOnP_cons, beq_iff_eq]

theorem splitOn_ne_nil (x : Byte) (s : GoString) : s.splitOn x ≠ [] :=
  List.splitOnP_ne_nil _ _

theorem splitOn_append_sep (x : Byte) (a b : GoString) :
    (a ++ x :: b).splitOn x = a.splitOn x ++ b.splitOn x := by
  induction a with
  | nil => simp [splitOn_cons, List.splitOn_nil]
  | cons c a ih =>
    rw [List.cons_append, splitOn_cons, splitOn_cons, ih]
    split
    · rfl
    · cases h : a.splitOn x with
      | nil => exact absurd h (splitOn_ne_nil x a)
      | cons hd tl => rfl

theorem not_mem_of_mem_splitOn (x : Byte) (s : GoString) :
    ∀ seg ∈ s.splitOn x, x ∉ seg := by
  induction s with
  | nil => simp [List.splitOn_nil]
  | cons c s ih =>
    intro seg hseg
    rw [splitOn_cons] at hseg
    split at hseg
    · simp only [List.mem_cons] at hseg
      rcases hseg with h | h
      · subst h; simp
      · exact ih seg h
    · rename_i hc
      cases h : s.splitOn x with
      | nil => exact absurd h (splitOn_ne_nil x s)
      | cons hd tl =>
        rw [h] at hseg ih
        simp only [List.modifyHead, List.mem_cons] at hseg
        rcases hseg with h2 | h2
        · subst h2
          have := ih hd (by simp)
          simp only [List.mem_cons, not_or]
          exact ⟨fun e => hc e.symm, this⟩
        · exact ih seg (by simp [h2])

theorem splitOn_of_not_mem (x : Byte) (s : GoString) (h : x ∉ s) : s.splitOn x = [s] := by
  apply List.splitOnP_eq_single
  intro c hc
  simp only [beq_iff_eq]
  intro e
  exact h (e ▸ hc)

theorem intercalate_cons_cons (x : Byte) (a b : GoString) (l : List GoString) :
    [x].intercalate (a :: b :: l) = a ++ x :: [x].intercalate (b :: l) := by
  simp [List.intercalate, List.intersperse, List.flatten]

theorem intercalate_single (x : Byte) (a : GoString) : [x].intercalate [a] = a := by
  simp [List.intercalate, List.intersperse, List.flatten]

theorem intercalate_nil (x : Byte) : [x].intercalate ([] : List GoString) = [] := by
  simp [List.intercalate, List.intersperse, List.flatten]

theorem splitOn_slash_cons_intercalate (x : Byte) (l : List GoString) (hl : l ≠ [])
    (h : ∀ seg ∈ l, x ∉ seg) : (x :: [x].intercalate l).splitOn x = [] :: l := by
  rw [splitOn_cons, if_pos rfl]
  exact congrArg (List.cons []) (List.splitOn_intercalate l x h hl)

/-! ### Percent-encoding -/

theorem hex_roundtrip : ∀ c : Byte,
    ishex (hexDigit (c.val >>> 4)) = true ∧ ishex (hexDigit (c.val &&& 15)) = true ∧
      unhexPair (hexDigit (c.val >>> 4)) (hexDigit (c.val &&& 15)) = c := by
  decide

theorem shouldEscape_special : ∀ c : Byte, shouldEscape c .encodePathSegment = false →
    c ≠ byteOf '%' ∧ c ≠ byteOf '/' := by
  decide

/-- Percent-decoding undoes `escape` in the path modes. -/
theorem unescape_escape (m1 m2 : Encoding) (h1 : m1 = .encodePath ∨ m1 = .encodePathSegment)
    (h2 : m2 = .encodePath ∨ m2 = .encodePathSegment) (s : GoString) :
    unescape m1 (escape m2 s) = .ok s := by
  have hq : m1 ≠ .encodeQueryComponent := by rcases h1 with h | h <;> simp [h]
  have hh : m1 ≠ .encodeHost := by rcases h1 with h | h <;> simp [h]
  have hz : m1 ≠ .encodeZone := by rcases h1 with h | h <;> simp [h]
  have hq2 : m2 ≠ .encodeQueryComponent := by rcases h2 with h | h <;> simp [h]
  have hpct : shouldEscape (byteOf '%') m2 = true := by rcases h2 with h | h <;> rw [h] <;> decide
  induction s with
  | nil => rfl
  | cons c s ih =>
    unfold escape
    by_cases hc : shouldEscape c m2 = true
    · obtain ⟨h1, h2, h3⟩ := hex_roundtrip c
      simp only [hq2, and_false, if_false, hc, if_true]
      unfold unescape
      simp only [if_true, h1, h2, Bool.and_self, hh, hz, false_and, if_false, ih, h3]
    · have hc2 : shouldEscape c m2 = false := by simpa using hc
      have hne : c ≠ byteOf '%' := by
        intro e
        rw [e, hpct] at hc2
        cases hc2
      simp only [hq2, and_false, if_false, hc2, Bool.false_eq_true]
      unfold unescape
      simp only [hne, if_false, ih, hq, hh, hz, false_or, false_and]
      split <;> rfl

theorem PathUnescape_PathEscape (s : GoString) : PathUnescape (PathEscape s) = .ok s :=
  unescape_escape _ _ (Or.inr rfl) (Or.inr rfl) s

theorem PathEscape_injective (s t : GoString) (h : PathEscape s = PathEscape t) : s = t := by
  have := congrArg PathUnescape h
  simpa [PathUnescape_PathEscape] using this

/-- An escaped path segment has no slash. -/
theorem slash_not_mem_PathEscape (s : GoString) : byteOf '/' ∉ PathEscape s := by
  unfold PathEscape
  induction s with
  | nil => simp [escape]
  | cons c s ih =>
    unfold escape
    by_cases hc : shouldEscape c .encodePathSegment = true
    · simp only [hc, if_true]
      have : ∀ c : Byte, byteOf '/' ≠ byteOf '%' ∧ byteOf '/' ≠ hexDigit (c.val >>> 4) ∧
          byteOf '/' ≠ hexDigit (c.val &&& 15) := by decide
      obtain ⟨h1, h2, h3⟩ := this c
      simp [h1, h2, h3, ih]
    · have hc2 : shouldEscape c .encodePathSegment = false := by simpa using hc
      have := (shouldEscape_special c hc2).2
      simp [hc2, ih, Ne.symm this]

/-! ### File names -/

/-- Text after the last separator is determined when neither tail has the separator. -/
theorem append_sep_cancel (sep : Byte) (x y : GoString) (hx : sep ∉ x) (hy : sep ∉ y) :
    ∀ a b : GoString, a ++ sep :: x = b ++ sep :: y → a = b ∧ x = y := by
  intro a
  induction a with
  | nil =>
    intro b h
    cases b with
    | nil => simpa using h
    | cons c b =>
      simp only [List.nil_append, List.cons_append, List.cons.injEq] at h
      exfalso
      apply hx
      rw [h.2]
      simp
  | cons d a ih =>
    intro b h
    cases b with
    | nil =>
      simp only [List.nil_append, List.cons_append, List.cons.injEq] at h
      exfalso
      apply hy
      rw [← h.2]
      simp
    | cons c b =>
      simp only [List.cons_append, List.cons.injEq] at h
      obtain ⟨h1, h2⟩ := ih b h.2
      exact ⟨by rw [h.1, h1], h2⟩

theorem dash_not_mem_fmtUint (n : Nat) : byteOf '-' ∉ fmtUint n := fun h =>
  (digit_plain _ (fmtUint_digit n _ h)).2.2 rfl

theorem fmtUint_injective (m n : Nat) (hm : m < 2 ^ 64) (hn : n < 2 ^ 64)
    (h : fmtUint m = fmtUint n) : m = n := by
  rw [fmtUint_of_lt m hm, fmtUint_of_lt n hn] at h
  exact decimal_injective m n h

theorem fileName_parts (b1 b2 : GoString) (j1 j2 : Nat) (h : fileName b1 j1 = fileName b2 j2) :
    PathEscape b1 = PathEscape b2 ∧ fmtUint j1 = fmtUint j2 := by
  unfold fileName at h
  have h1 := List.append_cancel_right h
  have h2 : PathEscape b1 ++ byteOf '-' :: fmtUint j1 = PathEscape b2 ++ byteOf '-' :: fmtUint j2 := by
    simpa [lit] using h1
  exact append_sep_cancel _ _ _ (dash_not_mem_fmtUint j1) (dash_not_mem_fmtUint j2) _ _ h2


/-! ### Well-formed escaped paths -/

theorem escOK_cons_of_ne (c : Byte) (s : GoString) (h : c ≠ byteOf '%') :
    escOK (c :: s) = escOK s := by
  cases s with
  | nil => simp [escOK, h]
  | cons a s => cases s <;> simp [escOK, h]

theorem escOK_percent (x y : Byte) (s : GoString) :
    escOK (byteOf '%' :: x :: y :: s) = (ishex x && ishex y && escOK s) := by
  simp [escOK]

theorem escOK_percent_one (x : Byte) : escOK [byteOf '%', x] = false := by
  simp [escOK]

theorem escOK_percent_nil : escOK [byteOf '%'] = false := by
  simp [escOK]

theorem escOK_slash (b : GoString) : escOK (byteOf '/' :: b) = escOK b :=
  escOK_cons_of_ne _ _ (by decide)

theorem escOK_append_sep (b : GoString) : ∀ (n : Nat) (a : GoString), a.length ≤ n →
    escOK (a ++ byteOf '/' :: b) = (escOK a && escOK b) := by
  intro n
  induction n with
  | zero =>
    intro a ha
    have : a = [] := List.length_eq_zero.1 (by omega)
    subst this
    rw [List.nil_append, escOK_slash]
    rfl
  | succ n ih =>
    intro a ha
    cases a with
    | nil =>
      rw [List.nil_append, escOK_slash]
      rfl
    | cons c a =>
      by_cases hc : c = byteOf '%'
      · subst hc
        cases a with
        | nil =>
          cases b with
          | nil =>
            rw [escOK_percent_nil]
            exact escOK_percent_one _
          | cons y b =>
            rw [escOK_percent_nil]
            show escOK (byteOf '%' :: byteOf '/' :: y :: b) = _
            rw [escOK_percent]
            simp [show ishex (byteOf '/') = false from by decide]
        | cons x a =>
          cases a with
          | nil =>
            rw [escOK_percent_one]
            show escOK (byteOf '%' :: x :: byteOf '/' :: b) = _
            rw [escOK_percent]
            simp [show ishex (byteOf '/') = false from by decide]
          | cons y a =>
            have := ih a (by simp at ha; omega)
            show escOK (byteOf '%' :: x :: y :: (a ++ byteOf '/' :: b)) = _
            rw [escOK_percent, escOK_percent, this]
            simp only [Bool.and_assoc]
      · have := ih a (by simp at ha; omega)
        rw [List.cons_append, escOK_cons_of_ne _ _ hc, escOK_cons_of_ne _ _ hc, this]

theorem validEncoded_append (mode : Encoding) (a b : GoString) :
    validEncoded mode (a ++ b) = (validEncoded mode a && validEncoded mode b) := by
  simp [validEncoded, List.all_append]

theorem pathOK_append_sep (a b : GoString) :
    pathOK (a ++ byteOf '/' :: b) = (pathOK a && pathOK b) := by
  have h1 : validEncoded .encodePath (byteOf '/' :: b) = validEncoded .encodePath b := by
    have : validEncoded .encodePath [byteOf '/'] = true := by decide
    rw [show byteOf '/' :: b = [byteOf '/'] ++ b from rfl, validEncoded_append, this]
    simp
  simp only [pathOK, validEncoded_append, h1, escOK_append_sep b a.length a (Nat.le_refl _)]
  cases validEncoded .encodePath a <;> cases validEncoded .encodePath b <;>
    cases escOK a <;> cases escOK b <;> rfl

theorem pathOK_nil : pathOK [] = true := by decide

theorem pathOK_intercalate (l : List GoString) (h : ∀ seg ∈ l, pathOK seg = true) :
    pathOK ([byteOf '/'].intercalate l) = true := by
  induction l with
  | nil => rw [intercalate_nil]; exact pathOK_nil
  | cons a l ih =>
    cases l with
    | nil => rw [intercalate_single]; exact h a (by simp)
    | cons b l =>
      rw [intercalate_cons_cons, pathOK_append_sep, h a (by simp),
        ih (fun seg hs => h seg (by simp [hs]))]
      rfl

theorem pathOK_of_intercalate (l : List GoString)
    (h : pathOK ([byteOf '/'].intercalate l) = true) : ∀ seg ∈ l, pathOK seg = true := by
  induction l with
  | nil => simp
  | cons a l ih =>
    cases l with
    | nil =>
      rw [intercalate_single] at h
      simpa using h
    | cons b l =>
      rw [intercalate_cons_cons, pathOK_append_sep, Bool.and_eq_true] at h
      intro seg hs
      simp only [List.mem_cons] at hs
      rcases hs with hs | hs
      · rw [hs]; exact h.1
      · exact ih h.2 seg (by simpa using hs)

theorem pathOK_segments (s : GoString) (h : pathOK s = true) :
    ∀ seg ∈ s.splitOn (byteOf '/'), pathOK seg = true := by
  apply pathOK_of_intercalate
  rw [List.intercalate_splitOn]
  exact h

/-- The escapes of a well-formed text can be decoded. -/
theorem unescape_of_escOK : ∀ (n : Nat) (s : GoString), s.length ≤ n → escOK s = true →
    ∃ p, unescape .encodePath s = .ok p ∧ (s.head? = some (byteOf '/') → p.head? = some (byteOf '/')) := by
  intro n
  induction n with
  | zero =>
    intro s hs _
    have : s = [] := List.length_eq_zero.1 (by omega)
    subst this
    exact ⟨[], rfl, fun h => by simp at h⟩
  | succ n ih =>
    intro s hs h
    cases s with
    | nil => exact ⟨[], rfl, fun h => by simp at h⟩
    | cons c s =>
      by_cases hc : c = byteOf '%'
      · subst hc
        cases s with
        | nil => rw [escOK_percent_nil] at h; cases h
        | cons x s =>
          cases s with
          | nil => rw [escOK_percent_one] at h; cases h
          | cons y s =>
            rw [escOK_percent] at h
            simp only [Bool.and_eq_true] at h
            obtain ⟨p, hp, _⟩ := ih s (by simp at hs; omega) h.2
            refine ⟨unhexPair x y :: p, ?_, fun h2 => ?_⟩
            · unfold unescape
              simp [h.1.1, h.1.2, hp]
            · simp only [List.head?_cons, Option.some.injEq] at h2
              exact absurd h2 (by decide)
      · rw [escOK_cons_of_ne _ _ hc] at h
        obtain ⟨p, hp, _⟩ := ih s (by simp at hs; omega) h
        refine ⟨c :: p, ?_, fun h2 => by simpa using h2⟩
        unfold unescape
        simp only [hc, if_false, hp]
        split <;> simp

theorem escOK_of_unescape : ∀ (n : Nat) (s : GoString) (p : GoString), s.length ≤ n →
    unescape .encodePath s = .ok p → escOK s = true := by
  intro n
  induction n with
  | zero =>
    intro s p hs _
    have : s = [] := List.length_eq_zero.1 (by omega)
    subst this
    rfl
  | succ n ih =>
    intro s p hs h
    cases s with
    | nil => rfl
    | cons c s =>
      by_cases hc : c = byteOf '%'
      · subst hc
        cases s with
        | nil => simp [unescape] at h
        | cons x s =>
          cases s with
          | nil => simp [unescape] at h
          | cons y s =>
            unfold unescape at h
            simp only [if_true] at h
            by_cases hxy : (ishex x && ishex y) = true
            · simp only [hxy, if_true, false_and, if_false] at h
              cases hu : unescape .encodePath s with
              | error e => simp [hu] at h
              | ok q =>
                have := ih s q (by simp at hs; omega) hu
                rw [escOK_percent, this, Bool.and_true]
                exact hxy
            · simp [hxy] at h
      · rw [escOK_cons_of_ne _ _ hc]
        unfold unescape at h
        simp only [hc, if_false] at h
        cases hu : unescape .encodePath s with
        | error e =>
          rw [hu] at h
          split at h <;> simp at h
        | ok q => exact ih s q (by simp at hs; omega) hu

theorem hexDigit_valid : ∀ c : Byte,
    validEncoded .encodePath [byteOf '%', hexDigit (c.val >>> 4), hexDigit (c.val &&& 15)] = true := by
  decide

theorem not_shouldEscape_facts : ∀ c : Byte, shouldEscape c .encodePath = false →
    validEncoded .encodePath [c] = true ∧ c ≠ byteOf '%' := by
  decide

theorem escape_cons (mode : Encoding) (hm : mode ≠ .encodeQueryComponent) (c : Byte)
    (s : GoString) :
    escape mode (c :: s) =
      if shouldEscape c mode = true then
        byteOf '%' :: hexDigit (c.val >>> 4) :: hexDigit (c.val &&& 15) :: escape mode s
      else c :: escape mode s := by
  conv => lhs; unfold escape
  simp [hm]

theorem pathOK_escape (p : GoString) : pathOK (escape .encodePath p) = true := by
  induction p with
  | nil => decide
  | cons c p ih =>
    rw [escape_cons _ (by decide)]
    simp only [pathOK, Bool.and_eq_true] at ih ⊢
    by_cases hc : shouldEscape c .encodePath = true
    · rw [if_pos hc]
      constructor
      · have := hexDigit_valid c
        rw [show byteOf '%' :: hexDigit (c.val >>> 4) :: hexDigit (c.val &&& 15) ::
            escape .encodePath p =
          [byteOf '%', hexDigit (c.val >>> 4), hexDigit (c.val &&& 15)] ++ escape .encodePath p
          from rfl, validEncoded_append, this, ih.1]
        rfl
      · rw [escOK_percent, (hex_roundtrip c).1, (hex_roundtrip c).2.1, ih.2]
        rfl
    · have hc2 : shouldEscape c .encodePath = false := by simpa using hc
      obtain ⟨h1, h2⟩ := not_shouldEscape_facts c hc2
      rw [if_neg hc]
      constructor
      · rw [show c :: escape .encodePath p = [c] ++ escape .encodePath p from rfl,
          validEncoded_append, h1, ih.1]
        rfl
      · rw [escOK_cons_of_ne _ _ h2]
        exact ih.2

/-- What `EscapedPath` returns is validly encoded and decodable. -/
theorem pathOK_EscapedPath (u : URL) : pathOK u.EscapedPath = true := by
  unfold URL.EscapedPath
  split
  · rename_i h
    simp only [pathOK, Bool.and_eq_true]
    exact ⟨h.2.1, escOK_of_unescape _ _ _ (Nat.le_refl _) h.2.2⟩
  · split
    · decide
    · exact pathOK_escape _

/-- Setting a well-formed escaped path that starts with a slash: `EscapedPath` gives it back and
nothing else changes. -/
theorem setPath_EscapedPath (u : URL) (p : GoString) (hp : pathOK p = true)
    (h0 : p.head? = some (byteOf '/')) :
    ∃ v, u.setPath p = .ok v ∧ v.EscapedPath = p ∧ v.Scheme = u.Scheme ∧ v.Opaque = u.Opaque ∧
      v.User = u.User ∧ v.Host = u.Host ∧ v.ForceQuery = u.ForceQuery ∧
      v.RawQuery = u.RawQuery ∧ v.Fragment = u.Fragment := by
  simp only [pathOK, Bool.and_eq_true] at hp
  obtain ⟨path, hpath, hhead⟩ := unescape_of_escOK _ p (Nat.le_refl _) hp.2
  have hstar : path ≠ lit "*" := by
    intro e
    have := hhead h0
    rw [e] at this
    exact absurd this (by decide)
  have hne : p ≠ [] := by
    intro e
    rw [e] at h0
    simp at h0
  by_cases he : p = escape .encodePath path
  · refine ⟨{ u with Path := path, RawPath := [] }, ?_, ?_, rfl, rfl, rfl, rfl, rfl, rfl, rfl⟩
    · simp only [URL.setPath, hpath, if_pos he]
    · simp only [URL.EscapedPath, ne_eq, not_true_eq_false, false_and, if_false, hstar]
      exact he.symm
  · refine ⟨{ u with Path := path, RawPath := p }, ?_, ?_, rfl, rfl, rfl, rfl, rfl, rfl, rfl⟩
    · simp only [URL.setPath, hpath, if_neg he]
    · simp only [URL.EscapedPath, ne_eq, hne, not_false_eq_true, hp.1, hpath, and_self, if_true]

theorem throughLast_cases (x : Byte) (s : GoString) :
    throughLast x s = [] ∨ ∃ q tl, s = q ++ x :: tl ∧ throughLast x s = q ++ [x] := by
  unfold throughLast
  induction s using List.reverseRecOn with
  | nil => left; rfl
  | append_singleton s c ih =>
    rw [List.reverse_append, List.reverse_singleton, List.singleton_append, List.dropWhile_cons]
    by_cases hc : c = x
    · right
      subst hc
      refine ⟨s, [], rfl, ?_⟩
      simp
    · have hb : (c != x) = true := by simpa using hc
      rw [if_pos hb]
      rcases ih with h | ⟨q, tl, h1, h2⟩
      · left; exact h
      · right
        refine ⟨q, tl ++ [c], by rw [h1]; simp, h2⟩

theorem throughLast_append_sep (x : Byte) (s : GoString) :
    throughLast x (s ++ [x]) = s ++ [x] := by
  unfold throughLast
  rw [List.reverse_append, List.reverse_singleton, List.singleton_append, List.dropWhile_cons]
  simp

theorem pathOK_resolveFull (base ref : GoString) (hb : pathOK base = true)
    (hr : pathOK ref = true) : pathOK (resolveFull base ref) = true := by
  unfold resolveFull
  split
  · exact hb
  · split
    · rcases throughLast_cases (byteOf '/') base with h | ⟨q, tl, h1, h2⟩
      · rw [h]; exact hr
      · rw [h2, List.append_assoc, List.singleton_append, pathOK_append_sep, hr]
        rw [h1, pathOK_append_sep, Bool.and_eq_true] at hb
        rw [hb.1]
        rfl
    · exact hr

/-! ### Removing dot segments -/

theorem nonDot_nil : nonDot [] := by
  constructor <;> decide

theorem beforeLast_of_not_mem (x : Byte) (s : GoString) (h : x ∉ s) : beforeLast x s = none := by
  induction s with
  | nil => rfl
  | cons c s ih =>
    have hc : c ≠ x := fun e => h (by simp [e])
    have hs : x ∉ s := fun e => h (by simp [e])
    simp [beforeLast, ih hs, hc]

theorem beforeLast_append_sep (x : Byte) (s t : GoString) (h : x ∉ t) :
    beforeLast x (s ++ x :: t) = some s := by
  induction s with
  | nil => simp [beforeLast, beforeLast_of_not_mem x t h]
  | cons c s ih => simp [beforeLast, ih]

theorem intercalate_concat (x : Byte) (l : List GoString) (e : GoString) (hl : l ≠ []) :
    [x].intercalate (l ++ [e]) = [x].intercalate l ++ x :: e := by
  induction l with
  | nil => exact absurd rfl hl
  | cons a l ih =>
    cases l with
    | nil =>
      rw [List.singleton_append, intercalate_cons_cons, intercalate_single, intercalate_single]
    | cons b l =>
      rw [List.cons_append, List.cons_append, intercalate_cons_cons, intercalate_cons_cons]
      have := ih (by simp)
      rw [List.cons_append] at this
      rw [this]
      simp

theorem not_mem_intercalate_single (x : Byte) (l : List GoString) (hl : l.length ≤ 1)
    (h : ∀ seg ∈ l, x ∉ seg) : x ∉ [x].intercalate l := by
  cases l with
  | nil => rw [intercalate_nil]; simp
  | cons a l =>
    cases l with
    | nil => rw [intercalate_single]; exact h a (by simp)
    | cons b l => simp at hl

/-- One step of the loop of `resolvePath` on a state that holds `segs`. -/
theorem Holds_step (st : GoString × Bool) (segs : List GoString) (elem : GoString)
    (h : Holds st segs) (he : byteOf '/' ∉ elem) :
    Holds (dotStep st elem) (segStep segs elem) := by
  obtain ⟨h1, h2, h3⟩ := h
  unfold dotStep segStep
  by_cases hd : elem = lit "."
  · rw [if_pos hd, if_pos hd]
    by_cases hs : segs = []
    · rw [if_pos hs]
      refine ⟨?_, by simp, by simp⟩
      rw [h1, hs, intercalate_nil, intercalate_single]
    · rw [if_neg hs]
      exact ⟨h1, by simp [hs], h3⟩
  · rw [if_neg hd, if_neg hd]
    by_cases hdd : elem = lit ".."
    · rw [if_pos hdd, if_pos hdd]
      rcases List.eq_nil_or_concat segs with h0 | ⟨init, last, h0⟩
      · rw [h1, h0, intercalate_nil]
        exact ⟨by rfl, by simp [beforeLast], by simp⟩
      · rw [List.concat_eq_append] at h0
        rw [h0, List.dropLast_concat]
        have hlast : byteOf '/' ∉ last := h3 last (by rw [h0]; simp)
        by_cases hi : init = []
        · rw [h1, h0, hi, List.nil_append, intercalate_single,
            beforeLast_of_not_mem _ _ hlast]
          exact ⟨by rw [intercalate_nil], by simp, by simp⟩
        · rw [h1, h0, intercalate_concat _ _ _ hi, beforeLast_append_sep _ _ _ hlast]
          refine ⟨rfl, ?_, fun seg hseg => h3 seg (by rw [h0]; simp [hseg])⟩
          have : st.2 = false := by
            cases hb : st.2 with
            | false => rfl
            | true =>
              have := h2.1 hb
              rw [h0] at this
              simp at this
          simp [this, hi]
    · rw [if_neg hdd, if_neg hdd]
      refine ⟨?_, by simp, ?_⟩
      · by_cases hs : segs = []
        · rw [if_pos (h2.2 hs), h1, hs, intercalate_nil, List.nil_append, List.nil_append,
            intercalate_single]
        · have : st.2 = false := by
            cases hb : st.2 with
            | false => rfl
            | true => exact absurd (h2.1 hb) hs
          rw [this, intercalate_concat _ _ _ hs, h1]
          simp
      · intro seg hseg
        rcases List.mem_append.1 hseg with h | h
        · exact h3 seg h
        · simp only [List.mem_singleton] at h
          rw [h]; exact he

theorem Holds_foldl (src : List GoString) (hsrc : ∀ e ∈ src, byteOf '/' ∉ e) :
    ∀ (st : GoString × Bool) (segs : List GoString), Holds st segs →
      Holds (src.foldl dotStep st) (src.foldl segStep segs) := by
  induction src with
  | nil => intro st segs h; exact h
  | cons e src ih =>
    intro st segs h
    rw [List.foldl_cons, List.foldl_cons]
    exact ih (fun e2 h2 => hsrc e2 (by simp [h2])) _ _
      (Holds_step st segs e h (hsrc e (by simp)))

theorem Holds_init : Holds ([], true) [] :=
  ⟨by rw [intercalate_nil], by simp, by simp⟩

theorem foldl_segStep_mem (src : List GoString) : ∀ (acc : List GoString) (seg : GoString),
    seg ∈ src.foldl segStep acc → seg ∈ acc ∨ seg = [] ∨ (seg ∈ src ∧ nonDot seg) := by
  induction src with
  | nil => intro acc seg h; left; exact h
  | cons e src ih =>
    intro acc seg h
    rw [List.foldl_cons] at h
    rcases ih _ _ h with h | h | h
    · unfold segStep at h
      split at h
      · split at h
        · right; left; simpa using h
        · left; exact h
      · split at h
        · left; exact List.mem_of_mem_dropLast h
        · rename_i h1 h2
          rcases List.mem_append.1 h with h | h
          · left; exact h
          · right; right
            simp only [List.mem_singleton] at h
            subst h
            exact ⟨by simp, h1, h2⟩
    · right; left; exact h
    · right; right
      exact ⟨by simp [h.1], h.2⟩

theorem foldl_segStep_clean (src : List GoString) (h : ∀ seg ∈ src, nonDot seg) :
    ∀ acc, src.foldl segStep acc = acc ++ src := by
  induction src with
  | nil => intro acc; simp
  | cons e src ih =>
    intro acc
    have he := h e (by simp)
    rw [List.foldl_cons, ih (fun seg hs => h seg (by simp [hs]))]
    simp [segStep, he.1, he.2]

theorem head?_ne_of_not_mem (x : Byte) (s : GoString) (h : x ∉ s) : s.head? ≠ some x := by
  cases s with
  | nil => simp
  | cons c s =>
    simp only [List.head?_cons, ne_eq, Option.some.injEq]
    intro e
    exact h (by simp [e])

theorem getLast?_eq_some_iff_append (x : Byte) (s : GoString) (h : s.getLast? = some x) :
    ∃ s0, s = s0 ++ [x] := by
  rcases List.eq_nil_or_concat s with h0 | ⟨s0, y, h0⟩
  · subst h0; simp at h
  · subst h0
    rw [List.concat_eq_append, List.getLast?_concat] at h
    exact ⟨s0, by rw [List.concat_eq_append, Option.some.inj h]⟩

/-- The last statement of `resolvePath`: one of two leading slashes is dropped. -/
theorem strip_slash (dst : GoString) :
    (if (byteOf '/' :: dst).length > 1 ∧ (byteOf '/' :: dst).get? 1 = some (byteOf '/') then
      (byteOf '/' :: dst).drop 1 else byteOf '/' :: dst) =
      if dst.head? = some (byteOf '/') then dst else byteOf '/' :: dst := by
  cases dst with
  | nil => simp
  | cons c dst => simp

/-- What the loop of `resolvePath` has written, with the slash that follows a last element
`.` or `..`, is a list of path elements joined by slashes. -/
theorem resolvePath_written (src : List GoString) (hsrc : ∀ e ∈ src, byteOf '/' ∉ e) :
    ∃ m : List GoString,
      (if src.getLast? = some (lit ".") ∨ src.getLast? = some (lit "..") then
        (src.foldl dotStep ([], true)).1 ++ [byteOf '/']
      else (src.foldl dotStep ([], true)).1) = [byteOf '/'].intercalate m ∧
      (∀ seg ∈ m, seg = [] ∨ (seg ∈ src ∧ nonDot seg)) ∧
      (∀ src0, src = src0 ++ [[]] → m.getLast? = some []) ∧
      ((∀ seg ∈ src, nonDot seg) → m = src) := by
  obtain ⟨h1, h2, h3⟩ := Holds_foldl src hsrc _ _ Holds_init
  have hmem : ∀ seg ∈ src.foldl segStep [], seg = [] ∨ (seg ∈ src ∧ nonDot seg) := by
    intro seg hseg
    rcases foldl_segStep_mem src [] seg hseg with h | h | h
    · simp at h
    · left; exact h
    · right; exact h
  by_cases hdot : src.getLast? = some (lit ".") ∨ src.getLast? = some (lit "..")
  · rw [if_pos hdot]
    have hnot : ∀ src0, src ≠ src0 ++ [[]] := by
      intro src0 e
      have hl : (src0 ++ [[]]).getLast? = some ([] : GoString) := by simp
      rw [e, hl] at hdot
      rcases hdot with h | h <;> exact absurd (Option.some.inj h) (by decide)
    have hnd : ¬ ∀ seg ∈ src, nonDot seg := by
      intro hall
      rcases hdot with h | h
      · exact (hall _ (List.mem_of_getLast?_eq_some h)).1 rfl
      · exact (hall _ (List.mem_of_getLast?_eq_some h)).2 rfl
    by_cases hs : src.foldl segStep [] = []
    · refine ⟨[[], []], ?_, by simp, fun src0 e => absurd e (hnot src0),
        fun hall => absurd hall hnd⟩
      rw [h1, hs, intercalate_nil, intercalate_cons_cons, intercalate_single]
    · refine ⟨src.foldl segStep [] ++ [[]], ?_, ?_, fun src0 e => absurd e (hnot src0),
        fun hall => absurd hall hnd⟩
      · rw [h1, intercalate_concat _ _ _ hs]
      · intro seg hseg
        rcases List.mem_append.1 hseg with h | h
        · exact hmem seg h
        · left; simpa using h
  · rw [if_neg hdot]
    refine ⟨src.foldl segStep [], h1, hmem, ?_, ?_⟩
    · intro src0 e
      rw [e, List.foldl_append]
      simp [segStep, show ([] : GoString) ≠ lit "." from by decide,
        show ([] : GoString) ≠ lit ".." from by decide]
    · intro hall
      rw [foldl_segStep_clean src hall, List.nil_append]

/-- The shape of a resolved path: a slash, then path elements joined by slashes; every element
is empty or an element of the text that was resolved, and none is `.` or `..`. -/
theorem resolvePath_shape (base ref : GoString) (hfull : resolveFull base ref ≠ []) :
    ∃ l : List GoString, l ≠ [] ∧
      resolvePath base ref = byteOf '/' :: [byteOf '/'].intercalate l ∧
      (∀ seg ∈ l, seg = [] ∨
        (seg ∈ (resolveFull base ref).splitOn (byteOf '/') ∧ nonDot seg)) ∧
      ((resolveFull base ref).getLast? = some (byteOf '/') → l.getLast? = some []) := by
  unfold resolvePath
  simp only [hfull, if_false]
  rw [strip_slash]
  have hsrc := not_mem_of_mem_splitOn (byteOf '/') (resolveFull base ref)
  obtain ⟨m, hm, hmem, hl0, _⟩ := resolvePath_written _ hsrc
  rw [hm]
  have hnosep : ∀ seg ∈ m, byteOf '/' ∉ seg := by
    intro seg hseg
    rcases hmem seg hseg with h | h
    · rw [h]; simp
    · exact hsrc seg h.1
  have hlast : (resolveFull base ref).getLast? = some (byteOf '/') → m.getLast? = some [] := by
    intro h
    obtain ⟨f0, hf0⟩ := getLast?_eq_some_iff_append _ _ h
    apply hl0 (f0.splitOn (byteOf '/'))
    rw [hf0, show f0 ++ [byteOf '/'] = f0 ++ byteOf '/' :: [] from rfl,
      splitOn_append_sep, List.splitOn_nil]
  cases m with
  | nil =>
    refine ⟨[[]], by simp, ?_, by simp, fun _ => rfl⟩
    rw [intercalate_nil, intercalate_single]
    rfl
  | cons a rest =>
    cases rest with
    | nil =>
      refine ⟨[a], by simp, ?_, hmem, hlast⟩
      rw [intercalate_single, if_neg (head?_ne_of_not_mem _ a (hnosep a (by simp)))]
    | cons b rest =>
      rw [intercalate_cons_cons]
      cases a with
      | nil =>
        refine ⟨b :: rest, by simp, ?_, fun seg hs => hmem seg (by simp [hs]), fun h => ?_⟩
        · simp
        · have := hlast h
          simpa using this
      | cons c a =>
        refine ⟨(c :: a) :: b :: rest, by simp, ?_, hmem, hlast⟩
        have hc : c ≠ byteOf '/' := by
          intro e
          exact hnosep (c :: a) (by simp) (by simp [e])
        rw [intercalate_cons_cons]
        simp [hc]

theorem intercalate_concat_nil (x : Byte) (l : List GoString) (hl : l ≠ []) :
    [x].intercalate (l ++ [[]]) = [x].intercalate l ++ [x] := by
  induction l with
  | nil => exact absurd rfl hl
  | cons a l ih =>
    cases l with
    | nil =>
      rw [List.singleton_append, intercalate_cons_cons, intercalate_single, intercalate_single]
    | cons b l =>
      rw [List.cons_append, List.cons_append, intercalate_cons_cons, intercalate_cons_cons]
      have := ih (by simp)
      rw [List.cons_append] at this
      rw [this]
      simp

/-- A resolved path starts with a slash, has no dot segments, is well-formed when its parts
are, and ends with a slash when the resolved text does. -/
theorem resolvePath_facts (base ref : GoString) (hfull : resolveFull base ref ≠ []) :
    (resolvePath base ref).head? = some (byteOf '/') ∧ NoDot (resolvePath base ref) ∧
      (pathOK base = true → pathOK ref = true → pathOK (resolvePath base ref) = true) ∧
      ((resolveFull base ref).getLast? = some (byteOf '/') →
        ∃ r0, resolvePath base ref = r0 ++ [byteOf '/']) := by
  obtain ⟨l, hl, hr, hmem, hlast⟩ := resolvePath_shape base ref hfull
  have hnosep : ∀ seg ∈ l, byteOf '/' ∉ seg := by
    intro seg hseg
    rcases hmem seg hseg with h | h
    · rw [h]; simp
    · exact not_mem_of_mem_splitOn _ _ seg h.1
  refine ⟨by rw [hr]; rfl, ?_, ?_, ?_⟩
  · intro seg hseg
    rw [hr, splitOn_slash_cons_intercalate _ l hl hnosep] at hseg
    simp only [List.mem_cons] at hseg
    rcases hseg with h | h
    · rw [h]; exact nonDot_nil
    · rcases hmem seg h with h2 | h2
      · rw [h2]; exact nonDot_nil
      · exact h2.2
  · intro hb hrf
    have hf := pathOK_segments _ (pathOK_resolveFull base ref hb hrf)
    rw [hr, show byteOf '/' :: [byteOf '/'].intercalate l =
      [] ++ byteOf '/' :: [byteOf '/'].intercalate l from rfl, pathOK_append_sep, pathOK_nil,
      Bool.true_and]
    apply pathOK_intercalate
    intro seg hseg
    rcases hmem seg hseg with h | h
    · rw [h]; exact pathOK_nil
    · exact hf seg h.1
  · intro h
    have hl2 := hlast h
    rcases List.eq_nil_or_concat l with h0 | ⟨l0, y, h0⟩
    · exact absurd h0 hl
    · rw [h0, List.concat_eq_append, List.getLast?_concat] at hl2
      have hy : y = [] := Option.some.inj hl2
      subst hy
      rw [List.concat_eq_append] at h0
      by_cases hl0 : l0 = []
      · subst hl0
        refine ⟨[], ?_⟩
        rw [hr, h0, List.nil_append, intercalate_single]
        rfl
      · refine ⟨byteOf '/' :: [byteOf '/'].intercalate l0, ?_⟩
        rw [hr, h0, intercalate_concat_nil _ _ hl0]
        rfl

/-- Resolving a relative reference without dot segments against a normalised directory path
appends it. -/
theorem resolvePath_append (b0 ref : GoString) (h0 : (b0 ++ [byteOf '/']).head? = some (byteOf '/'))
    (hb : NoDot (b0 ++ [byteOf '/'])) (hr : NoDot ref) (hne : ref ≠ [])
    (hhead : ref.head? ≠ some (byteOf '/')) :
    resolvePath (b0 ++ [byteOf '/']) ref = b0 ++ [byteOf '/'] ++ ref := by
  have hfull : resolveFull (b0 ++ [byteOf '/']) ref = b0 ++ [byteOf '/'] ++ ref := by
    unfold resolveFull
    rw [if_neg hne, if_pos hhead, throughLast_append_sep]
  have hsplit : (b0 ++ [byteOf '/'] ++ ref).splitOn (byteOf '/') =
      b0.splitOn (byteOf '/') ++ ref.splitOn (byteOf '/') := by
    rw [List.append_assoc, List.singleton_append, splitOn_append_sep]
  have hclean : ∀ seg ∈ (b0 ++ [byteOf '/'] ++ ref).splitOn (byteOf '/'), nonDot seg := by
    intro seg hseg
    rw [hsplit] at hseg
    rcases List.mem_append.1 hseg with h | h
    · apply hb
      rw [show b0 ++ [byteOf '/'] = b0 ++ byteOf '/' :: [] from rfl, splitOn_append_sep]
      exact List.mem_append_left _ h
    · exact hr seg h
  have hnn : b0 ++ [byteOf '/'] ++ ref ≠ [] := by simp
  obtain ⟨m, hm, _, _, hall⟩ := resolvePath_written _
    (not_mem_of_mem_splitOn (byteOf '/') (b0 ++ [byteOf '/'] ++ ref))
  rw [hall hclean, List.intercalate_splitOn] at hm
  unfold resolvePath
  simp only [hfull, hnn, if_false]
  rw [strip_slash, hm]
  have hh : (b0 ++ [byteOf '/'] ++ ref).head? = some (byteOf '/') := by
    cases b0 with
    | nil => rfl
    | cons c b0 => simpa using h0
  rw [if_pos hh]

/-! ### Resolving references -/

theorem resolveFull_ne_nil (base ref : GoString) (h : ref ≠ []) : resolveFull base ref ≠ [] := by
  unfold resolveFull
  rw [if_neg h]
  split
  · simp [h]
  · exact h

theorem resolveFull_getLast (base ref : GoString) (x : Byte) (h : ref.getLast? = some x) :
    (resolveFull base ref).getLast? = some x := by
  have hne : ref ≠ [] := by
    intro e
    rw [e] at h
    simp at h
  unfold resolveFull
  rw [if_neg hne]
  split
  · rw [List.getLast?_append, h]
    rfl
  · exact h

/-- Resolving a reference that is just a path against `u`: the escaped path is the resolved
path, the scheme and the authority are those of `u`, the query and the fragment those of the
reference. -/
theorem ResolveReference_relative (u ref : URL) (hs : ref.Scheme = []) (hh : ref.Host = [])
    (hu : ref.User = none) (ho : ref.Opaque = []) (hp : ref.Path ≠ [])
    (hok : pathOK (resolvePath u.EscapedPath ref.EscapedPath) = true)
    (h0 : (resolvePath u.EscapedPath ref.EscapedPath).head? = some (byteOf '/')) :
    (u.ResolveReference ref).EscapedPath = resolvePath u.EscapedPath ref.EscapedPath ∧
      (u.ResolveReference ref).Scheme = u.Scheme ∧ (u.ResolveReference ref).Host = u.Host ∧
      (u.ResolveReference ref).User = u.User ∧ (u.ResolveReference ref).Opaque = [] ∧
      (u.ResolveReference ref).RawQuery = ref.RawQuery ∧
      (u.ResolveReference ref).Fragment = ref.Fragment ∧
      (u.ResolveReference ref).ForceQuery = ref.ForceQuery := by
  obtain ⟨v, hv, h1, h2, h3, h4, h5, h6, h7, h8⟩ := setPath_EscapedPath
    { ref with Scheme := u.Scheme, Opaque := [], Host := u.Host, User := u.User }
    (resolvePath u.EscapedPath ref.EscapedPath) hok h0
  have hr : u.ResolveReference ref = v := by
    unfold URL.ResolveReference
    simp only [hs, hh, hu, ho, hp, ne_eq, not_true_eq_false, or_self, if_false, if_true,
      false_and]
    rw [hv]
  rw [hr]
  exact ⟨h1, h2, h5, h4, h3, h7, h8, h6⟩

theorem plainByte_valid : ∀ c : Byte, plainByte c = true → validEncoded .encodePath [c] = true := by
  decide

theorem EscapedPath_plain (s : GoString) (h : ∀ c ∈ s, plainByte c = true) :
    ({ Path := s } : URL).EscapedPath = s := by
  have hstar : s ≠ lit "*" := by
    intro e
    have := (plainByte_facts (byteOf '*') (h _ (by rw [e]; decide))).2.2.2.2.2.1
    exact this rfl
  unfold URL.EscapedPath
  simp only [ne_eq, not_true_eq_false, false_and, if_false, hstar]
  exact escape_of_not_shouldEscape _ (by decide) s
    (fun c hc => (plainByte_facts _ (h _ hc)).2.2.2.2.2.2)

theorem pathOK_plain (s : GoString) (h : ∀ c ∈ s, plainByte c = true) : pathOK s = true := by
  have := pathOK_EscapedPath { Path := s }
  rw [EscapedPath_plain s h] at this
  exact this

theorem nonDot_of_digits (s : GoString) (h : ∀ c ∈ s, 48 ≤ c.val ∧ c.val ≤ 57) : nonDot s := by
  constructor
  · intro e
    have := h (byteOf '.') (by rw [e]; decide)
    exact absurd this (by decide)
  · intro e
    have := h (byteOf '.') (by rw [e]; decide)
    exact absurd this (by decide)

theorem slash_not_mem_fmtUint (n : Nat) : byteOf '/' ∉ fmtUint n := fun h =>
  (digit_plain _ (fmtUint_digit n _ h)).2.1 rfl

/-- The references `projects/<id>/<word>/<word>/` have no dot segments. -/
theorem NoDot_project (n : Nat) (w1 w2 : GoString) (h1 : byteOf '/' ∉ w1) (h2 : byteOf '/' ∉ w2)
    (hd1 : nonDot w1) (hd2 : nonDot w2) :
    NoDot (lit "projects" ++ byteOf '/' :: (fmtUint n ++ byteOf '/' ::
      (w1 ++ byteOf '/' :: (w2 ++ byteOf '/' :: [])))) := by
  intro seg hseg
  rw [splitOn_append_sep, splitOn_append_sep, splitOn_append_sep, splitOn_append_sep,
    splitOn_of_not_mem _ _ (show byteOf '/' ∉ lit "projects" from by decide),
    splitOn_of_not_mem _ _ (slash_not_mem_fmtUint n), splitOn_of_not_mem _ _ h1,
    splitOn_of_not_mem _ _ h2, List.splitOn_nil] at hseg
  simp only [List.mem_append, List.mem_singleton, List.mem_cons, List.not_mem_nil, or_false,
    List.singleton_append] at hseg
  rcases hseg with h | h | h | h | h
  · rw [h]; constructor <;> decide
  · rw [h]; exact nonDot_of_digits _ (fmtUint_digit n)
  · rw [h]; exact hd1
  · rw [h]; exact hd2
  · rw [h]; exact nonDot_nil

theorem api_ref_facts : ({ Path := lit "api/v4/" } : URL).EscapedPath = lit "api/v4/" ∧
    (lit "api/v4/").getLast? = some (byteOf '/') ∧ lit "api/v4/" ≠ [] ∧
    pathOK (lit "api/v4/") = true := by
  decide

/-- The escaped path of `apiURL` is a normalised directory path: it starts and ends with a
slash, has no dot segments and is well-formed; `apiURL` has the scheme and the authority of
the base URL and neither query nor fragment. -/
theorem apiURL_facts (rootURL : URL) :
    (∃ r0, (apiURL rootURL).EscapedPath = r0 ++ [byteOf '/']) ∧
      (apiURL rootURL).EscapedPath.head? = some (byteOf '/') ∧
      NoDot (apiURL rootURL).EscapedPath ∧ pathOK (apiURL rootURL).EscapedPath = true ∧
      (apiURL rootURL).Opaque = [] ∧ (apiURL rootURL).RawQuery = [] ∧
      (apiURL rootURL).Fragment = [] := by
  obtain ⟨e1, e2, e3, e4⟩ := api_ref_facts
  have hfull := resolveFull_ne_nil (withTrailingSlash rootURL).EscapedPath (lit "api/v4/") e3
  obtain ⟨f1, f2, f3, f4⟩ := resolvePath_facts (withTrailingSlash rootURL).EscapedPath
    (lit "api/v4/") hfull
  have hok := f3 (pathOK_EscapedPath _) e4
  have hr := ResolveReference_relative (withTrailingSlash rootURL) { Path := lit "api/v4/" }
    rfl rfl rfl rfl (by decide) (by rw [e1]; exact hok) (by rw [e1]; exact f1)
  rw [e1] at hr
  obtain ⟨h1, _, _, _, h5, h6, h7, _⟩ := hr
  unfold apiURL
  rw [h1]
  exact ⟨f4 (resolveFull_getLast _ _ _ e2), f1, f2, hok, h5, h6, h7⟩

theorem branches_ref_eq (n : Nat) :
    lit "projects/" ++ fmtUint n ++ lit "/repository/branches/" =
      lit "projects" ++ byteOf '/' :: (fmtUint n ++ byteOf '/' ::
        (lit "repository" ++ byteOf '/' :: (lit "branches" ++ byteOf '/' :: []))) := by
  have h1 : lit "projects/" = lit "projects" ++ [byteOf '/'] := by decide
  have h2 : lit "/repository/branches/" =
      byteOf '/' :: (lit "repository" ++ byteOf '/' :: (lit "branches" ++ [byteOf '/'])) := by
    decide
  rw [h1, h2]
  simp

theorem branches_ref_plain (n : Nat) :
    ∀ c ∈ lit "projects/" ++ fmtUint n ++ lit "/repository/branches/", plainByte c = true := by
  intro c hc
  simp only [List.mem_append] at hc
  rcases hc with (hc | hc) | hc
  · exact (show ∀ c ∈ lit "projects/", plainByte c = true from by decide) c hc
  · exact fmtUint_plain n c hc
  · exact (show ∀ c ∈ lit "/repository/branches/", plainByte c = true from by decide) c hc

/-- The escaped path of `branchesURL` is that of `apiURL` followed by
`projects/<id>/repository/branches/`. -/
theorem branchesURL_facts (rootURL : URL) (n : Nat) :
    (projectURLOf rootURL n (lit "/repository/branches/")).EscapedPath =
        (apiURL rootURL).EscapedPath ++ (lit "projects/" ++ fmtUint n ++
          lit "/repository/branches/") ∧
      (∃ r0, (projectURLOf rootURL n (lit "/repository/branches/")).EscapedPath =
        r0 ++ [byteOf '/']) ∧
      (projectURLOf rootURL n (lit "/repository/branches/")).EscapedPath.head? =
        some (byteOf '/') ∧
      NoDot (projectURLOf rootURL n (lit "/repository/branches/")).EscapedPath ∧
      pathOK (projectURLOf rootURL n (lit "/repository/branches/")).EscapedPath = true ∧
      (projectURLOf rootURL n (lit "/repository/branches/")).Scheme = (apiURL rootURL).Scheme ∧
      (projectURLOf rootURL n (lit "/repository/branches/")).Host = (apiURL rootURL).Host ∧
      (projectURLOf rootURL n (lit "/repository/branches/")).User = (apiURL rootURL).User ∧
      (projectURLOf rootURL n (lit "/repository/branches/")).Opaque = [] ∧
      (projectURLOf rootURL n (lit "/repository/branches/")).RawQuery = [] ∧
      (projectURLOf rootURL n (lit "/repository/branches/")).Fragment = [] := by
  obtain ⟨⟨r0, a1⟩, a2, a3, a4, _, _, _⟩ := apiURL_facts rootURL
  have hplain := branches_ref_plain n
  have hesc := EscapedPath_plain _ hplain
  have hne : lit "projects/" ++ fmtUint n ++ lit "/repository/branches/" ≠ [] := by
    rw [branches_ref_eq]; simp
  have hhead : (lit "projects/" ++ fmtUint n ++ lit "/repository/branches/").head? ≠
      some (byteOf '/') := by
    rw [branches_ref_eq]
    exact (show ∀ r : GoString, (lit "projects" ++ r).head? ≠ some (byteOf '/') from
      fun r => by simp [lit, byteOf]) _
  have hlast : (lit "projects/" ++ fmtUint n ++ lit "/repository/branches/").getLast? =
      some (byteOf '/') := by
    rw [List.getLast?_append]
    rfl
  have hnd : NoDot (lit "projects/" ++ fmtUint n ++ lit "/repository/branches/") := by
    rw [branches_ref_eq]
    exact NoDot_project n _ _ (by decide) (by decide) (by constructor <;> decide)
      (by constructor <;> decide)
  have hfull := resolveFull_ne_nil (apiURL rootURL).EscapedPath _ hne
  obtain ⟨f1, f2, f3, f4⟩ := resolvePath_facts (apiURL rootURL).EscapedPath _ hfull
  have hok := f3 a4 (pathOK_plain _ hplain)
  have happ : resolvePath (apiURL rootURL).EscapedPath
      (lit "projects/" ++ fmtUint n ++ lit "/repository/branches/") =
      (apiURL rootURL).EscapedPath ++ (lit "projects/" ++ fmtUint n ++
        lit "/repository/branches/") := by
    rw [a1] at a2 a3 ⊢
    exact resolvePath_append r0 _ a2 a3 hnd hne hhead
  have hr := ResolveReference_relative (apiURL rootURL)
    { Path := lit "projects/" ++ fmtUint n ++ lit "/repository/branches/" }
    rfl rfl rfl rfl hne (by rw [hesc]; exact hok) (by rw [hesc]; exact f1)
  rw [hesc] at hr
  obtain ⟨h1, h2, h3, h4, h5, h6, h7, _⟩ := hr
  unfold projectURLOf
  rw [h1]
  exact ⟨happ, f4 (resolveFull_getLast _ _ _ hlast), f1, f2, hok, h2, h3, h4, h5, h6, h7⟩

/-! ### Escaped path segments as references -/

/-- The bytes of `PathEscape b`: percent signs, hexadecimal digits and the bytes of `b` that are
not escaped. -/
theorem mem_PathEscape (b : GoString) : ∀ c ∈ PathEscape b,
    c = byteOf '%' ∨ ishex c = true ∨ (c ∈ b ∧ shouldEscape c .encodePathSegment = false) := by
  unfold PathEscape
  induction b with
  | nil => intro c hc; simp [escape] at hc
  | cons d b ih =>
    intro c hc
    rw [escape_cons _ (by decide)] at hc
    by_cases hd : shouldEscape d .encodePathSegment = true
    · rw [if_pos hd] at hc
      simp only [List.mem_cons] at hc
      rcases hc with h | h | h | h
      · exact Or.inl h
      · exact Or.inr (Or.inl (h ▸ (hex_roundtrip d).1))
      · exact Or.inr (Or.inl (h ▸ (hex_roundtrip d).2.1))
      · rcases ih c h with h1 | h1 | ⟨h1, h2⟩
        · exact Or.inl h1
        · exact Or.inr (Or.inl h1)
        · exact Or.inr (Or.inr ⟨List.mem_cons_of_mem _ h1, h2⟩)
    · rw [if_neg hd] at hc
      simp only [List.mem_cons] at hc
      rcases hc with h | h
      · exact Or.inr (Or.inr ⟨by rw [h]; exact List.mem_cons_self _ _, by rw [h]; simpa using hd⟩)
      · rcases ih c h with h1 | h1 | ⟨h1, h2⟩
        · exact Or.inl h1
        · exact Or.inr (Or.inl h1)
        · exact Or.inr (Or.inr ⟨List.mem_cons_of_mem _ h1, h2⟩)

theorem segment_byte_facts : ∀ c : Byte,
    (c = byteOf '%' ∨ ishex c = true ∨ shouldEscape c .encodePathSegment = false) →
    (c.val < 32 || c.val = 127) = false ∧ c ≠ byteOf '#' ∧ c ≠ byteOf '?' ∧ c ≠ byteOf '/' := by
  decide

theorem colon_not_hex : byteOf ':' ≠ byteOf '%' ∧ ishex (byteOf ':') = false := by
  decide

/-- A colon of `PathEscape b` is a colon of `b`. -/
theorem colon_mem_PathEscape (b : GoString) (h : byteOf ':' ∈ PathEscape b) : byteOf ':' ∈ b := by
  rcases mem_PathEscape b _ h with h1 | h1 | ⟨h1, _⟩
  · exact absurd h1 colon_not_hex.1
  · rw [colon_not_hex.2] at h1; exact absurd h1 (by decide)
  · exact h1

theorem not_shouldEscape_segment_facts : ∀ c : Byte, shouldEscape c .encodePathSegment = false →
    validEncoded .encodePath [c] = true ∧ c ≠ byteOf '%' := by
  decide

/-- An escaped path segment is validly encoded and decodable. -/
theorem pathOK_PathEscape (p : GoString) : pathOK (PathEscape p) = true := by
  unfold PathEscape
  induction p with
  | nil => decide
  | cons c p ih =>
    rw [escape_cons _ (by decide)]
    simp only [pathOK, Bool.and_eq_true] at ih ⊢
    by_cases hc : shouldEscape c .encodePathSegment = true
    · rw [if_pos hc]
      constructor
      · have := hexDigit_valid c
        rw [show byteOf '%' :: hexDigit (c.val >>> 4) :: hexDigit (c.val &&& 15) ::
            escape .encodePathSegment p =
          [byteOf '%', hexDigit (c.val >>> 4), hexDigit (c.val &&& 15)] ++
            escape .encodePathSegment p
          from rfl, validEncoded_append, this, ih.1]
        rfl
      · rw [escOK_percent, (hex_roundtrip c).1, (hex_roundtrip c).2.1, ih.2]
        rfl
    · have hc2 : shouldEscape c .encodePathSegment = false := by simpa using hc
      obtain ⟨h1, h2⟩ := not_shouldEscape_segment_facts c hc2
      rw [if_neg hc]
      constructor
      · rw [show c :: escape .encodePathSegment p = [c] ++ escape .encodePathSegment p from rfl,
          validEncoded_append, h1, ih.1]
        rfl
      · rw [escOK_cons_of_ne _ _ h2]
        exact ih.2

theorem PathEscape_ne_nil (b : GoString) (hne : b ≠ []) : PathEscape b ≠ [] := by
  intro h
  exact hne (PathEscape_injective b [] (by rw [h]; rfl))

theorem PathEscape_head (b : GoString) : (PathEscape b).head? ≠ some (byteOf '/') := by
  intro h
  apply slash_not_mem_PathEscape b
  cases hb : PathEscape b with
  | nil => rw [hb] at h; simp at h
  | cons c s =>
    rw [hb] at h
    simp only [List.head?_cons, Option.some.injEq] at h
    rw [h]
    exact List.mem_cons_self _ _

/-- The escaped name of a branch other than `.` and `..` is a single path element that is not a
dot segment. -/
theorem NoDot_PathEscape (b : GoString) (hdot : b ≠ lit ".") (hdotdot : b ≠ lit "..") :
    NoDot (PathEscape b) := by
  intro seg hseg
  rw [splitOn_of_not_mem _ _ (slash_not_mem_PathEscape b)] at hseg
  simp only [List.mem_singleton] at hseg
  rw [hseg]
  constructor
  · intro h
    exact hdot (PathEscape_injective b (lit ".") (by rw [h]; decide))
  · intro h
    exact hdotdot (PathEscape_injective b (lit "..") (by rw [h]; decide))

/-- Parsing the escaped name of a branch without a colon gives a reference that has nothing
but a path: the path is the name and the escaped path is the escaped name. -/
theorem Parse_PathEscape (pa : AuthorityParser) (b : GoString) (hne : b ≠ [])
    (hstar : b ≠ lit "*") (hcolon : byteOf ':' ∉ b) :
    ∃ ref : URL, parseURL pa (PathEscape b) = .ok ref ∧ ref.Path = b ∧
      ref.EscapedPath = PathEscape b ∧ ref.Scheme = [] ∧ ref.Host = [] ∧ ref.User = none ∧
      ref.Opaque = [] ∧ ref.RawQuery = [] ∧ ref.Fragment = [] ∧ ref.ForceQuery = false := by
  have hb : ∀ c ∈ PathEscape b,
      (c.val < 32 || c.val = 127) = false ∧ c ≠ byteOf '#' ∧ c ≠ byteOf '?' ∧ c ≠ byteOf '/' := by
    intro c hc
    apply segment_byte_facts
    rcases mem_PathEscape b c hc with h | h | ⟨_, h⟩
    · exact Or.inl h
    · exact Or.inr (Or.inl h)
    · exact Or.inr (Or.inr h)
  have hctl : stringContainsCTLByte (PathEscape b) = false := by
    unfold stringContainsCTLByte
    rw [List.any_eq_false]
    intro c hc
    rw [(hb c hc).1]
    decide
  have hs : PathEscape b ≠ lit "*" := by
    intro h
    have h1 : byteOf '*' ∈ PathEscape b := by rw [h]; decide
    rcases mem_PathEscape b _ h1 with h2 | h2 | ⟨_, h2⟩
    · exact absurd h2 (by decide)
    · exact absurd h2 (by decide)
    · exact absurd h2 (by decide)
  have hp := Parse_relative pa (PathEscape b) hctl hs (fun h => (hb _ h).2.1 rfl)
    (fun h => (hb _ h).2.2.1 rfl) (fun h => hcolon (colon_mem_PathEscape b h))
    (startsWith_two_slashes_false _ (PathEscape_head b))
  have hun : unescape .encodePath (PathEscape b) = .ok b :=
    unescape_escape _ _ (Or.inl rfl) (Or.inr rfl) b
  have hok := pathOK_PathEscape b
  simp only [pathOK, Bool.and_eq_true] at hok
  unfold parseURL
  rw [hp]
  unfold URL.setPath
  rw [hun]
  by_cases he : PathEscape b = escape .encodePath b
  · refine ⟨{ Path := b, RawPath := [] }, ?_, rfl, ?_, rfl, rfl, rfl, rfl, rfl, rfl, rfl⟩
    · simp only [he, if_true]
    · unfold URL.EscapedPath
      simp [hstar, he]
  · refine ⟨{ Path := b, RawPath := PathEscape b }, ?_, rfl, ?_, rfl, rfl, rfl, rfl, rfl, rfl, rfl⟩
    · simp only [he, if_false]
    · unfold URL.EscapedPath
      simp [PathEscape_ne_nil b hne, hok.1, hun]

/-! ### The command line -/

theorem parseFlags_example :
    parseFlags {} exampleCommandLine =
      ({ baseurl := lit "https://gitlab.example.com", project := lit "group/project",
         stage := lit "test" }, [lit "master"], none) := by
  decide

theorem main_invalid (pa : AuthorityParser) (w : World) (a : Args) (fuel : Nat)
    (h : a.baseUrl = [] ∨ a.project = [] ∨ a.stage = [] ∨ a.branches = [] ∨ a.token = [] ∨
      (∃ e, Parse pa a.baseUrl = .error e) ∨ [] ∈ a.branches) :
    (main pa w a fuel).1 = [] ∧ (main pa w a fuel).2.exitStatus = some 2 := by
  cases hv : validate pa a with
  | error e => simp [main, hv, Outcome.exitStatus]
  | ok root =>
    exfalso
    unfold validate at hv
    split_ifs at hv with h1 h2 h3 h4 h5 h6
    · cases hp : Parse pa a.baseUrl <;> simp [hp] at hv
    · cases hp : Parse pa a.baseUrl with
      | error e => simp [hp] at hv
      | ok r =>
        rcases h with h | h | h | h | h | h | h
        · exact h1 h
        · exact h2 h
        · exact h3 h
        · exact h4 (by simp [h])
        · exact h5 h
        · rcases h with ⟨e, he⟩
          rw [hp] at he
          cases he
        · exact h6 (by simp [List.any_eq_true]; exact h)

/-- The run of a command line on which `flag.Parse()` returns is the rest of `main` on the
flag values and the remaining arguments. -/
theorem run_of_parsed (pa : AuthorityParser) (w : World) (arguments : List GoString)
    (TOKEN : GoString) (fuel : Nat) (f : Flags) (branches : List GoString)
    (h : parseFlags {} arguments = (f, branches, none)) :
    run pa w arguments TOKEN fuel =
      main pa w { baseUrl := f.baseurl, project := f.project, stage := f.stage,
                  branches := branches, token := TOKEN } fuel := by
  unfold run
  rw [h]

/-- A run that `flag.Parse()` ends has no effect. -/
theorem run_of_flag_error (pa : AuthorityParser) (w : World) (arguments : List GoString)
    (TOKEN : GoString) (fuel : Nat) (e : FlagError)
    (h : (parseFlags {} arguments).2.2 = some e) :
    run pa w arguments TOKEN fuel = ([], .flagExit e) := by
  unfold run
  rcases hp : parseFlags {} arguments with ⟨f, branches, err⟩
  rw [hp] at h
  simp only at h
  rw [h]


/-! ## The claims -/

theorem jobLoop_all_ok (pa : AuthorityParser) (w : World) (token stage branch : GoString)
    (jobsURL : URL) (hcreate : ∀ t n, w.create t n = .ok ())
    (hart : ∀ t r, w.artifacts t r = .ok ()) (hcopy : ∀ t n r, w.copy t n r = .ok ())
    (jobs : List glJob) (t : Nat) :
    jobLoop pa w token stage branch jobsURL jobs t =
      ((jobs.filter (selected stage)).flatMap (download pa token branch jobsURL), none) := by
  induction jobs generalizing t with
  | nil => rfl
  | cons job jobs ih =>
    unfold jobLoop
    by_cases hsel : job.Stage = stage ∧ job.Artifacts.length > 0
    · have hs : selected stage job = true := by simp [selected, hsel]
      simp only [hsel, and_self, if_true, hcreate, hart, hcopy,
        parseURL_number pa job.ID (lit "/artifacts") (by decide), ih]
      simp [List.filter_cons, hs, download, artifactsRequest,
        refOf_number pa job.ID (lit "/artifacts") (by decide)]
    · have hs : selected stage job = false := by simp [selected, hsel]
      simp only [hsel, if_false, ih]
      simp [List.filter_cons, hs]

/-- C3. When no file creation, artifact request or copy fails, the effects of the job loop of
a branch are the downloads of exactly the jobs that are in the requested stage and have
artifacts, in the order of the job list, one file each, and the loop runs to its end. For the
jobs `test` with an artifact, `build` without, `test` without and stage `test` that is the
download of the first job only; when no job is selected nothing happens at all. -/
theorem job_selection (pa : AuthorityParser) (w : World) (token stage branch : GoString)
    (jobsURL : URL) (jobs : List glJob) (t j1 j2 j3 : Nat)
    (hcreate : ∀ t n, w.create t n = .ok ())
    (hart : ∀ t r, w.artifacts t r = .ok ()) (hcopy : ∀ t n r, w.copy t n r = .ok ()) :
    jobLoop pa w token stage branch jobsURL jobs t =
        ((jobs.filter (selected stage)).flatMap (download pa token branch jobsURL), none) ∧
      jobLoop pa w token (lit "test") branch jobsURL
          [⟨j1, lit "test", [()]⟩, ⟨j2, lit "build", []⟩, ⟨j3, lit "test", []⟩] t =
        (download pa token branch jobsURL ⟨j1, lit "test", [()]⟩, none) ∧
      ((∀ job ∈ jobs, selected stage job = false) →
        jobLoop pa w token stage branch jobsURL jobs t = ([], none)) := by
  refine ⟨jobLoop_all_ok pa w token stage branch jobsURL hcreate hart hcopy jobs t, ?_, ?_⟩
  · rw [jobLoop_all_ok pa w token _ branch jobsURL hcreate hart hcopy]
    simp [List.filter_cons, selected]
  · intro hnone
    rw [jobLoop_all_ok pa w token stage branch jobsURL hcreate hart hcopy]
    have : jobs.filter (selected stage) = [] := by
      simp [List.filter_eq_nil_iff]
      intro job hj
      simpa using hnone job hj
    simp [this]

theorem job_selection_witness :
    jobLoop hostOnly echoWorld (lit "secret") (lit "test") (lit "master")
        (projectURLOf exampleRoot 7 (lit "/jobs/"))
        [⟨11, lit "test", [()]⟩, ⟨12, lit "build", []⟩, ⟨13, lit "test", []⟩] 0 =
      (download hostOnly (lit "secret") (lit "master") (projectURLOf exampleRoot 7 (lit "/jobs/"))
        ⟨11, lit "test", [()]⟩, none) :=
  (job_selection hostOnly echoWorld (lit "secret") (lit "test") (lit "master")
    (projectURLOf exampleRoot 7 (lit "/jobs/")) [] 0 11 12 13
    (fun _ _ => rfl) (fun _ _ => rfl) (fun _ _ _ => rfl)).2.1

theorem validate_example : validate hostOnly exampleArgs = .ok exampleRoot := by decide

theorem page_query_ne (page : Nat) :
    (sentPageRequest (lit "secret") (projectsURLOf exampleRoot) page).URL.RawQuery ≠
      lit "page=" ++ decimal (2 ^ 64) := by
  intro h
  simp only [sentPageRequest, fmtUint] at h
  have h2 := decimal_injective _ _ (List.append_cancel_left h)
  have h3 : page % 2 ^ 64 < 2 ^ 64 := Nat.mod_lt _ (by decide)
  omega

/-- C9. If every page request is answered with a non-empty page without the target, the run
never leaves the project locator: for every number of pages granted it is still running, has
sent that many page requests and nothing else, so for every `n` it sends more than `n` page
requests. Conversely a loop that has ended has ended at a failed request, an empty page or a
page with a match. -/
theorem unbounded_pagination (pa : AuthorityParser) (w : World) (a : Args) (rootURL : URL)
    (hv : validate pa a = .ok rootURL)
    (hw : ∀ t r, ∃ ps, w.projects t r = .ok ps ∧ ps ≠ [] ∧
      ∀ p ∈ ps, p.PathWithNamespace ≠ a.project) :
    (∀ fuel, (main pa w a fuel).2 = .running ∧ (main pa w a fuel).1.length = fuel ∧
      ∀ e ∈ (main pa w a fuel).1, e.isPageRequest = true) ∧
    (∀ n, ∃ fuel, n < ((main pa w a fuel).1.filter Event.isPageRequest).length) ∧
    (∀ (w2 : World) (token project : GoString) (projectsURL : URL) (fuel page t : Nat),
      (paginatingProjects w2 token project projectsURL fuel page t).2 ≠ .stop .running →
      ∃ req res, (paginatingProjects w2 token project projectsURL fuel page t).1.getLast? =
          some (.getProjects req res) ∧
        ((∃ e, res = .error e) ∨ res = .ok [] ∨
          ∃ ps p, res = .ok ps ∧ p ∈ ps ∧ p.PathWithNamespace = project)) := by
  have key := main_running pa w a rootURL hv hw
  refine ⟨key, ?_, ?_⟩
  · intro n
    refine ⟨n + 1, ?_⟩
    obtain ⟨_, h2, h3⟩ := key (n + 1)
    have : (main pa w a (n + 1)).1.filter Event.isPageRequest = (main pa w a (n + 1)).1 :=
      List.filter_eq_self.2 h3
    rw [this, h2]
    omega
  · intro w2 token project projectsURL fuel page t
    exact paginatingProjects_ends w2 token project projectsURL fuel page t

theorem unbounded_pagination_witness :
    validate hostOnly exampleArgs = .ok exampleRoot ∧
      (main hostOnly echoWorld exampleArgs 3).2 = .running ∧
      (main hostOnly echoWorld exampleArgs 3).1.length = 3 :=
  ⟨validate_example,
    ((unbounded_pagination hostOnly echoWorld exampleArgs exampleRoot validate_example
      (fun _ _ => ⟨_, rfl, by decide, by decide⟩)).1 3).1,
    ((unbounded_pagination hostOnly echoWorld exampleArgs exampleRoot validate_example
      (fun _ _ => ⟨_, rfl, by decide, by decide⟩)).1 3).2.1⟩

/-- C1, as amended. If the `k`-th page is the first page with an entry whose path is the
target, the pages before it are non-empty, and `k` is a value of the `uint64` page counter
(`1 ≤ k < 2 ^ 64`), then the locator, given at least `k` pages of fuel, sends exactly the `k`
requests `page=1`, ..., `page=k` in this order and leaves with the identifier of the first
matching entry of page `k`. -/
theorem locator_finds_project (w : World) (token project : GoString) (projectsURL : URL)
    (pages : Nat → List glProject) (k t : Nat) (pr : glProject)
    (hk1 : 1 ≤ k) (hk : k < 2 ^ 64)
    (hw : ∀ i, i < k → w.projects (t + i) (pageRequest token projectsURL (1 + i)) =
      .ok (pages (1 + i)))
    (hskip : ∀ i, 1 ≤ i → i < k → pages i ≠ [] ∧ firstMatch project (pages i) = none)
    (hmatch : firstMatch project (pages k) = some pr) (fuel : Nat) (hfuel : k ≤ fuel) :
    paginatingProjects w token project projectsURL fuel 1 t =
      (pageEvents token projectsURL pages 1 k, .found pr.ID) := by
  obtain ⟨m, rfl⟩ : ∃ m, k = m + 1 := ⟨k - 1, by omega⟩
  obtain ⟨f, rfl⟩ : ∃ f, fuel = m + (f + 1) := ⟨fuel - m - 1, by omega⟩
  rw [paginatingProjects_skip w token project projectsURL pages m 1 t (f + 1) (by omega)
    (fun i hi => ⟨hw i (by omega), hskip (1 + i) (by omega) (by omega)⟩)]
  rw [paginatingProjects_succ, sentPageRequest_of_lt token projectsURL (1 + m) (by omega)]
  have hlast := hw m (by omega)
  rw [hlast]
  rw [Nat.add_comm m 1] at hmatch
  have hne : pages (1 + m) ≠ [] := by
    intro he
    rw [he] at hmatch
    simp [firstMatch] at hmatch
  simp only [not_length_lt_one _ hne, if_false, hmatch]
  congr 1
  simp only [pageEvents, List.range_succ, List.map_append, List.map_cons, List.map_nil]

theorem locator_finds_project_witness :
    paginatingProjects (twoPageWorld []) (lit "secret") (lit "group/project")
        (projectsURLOf exampleRoot) 5 1 0 =
      (pageEvents (lit "secret") (projectsURLOf exampleRoot) twoPages 1 2, .found 7) :=
  locator_finds_project (twoPageWorld []) (lit "secret") (lit "group/project")
    (projectsURLOf exampleRoot) twoPages 2 0 { ID := 7, PathWithNamespace := lit "group/project" }
    (by decide) (by decide)
    (fun i hi => by
      have : i = 0 ∨ i = 1 := by omega
      rcases this with rfl | rfl <;> decide)
    (fun i h1 h2 => by
      have : i = 1 := by omega
      subst this
      decide)
    (by decide) 5 (by decide)

theorem page_query_eq_iff (token : GoString) (projectsURL : URL) (p q : Nat) :
    (pageRequest token projectsURL p).URL.RawQuery = lit "page=" ++ decimal q ↔ p = q := by
  constructor
  · intro h
    exact decimal_injective _ _ (List.append_cancel_left h)
  · intro h
    rw [h]
    rfl

theorem other_ne_target :
    ∀ p ∈ [({ ID := 1, PathWithNamespace := lit "other/project" } : glProject)],
      p.PathWithNamespace ≠ lit "group/project" := by
  decide

/-- C1, counterexample. The pages `farPages` meet the conditions of the claim with
`k = 2 ^ 64`: the API serves them, pages `1` to `2 ^ 64 - 1` are non-empty without the target
and page `2 ^ 64` has it. The page counter is a `uint64`, so after `page=18446744073709551615`
the locator asks for `page=0`: it never asks for page `2 ^ 64` and never finds the project. -/
theorem locator_page_overflow :
    (∀ t p, farWorld.projects t (pageRequest (lit "secret") (projectsURLOf exampleRoot) p) =
      .ok (farPages p)) ∧
    (∀ i, 1 ≤ i → i < 2 ^ 64 →
      farPages i ≠ [] ∧ firstMatch (lit "group/project") (farPages i) = none) ∧
    firstMatch (lit "group/project") (farPages (2 ^ 64)) =
      some { ID := 7, PathWithNamespace := lit "group/project" } ∧
    ∀ fuel,
      paginatingProjects farWorld (lit "secret") (lit "group/project")
          (projectsURLOf exampleRoot) fuel 1 0 ≠
        (pageEvents (lit "secret") (projectsURLOf exampleRoot) farPages 1 (2 ^ 64), .found 7) ∧
      (paginatingProjects farWorld (lit "secret") (lit "group/project")
          (projectsURLOf exampleRoot) fuel 1 0).2 = .stop .running := by
  refine ⟨?_, ?_, ?_, ?_⟩
  · intro t p
    show (if (pageRequest (lit "secret") (projectsURLOf exampleRoot) p).URL.RawQuery =
        lit "page=" ++ decimal (2 ^ 64) then _ else _) = _
    by_cases hp : p = 2 ^ 64
    · rw [if_pos ((page_query_eq_iff _ _ _ _).2 hp)]
      simp [farPages, hp]
    · rw [if_neg (fun h => hp ((page_query_eq_iff _ _ _ _).1 h)), farPages, if_neg hp]
  · intro i _ hi
    have hne : i ≠ 2 ^ 64 := by omega
    simp only [farPages, hne, if_false]
    exact ⟨by simp, (firstMatch_none_iff _ _).2 other_ne_target⟩
  · simp only [farPages, if_true]
    decide
  · intro fuel
    have hrun := (paginatingProjects_running farWorld (lit "secret") (lit "group/project")
      (projectsURLOf exampleRoot) (fun t page => by
        refine ⟨[{ ID := 1, PathWithNamespace := lit "other/project" }], ?_, by simp,
          other_ne_target⟩
        show (if (sentPageRequest (lit "secret") (projectsURLOf exampleRoot) page).URL.RawQuery =
          lit "page=" ++ decimal (2 ^ 64) then _ else _) = _
        rw [if_neg (page_query_ne page)]) fuel 1 0).1
    refine ⟨?_, hrun⟩
    intro h
    rw [h] at hrun
    cases hrun

/-- C2, as amended. In a run with valid arguments, if page `k` is the first empty page, no
page before it has the target, and `k` is a value of the `uint64` page counter
(`1 ≤ k < 2 ^ 64`), then the run, given at least `k` pages of fuel, ends with the error
`no such project` and exit status 1, and its whole transcript is the `k` page requests: no
branch, commit, jobs or artifact request and no file creation. -/
theorem project_not_found (pa : AuthorityParser) (w : World) (a : Args) (rootURL : URL)
    (pages : Nat → List glProject) (k : Nat) (hv : validate pa a = .ok rootURL)
    (hk1 : 1 ≤ k) (hk : k < 2 ^ 64)
    (hw : ∀ i, i < k → w.projects i (pageRequest a.token (projectsURLOf rootURL) (1 + i)) =
      .ok (pages (1 + i)))
    (hskip : ∀ i, 1 ≤ i → i < k → pages i ≠ [] ∧ firstMatch a.project (pages i) = none)
    (hempty : pages k = []) (fuel : Nat) (hfuel : k ≤ fuel) :
    main pa w a fuel =
        (pageEvents a.token (projectsURLOf rootURL) pages 1 k, .failed .noSuchProject) ∧
      (main pa w a fuel).2.exitStatus = some 1 := by
  have hloop : paginatingProjects w a.token a.project (projectsURLOf rootURL) fuel 1 0 =
      (pageEvents a.token (projectsURLOf rootURL) pages 1 k, .stop (.failed .noSuchProject)) := by
    obtain ⟨m, rfl⟩ : ∃ m, k = m + 1 := ⟨k - 1, by omega⟩
    obtain ⟨f, rfl⟩ : ∃ f, fuel = m + (f + 1) := ⟨fuel - m - 1, by omega⟩
    rw [paginatingProjects_skip w a.token a.project (projectsURLOf rootURL) pages m 1 0 (f + 1)
      (by omega) (fun i hi => ⟨by simpa using hw i (by omega), hskip (1 + i) (by omega) (by omega)⟩)]
    rw [paginatingProjects_succ, sentPageRequest_of_lt a.token _ (1 + m) (by omega)]
    have hlast := hw m (by omega)
    rw [Nat.zero_add, hlast]
    rw [Nat.add_comm m 1] at hempty
    simp only [hempty, List.length_nil, Nat.lt_one_iff, if_true]
    congr 1
    simp only [pageEvents, List.range_succ, List.map_append, List.map_cons, List.map_nil, hempty]
  have hmain : main pa w a fuel =
      (pageEvents a.token (projectsURLOf rootURL) pages 1 k, .failed .noSuchProject) := by
    rw [main_of_valid pa w a fuel rootURL hv, hloop]
  exact ⟨hmain, by rw [hmain]; rfl⟩

theorem project_not_found_witness :
    main hostOnly (twoPageWorld []) { exampleArgs with project := lit "group/missing" } 5 =
        (pageEvents (lit "secret") (projectsURLOf exampleRoot) twoPages 1 3,
          .failed .noSuchProject) ∧
      (main hostOnly (twoPageWorld []) { exampleArgs with project := lit "group/missing" }
        5).2.exitStatus = some 1 :=
  project_not_found hostOnly (twoPageWorld []) { exampleArgs with project := lit "group/missing" }
    exampleRoot twoPages 3 (by decide) (by decide) (by decide)
    (fun i hi => by
      have : i = 0 ∨ i = 1 ∨ i = 2 := by omega
      rcases this with rfl | rfl | rfl <;> decide)
    (fun i h1 h2 => by
      have : i = 1 ∨ i = 2 := by omega
      rcases this with rfl | rfl <;> decide)
    (by decide) 5 (by decide)

/-- C2, counterexample. The pages `longPages` meet the conditions of the claim with
`k = 2 ^ 64`: the API serves them, page `2 ^ 64` is the first empty page and no page has the
target. The run never asks for page `2 ^ 64` (the `uint64` page counter wraps to 0) and never
fails with `no such project`: it is still running after any number of page requests. -/
theorem not_found_page_overflow :
    validate hostOnly exampleArgs = .ok exampleRoot ∧
    (∀ t p, longWorld.projects t (pageRequest exampleArgs.token (projectsURLOf exampleRoot) p) =
      .ok (longPages p)) ∧
    (∀ i, 1 ≤ i → i < 2 ^ 64 →
      longPages i ≠ [] ∧ firstMatch exampleArgs.project (longPages i) = none) ∧
    longPages (2 ^ 64) = [] ∧
    ∀ fuel,
      main hostOnly longWorld exampleArgs fuel ≠
        (pageEvents exampleArgs.token (projectsURLOf exampleRoot) longPages 1 (2 ^ 64),
          .failed .noSuchProject) ∧
      (main hostOnly longWorld exampleArgs fuel).2 = .running := by
  refine ⟨validate_example, ?_, ?_, ?_, ?_⟩
  · intro t p
    show (if (pageRequest (lit "secret") (projectsURLOf exampleRoot) p).URL.RawQuery =
        lit "page=" ++ decimal (2 ^ 64) then _ else _) = _
    by_cases hp : p = 2 ^ 64
    · rw [if_pos ((page_query_eq_iff _ _ _ _).2 hp)]
      simp [longPages, hp]
    · rw [if_neg (fun h => hp ((page_query_eq_iff _ _ _ _).1 h)), longPages, if_neg hp]
  · intro i _ hi
    have hne : i ≠ 2 ^ 64 := by omega
    simp only [longPages, hne, if_false]
    exact ⟨by simp, (firstMatch_none_iff _ _).2 other_ne_target⟩
  · simp [longPages]
  · intro fuel
    have hrun := (paginatingProjects_running longWorld (lit "secret") (lit "group/project")
      (projectsURLOf exampleRoot) (fun t page => by
        refine ⟨[{ ID := 1, PathWithNamespace := lit "other/project" }], ?_, by simp,
          other_ne_target⟩
        show (if (sentPageRequest (lit "secret") (projectsURLOf exampleRoot) page).URL.RawQuery =
          lit "page=" ++ decimal (2 ^ 64) then _ else _) = _
        rw [if_neg (page_query_ne page)]) fuel 1 0).1
    have hmain : (main hostOnly longWorld exampleArgs fuel).2 = .running := by
      rw [main_of_valid hostOnly longWorld exampleArgs fuel exampleRoot validate_example]
      show (match paginatingProjects longWorld (lit "secret") (lit "group/project")
        (projectsURLOf exampleRoot) fuel 1 0 with
        | (tr, .stop o) => (tr, o)
        | (tr, .found projectID) => _).2 = _
      generalize paginatingProjects longWorld (lit "secret") (lit "group/project")
        (projectsURLOf exampleRoot) fuel 1 0 = r at hrun
      rcases r with ⟨tr, id | o⟩
      · cases hrun
      · cases hrun
        rfl
    refine ⟨?_, hmain⟩
    intro h
    rw [h] at hmain
    cases hmain

/-- C4. The file name `<PathEscape(branch)>-<job id>.zip` determines the branch and the job
identifier (a `uint64`): equal names come from equal branches and equal identifiers. Branches
whose escaped names differ never get the same file name, whatever the job identifiers. -/
theorem fileName_injective (b1 b2 : GoString) (j1 j2 : Nat) (h1 : j1 < 2 ^ 64) (h2 : j2 < 2 ^ 64) :
    (fileName b1 j1 = fileName b2 j2 → b1 = b2 ∧ j1 = j2) ∧
      (PathEscape b1 ≠ PathEscape b2 → ∀ i1 i2 : Nat, fileName b1 i1 ≠ fileName b2 i2) := by
  constructor
  · intro h
    obtain ⟨he, hd⟩ := fileName_parts b1 b2 j1 j2 h
    exact ⟨PathEscape_injective b1 b2 he, fmtUint_injective j1 j2 h1 h2 hd⟩
  · intro hne i1 i2 h
    exact hne (fileName_parts b1 b2 i1 i2 h).1

theorem fileName_injective_witness :
    fileName (lit "a/b") 3 ≠ fileName (lit "a") 3 :=
  (fileName_injective (lit "a/b") (lit "a") 3 3 (by decide) (by decide)).2 (by decide) 3 3

/-- C10, as amended. In every run no file handle and no artifact response body is open
whenever the run moves on to a next request for JSON or a next file creation, nor at its end,
unless the run ends with a failed artifact request or a failed copy: a download that goes
through closes its file and its response body before the next job or branch. When the
artifact request or the copy fails the run exits at once with status 1 and the file of that
job is still open; when it is the copy that fails a response body is still open too. -/
theorem handles_released (pa : AuthorityParser) (w : World) (a : Args) (fuel : Nat) :
    (∀ p e rest, (main pa w a fuel).1 = p ++ e :: rest → e.startsStep = true →
      openAfter p = ([], [])) ∧
    ((∀ ev, (main pa w a fuel).1.getLast? = some ev → ev.failedTransfer = false) →
      openAfter (main pa w a fuel).1 = ([], [])) ∧
    (∀ ev, (main pa w a fuel).1.getLast? = some ev → ev.failedTransfer = true →
      (main pa w a fuel).2.exitStatus = some 1 ∧ (openAfter (main pa w a fuel).1).1 ≠ [] ∧
        ∀ name req e, ev = .copy name req (.error e) →
          (openAfter (main pa w a fuel).1).2 ≠ []) := by
  obtain ⟨h1, h2, h3⟩ := main_disciplined pa w a fuel
  refine ⟨fun p e rest htr he => wellScoped_split _ _ p e rest h1 htr he, ?_, ?_⟩
  · intro hl
    apply h2
    unfold lastFailed
    cases hg : (main pa w a fuel).1.getLast? with
    | none => rfl
    | some ev => exact hl ev hg
  · intro ev hg hf
    have hl : lastFailed (main pa w a fuel).1 = true := by
      unfold lastFailed
      rw [hg]
      exact hf
    obtain ⟨⟨e, he⟩, hopen, hbody⟩ := h3 hl
    exact ⟨by rw [he]; rfl, hopen, fun name req e2 hev => hbody name req e2 (by rw [hg, hev])⟩

theorem handles_released_witness :
    openAfter (main hostOnly
      (twoPageWorld [{ ID := 11, Stage := lit "test", Artifacts := [()] }]) exampleArgs 5).1 =
        ([], []) :=
  (handles_released hostOnly
    (twoPageWorld [{ ID := 11, Stage := lit "test", Artifacts := [()] }]) exampleArgs 5).2.1
    (by decide)

/-- C10, counterexample. In this valid run the copy of the artifact archive fails: the run
ends with exit status 1 while the file `master-11.zip` and the response body of the artifact
request are still open; the program never closes them. -/
theorem handles_left_open :
    validate hostOnly exampleArgs = .ok exampleRoot ∧
    (main hostOnly brokenCopyWorld exampleArgs 5).2 = .failed (.io (lit "unexpected EOF")) ∧
    (main hostOnly brokenCopyWorld exampleArgs 5).2.exitStatus = some 1 ∧
    openAfter (main hostOnly brokenCopyWorld exampleArgs 5).1 =
      ([lit "master-11.zip"],
       [artifactsRequest hostOnly (lit "secret") (projectURLOf exampleRoot 7 (lit "/jobs/")) 11]) := by
  decide

/-- C6. In every run, a step that fails (a JSON fetch or decode, a file creation, an artifact
request or a copy) is the last event of the transcript, and the run ends with that error and
exit status 1: no later job and no later branch is processed. The requests and file creations
of such a run are a prefix of those of any successful run in a world that answers alike
before the failing step. -/
theorem fail_fast (pa : AuthorityParser) (w : World) (a : Args) (fuel : Nat) :
    (∀ pre ev rest e, (main pa w a fuel).1 = pre ++ ev :: rest → ev.error = some e →
      rest = [] ∧ (main pa w a fuel).2 = .failed (.io e) ∧
        (main pa w a fuel).2.exitStatus = some 1) ∧
    (∀ (w2 : World) (fuel2 : Nat) (ev : Event) (e : Err),
      ev ∈ (main pa w a fuel).1 → ev.error = some e →
      agreeBefore w w2 ((main pa w a fuel).1.length - 1) →
      (main pa w2 a fuel2).2 = .finished →
      effects (main pa w a fuel).1 <+: effects (main pa w2 a fuel2).1) := by
  have hff := main_failFast pa w a fuel
  constructor
  · intro pre ev rest e htr he
    obtain ⟨h1, h2⟩ := FailFast_split _ _ hff pre ev rest e htr he
    exact ⟨h1, h2, by rw [h2]; rfl⟩
  · intro w2 fuel2 ev e hev he hag hfin
    obtain ⟨pre, rest, htr⟩ := List.append_of_mem hev
    obtain ⟨hrest, hout⟩ := FailFast_split _ _ hff pre ev rest e htr he
    subst hrest
    have hlen : (main pa w a fuel).1.length = pre.length + 1 := by rw [htr]; simp
    have hm1 : main pa w a (fuel + fuel2) = main pa w a fuel :=
      main_mono pa w a fuel2 fuel (by rw [hout]; simp)
    have hm2 : main pa w2 a (fuel + fuel2) = main pa w2 a fuel2 := by
      rw [Nat.add_comm]
      exact main_mono pa w2 a fuel fuel2 (by rw [hfin]; simp)
    have hsim := (main_sim pa w w2 ((main pa w a fuel).1.length - 1) hag a (fuel + fuel2)).1
    rw [hm1, hm2] at hsim
    have hpre := simFrom_strip _ _ 0 _ (Nat.zero_le _) (by omega) hsim
    rw [effects_eq, effects_eq]
    exact List.IsPrefix.filterMap _ hpre

theorem fail_fast_witness :
    effects (main hostOnly brokenArtifactsWorld exampleArgs 5).1 <+:
      effects (main hostOnly workingWorld exampleArgs 5).1 :=
  (fail_fast hostOnly brokenArtifactsWorld exampleArgs 5).2 workingWorld 5
    (.artifacts (artifactsRequest hostOnly (lit "secret")
      (projectURLOf exampleRoot 7 (lit "/jobs/")) 11) (.error (lit "connection reset")))
    (lit "connection reset") (by decide) rfl
    (fun t ht => by
      have h5 : (main hostOnly brokenArtifactsWorld exampleArgs 5).1.length - 1 = 5 := by decide
      rw [h5] at ht
      refine ⟨fun _ => rfl, fun _ => rfl, fun _ => rfl, fun _ => rfl, fun _ => rfl, fun _ => ?_,
        fun _ _ => rfl⟩
      show (if t = 5 then _ else _) = _
      rw [if_neg (by omega)]
      rfl)
    (by decide)

/-- C7, as amended. In a run with valid arguments in which no request, file creation or copy
fails, the locator finds the project (the run is not cut off in the locator and does not end
with `no such project`) and `parseURL` does not panic, the run ends with exit status 0 and its
transcript is: the page requests of the locator, which found the project, and then for each
branch argument in command-line order one block: the branch request, the commit request for
the commit the branch answer named, the jobs request for the last pipeline the commit answer
named, and the downloads of the selected jobs. No page request comes after the locator. -/
theorem sequential_pipeline (pa : AuthorityParser) (w : World) (a : Args) (rootURL : URL)
    (fuel : Nat) (hv : validate pa a = .ok rootURL)
    (hok : ∀ ev ∈ (main pa w a fuel).1, ev.error = none)
    (hrun : (main pa w a fuel).2 ≠ .running)
    (hfound : (main pa w a fuel).2 ≠ .failed .noSuchProject)
    (hpanic : ∀ e, (main pa w a fuel).2 ≠ .panicked e) :
    (main pa w a fuel).2 = .finished ∧ (main pa w a fuel).2.exitStatus = some 0 ∧
    ∃ (loc : List Event) (projectID : Nat) (xs : List Answers),
      paginatingProjects w a.token a.project (projectsURLOf rootURL) fuel 1 0 =
        (loc, .found projectID) ∧
      (∀ e ∈ loc, e.isPageRequest = true) ∧
      xs.length = a.branches.length ∧
      (main pa w a fuel).1 =
        loc ++ branchBlocks pa a.token a.stage rootURL projectID a.branches xs ∧
      ∀ e ∈ branchBlocks pa a.token a.stage rootURL projectID a.branches xs,
        e.isPageRequest = false := by
  rw [main_of_valid pa w a fuel rootURL hv] at hok hrun hfound hpanic ⊢
  have hpages := pages_only w a.token a.project (projectsURLOf rootURL) fuel 1 0
  have hio := paginatingProjects_io_error w a.token a.project (projectsURLOf rootURL) fuel 1 0
  have hstop := paginatingProjects_stop w a.token a.project (projectsURLOf rootURL) fuel 1 0
  generalize paginatingProjects w a.token a.project (projectsURLOf rootURL) fuel 1 0 = r
    at hok hrun hfound hpanic hpages hio hstop ⊢
  rcases r with ⟨loc, projectID | o⟩
  · simp only at hok hrun hfound hpanic ⊢
    obtain ⟨hfin, xs, hlen, hxs⟩ := branchLoop_no_error pa w a.token a.stage rootURL projectID
      a.branches loc.length (fun ev hev => hok ev (by simp [hev])) hpanic
    refine ⟨hfin, by rw [hfin]; rfl, loc, projectID, xs, rfl, hpages, hlen, by rw [hxs], ?_⟩
    exact branchBlocks_no_page pa a.token a.stage rootURL projectID a.branches xs
  · simp only at hok hrun hfound hpanic
    exfalso
    rcases hstop o rfl with h | ⟨f, h⟩
    · exact hrun h
    · subst h
      cases f with
      | noSuchProject => exact hfound rfl
      | io e =>
        obtain ⟨ev, hev, he⟩ := hio e rfl
        rw [hok ev hev] at he
        cases he

theorem sequential_pipeline_witness :
    (main hostOnly workingWorld exampleArgs 5).2.exitStatus = some 0 :=
  (sequential_pipeline hostOnly workingWorld exampleArgs exampleRoot 5 (by decide) (by decide)
    (by decide) (by decide)
    (fun e h => by
      rw [show (main hostOnly workingWorld exampleArgs 5).2 = .finished from by decide] at h
      cases h)).2.1

/-- C7, counterexample. Two valid runs in which no request, file creation or copy fails and
which do not end with exit status 0. With an API that always answers with the same page
without the target the run never leaves the locator. With the branch argument `:` and an API
on which everything works the run sends the page request, then `parseURL` panics on the
escaped branch name (`:` is not escaped by `PathEscape`): no branch request is sent and the
process exits with status 2. -/
theorem pipeline_stuck_or_panics :
    (validate hostOnly exampleArgs = .ok exampleRoot ∧
      ∀ fuel, (∀ ev ∈ (main hostOnly echoWorld exampleArgs fuel).1, ev.error = none) ∧
        (main hostOnly echoWorld exampleArgs fuel).2 = .running) ∧
    (validate hostOnly colonArgs = .ok exampleRoot ∧
      (∀ ev ∈ (main hostOnly workingWorld colonArgs 5).1, ev.error = none) ∧
      (main hostOnly workingWorld colonArgs 5).1.length = 1 ∧
      (main hostOnly workingWorld colonArgs 5).2 = .panicked .missingProtocolScheme ∧
      (main hostOnly workingWorld colonArgs 5).2.exitStatus = some 2) := by
  refine ⟨⟨validate_example, fun fuel => ?_⟩, by decide⟩
  have hrun := (main_running hostOnly echoWorld exampleArgs exampleRoot validate_example
    (fun _ _ => ⟨_, rfl, by decide, by decide⟩) fuel).1
  refine ⟨?_, hrun⟩
  exact FailFast_all_ok _ _ (main_failFast hostOnly echoWorld exampleArgs fuel)
    (fun e => by rw [hrun]; simp)

/-! ### C8: the branch resource URL -/

/-- C8, as amended. Let `b` be a branch name that is not empty, is none of `.`, `..` and `*`,
and has no colon, and let `e = PathEscape b`. Then `e` parses as a reference, so the branch
loop sends as its first request the branch request for `b`; the URL of that request has the
escaped path `<path of apiURL>projects/<id>/repository/branches/<e>`, the scheme, host and
user of `apiURL`, and no opaque part, query or fragment; `e` has no slash and
percent-decoding it gives `b` back; and `e` is the branch part of the output file name.
Here `apiURL` and `branchesURL` are the values that lines 103 and 133 compute. -/
theorem branch_url (pa : AuthorityParser) (w : World) (rootURL : URL) (projectID jobID : Nat)
    (token stage : GoString) (commitsURL pipelinesURL jobsURL : URL) (b : GoString)
    (bs : List GoString) (t : Nat) (hne : b ≠ []) (hdot : b ≠ lit ".") (hdotdot : b ≠ lit "..")
    (hstar : b ≠ lit "*") (hcolon : byteOf ':' ∉ b) :
    apiURLOf pa rootURL = .ok (apiURL rootURL) ∧
    projectURL pa (apiURL rootURL) (lit "projects/") projectID (lit "/repository/branches/") =
      .ok (projectURLOf rootURL projectID (lit "/repository/branches/")) ∧
    (branchLoop pa w token stage (projectURLOf rootURL projectID (lit "/repository/branches/"))
        commitsURL pipelinesURL jobsURL (b :: bs) t).1.head? =
      some (.getBranch
        (branchRequest pa token (projectURLOf rootURL projectID (lit "/repository/branches/")) b)
        (w.branch t
          (branchRequest pa token (projectURLOf rootURL projectID (lit "/repository/branches/"))
            b))) ∧
    (branchRequest pa token (projectURLOf rootURL projectID (lit "/repository/branches/"))
        b).URL.EscapedPath =
      (apiURL rootURL).EscapedPath ++ (lit "projects/" ++ fmtUint projectID ++
        lit "/repository/branches/") ++ PathEscape b ∧
    (branchRequest pa token (projectURLOf rootURL projectID (lit "/repository/branches/"))
        b).URL.Scheme = (apiURL rootURL).Scheme ∧
    (branchRequest pa token (projectURLOf rootURL projectID (lit "/repository/branches/"))
        b).URL.Host = (apiURL rootURL).Host ∧
    (branchRequest pa token (projectURLOf rootURL projectID (lit "/repository/branches/"))
        b).URL.User = (apiURL rootURL).User ∧
    (branchRequest pa token (projectURLOf rootURL projectID (lit "/repository/branches/"))
        b).URL.Opaque = [] ∧
    (branchRequest pa token (projectURLOf rootURL projectID (lit "/repository/branches/"))
        b).URL.RawQuery = [] ∧
    (branchRequest pa token (projectURLOf rootURL projectID (lit "/repository/branches/"))
        b).URL.Fragment = [] ∧
    (branchRequest pa token (projectURLOf rootURL projectID (lit "/repository/branches/"))
        b).URL.ForceQuery = false ∧
    byteOf '/' ∉ PathEscape b ∧ PathUnescape (PathEscape b) = .ok b ∧
    fileName b jobID = PathEscape b ++ lit "-" ++ fmtUint jobID ++ lit ".zip" := by
  obtain ⟨ref, hparse, hp, hesc, r1, r2, r3, r4, r5, r6, r7⟩ :=
    Parse_PathEscape pa b hne hstar hcolon
  obtain ⟨p1, ⟨r0, p2⟩, p3, p4, p5, p6, p7, p8, _, _, _⟩ := branchesURL_facts rootURL projectID
  have href : refOf pa (PathEscape b) = ref := by
    unfold refOf
    rw [hparse]
  have hpath : ref.Path ≠ [] := by
    rw [hp]
    exact hne
  have hfull := resolveFull_ne_nil
    (projectURLOf rootURL projectID (lit "/repository/branches/")).EscapedPath (PathEscape b)
    (PathEscape_ne_nil b hne)
  obtain ⟨f1, _, f3, _⟩ := resolvePath_facts
    (projectURLOf rootURL projectID (lit "/repository/branches/")).EscapedPath (PathEscape b)
    hfull
  have hok := f3 p5 (pathOK_PathEscape b)
  have happ : resolvePath
      (projectURLOf rootURL projectID (lit "/repository/branches/")).EscapedPath (PathEscape b) =
      (projectURLOf rootURL projectID (lit "/repository/branches/")).EscapedPath ++
        PathEscape b := by
    rw [p2] at p3 p4 ⊢
    exact resolvePath_append r0 _ p3 p4 (NoDot_PathEscape b hdot hdotdot)
      (PathEscape_ne_nil b hne) (PathEscape_head b)
  have hr := ResolveReference_relative
    (projectURLOf rootURL projectID (lit "/repository/branches/")) ref r1 r2 r3 r4 hpath
    (by rw [hesc]; exact hok) (by rw [hesc]; exact f1)
  rw [hesc, happ, p1] at hr
  obtain ⟨h1, h2, h3, h4, h5, h6, h7, h8⟩ := hr
  refine ⟨?_, ?_, ?_, ?_, ?_, ?_, ?_, ?_, ?_, ?_, ?_, slash_not_mem_PathEscape b,
    PathUnescape_PathEscape b, rfl⟩
  · simp only [apiURLOf, parseURL_api, apiURL]
  · simp only [projectURL, parseURL_project pa projectID (lit "/repository/branches/")
      (by decide), projectURLOf]
  · rw [branchLoop_emit, hparse]
    generalize w.branch t _ = r
    cases r <;> rfl
  · unfold branchRequest; rw [href]; exact h1
  · unfold branchRequest; rw [href, ← p6]; exact h2
  · unfold branchRequest; rw [href, ← p7]; exact h3
  · unfold branchRequest; rw [href, ← p8]; exact h4
  · unfold branchRequest; rw [href]; exact h5
  · unfold branchRequest; rw [href, ← r5]; exact h6
  · unfold branchRequest; rw [href, ← r6]; exact h7
  · unfold branchRequest; rw [href, ← r7]; exact h8

/-- The amended C8 at the branch `feature/x` of project 7 on `exampleRoot`. -/
theorem branch_url_witness :
    (lit "feature/x" ≠ [] ∧ lit "feature/x" ≠ lit "." ∧ lit "feature/x" ≠ lit ".." ∧
      lit "feature/x" ≠ lit "*" ∧ byteOf ':' ∉ lit "feature/x") ∧
    (branchRequest hostOnly (lit "secret") exampleBranchesURL (lit "feature/x")).URL.EscapedPath =
      lit "/api/v4/projects/7/repository/branches/feature%2Fx" :=
  ⟨by decide,
    (branch_url hostOnly workingWorld exampleRoot 7 11 (lit "secret") (lit "test") {} {} {}
      (lit "feature/x") [] 1 (by decide) (by decide) (by decide) (by decide)
      (by decide)).2.2.2.1.trans (by decide)⟩

/-- C8, counterexample. Four non-empty branch names whose request does not go to
`<api root>projects/<id>/repository/branches/<PathEscape b>`; the base URL is
`https://gitlab.example.com` and the project is 7, so `apiURL` has the path `/api/v4/`.
The name `.` escapes to `.`, which reference resolution removes as a dot segment: the run
with this branch argument sends its branch request to `/api/v4/projects/7/repository/branches/`.
The name `..` escapes to `..` and the request goes to `/api/v4/projects/7/repository/`.
The name `*` escapes to `%2A` and the request path ends in `branches/*`. The name `a:b`
escapes to `a:b`, which parses with the scheme `a` and the opaque part `b`, and the request
URL is that reference, without host and path. -/
theorem branch_url_exceptions :
    (validate hostOnly dotArgs = .ok exampleRoot ∧
      (main hostOnly workingWorld dotArgs 5).1.get? 1 =
        some (.getBranch (branchRequest hostOnly (lit "secret") exampleBranchesURL (lit "."))
          (workingWorld.branch 1
            (branchRequest hostOnly (lit "secret") exampleBranchesURL (lit ".")))) ∧
      (apiURL exampleRoot).EscapedPath = lit "/api/v4/" ∧
      PathEscape (lit ".") = lit "." ∧
      (branchRequest hostOnly (lit "secret") exampleBranchesURL (lit ".")).URL.EscapedPath =
        lit "/api/v4/projects/7/repository/branches/" ∧
      (branchRequest hostOnly (lit "secret") exampleBranchesURL (lit ".")).URL.EscapedPath ≠
        (apiURL exampleRoot).EscapedPath ++ (lit "projects/" ++ fmtUint 7 ++
          lit "/repository/branches/") ++ PathEscape (lit ".")) ∧
    (PathEscape (lit "..") = lit ".." ∧
      (branchRequest hostOnly (lit "secret") exampleBranchesURL (lit "..")).URL.EscapedPath =
        lit "/api/v4/projects/7/repository/") ∧
    (PathEscape (lit "*") = lit "%2A" ∧
      (branchRequest hostOnly (lit "secret") exampleBranchesURL (lit "*")).URL.EscapedPath =
        lit "/api/v4/projects/7/repository/branches/*") ∧
    (PathEscape (lit "a:b") = lit "a:b" ∧
      (branchRequest hostOnly (lit "secret") exampleBranchesURL (lit "a:b")).URL =
        { Scheme := lit "a", Opaque := lit "b" }) := by
  decide

/-! ### C5: validation before any effect -/

/-- C5, as amended. Let the `-baseurl`, `-project` and `-stage` values and the branch
arguments be those that `flag.Parse()` leaves behind on the command line. If the base URL,
the project, the stage or `TOKEN` is empty, or there is no branch argument, or the base URL
does not parse, or some branch argument is empty, then the run performs no effect at all, and
it exits with status 2, unless `flag.Parse()` met `-h` or `-help` (which are not flags of the
program): then it exits with status 0. -/
theorem validation_precedes_network (pa : AuthorityParser) (w : World)
    (arguments : List GoString) (TOKEN : GoString) (fuel : Nat)
    (h : (parseFlags {} arguments).1.baseurl = [] ∨ (parseFlags {} arguments).1.project = [] ∨
      (parseFlags {} arguments).1.stage = [] ∨ (parseFlags {} arguments).2.1 = [] ∨
      TOKEN = [] ∨ (∃ e, Parse pa (parseFlags {} arguments).1.baseurl = .error e) ∨
      [] ∈ (parseFlags {} arguments).2.1) :
    (run pa w arguments TOKEN fuel).1 = [] ∧
      ((parseFlags {} arguments).2.2 = some .help →
        (run pa w arguments TOKEN fuel).2.exitStatus = some 0) ∧
      ((parseFlags {} arguments).2.2 ≠ some .help →
        (run pa w arguments TOKEN fuel).2.exitStatus = some 2) := by
  rcases hp : parseFlags {} arguments with ⟨f, branches, err⟩
  rw [hp] at h
  cases err with
  | some e =>
    have hr := run_of_flag_error pa w arguments TOKEN fuel e (by rw [hp])
    rw [hr]
    refine ⟨rfl, ?_, ?_⟩
    · intro he
      cases he
      rfl
    · intro he
      cases e with
      | help => exact absurd rfl he
      | badSyntax s => rfl
      | notDefined n => rfl
      | needsArgument n => rfl
  | none =>
    rw [run_of_parsed pa w arguments TOKEN fuel f branches hp]
    have hm := main_invalid pa w
      { baseUrl := f.baseurl, project := f.project, stage := f.stage, branches := branches,
        token := TOKEN } fuel h
    refine ⟨hm.1, fun he => ?_, fun _ => hm.2⟩
    exact absurd he (by simp)

/-- The amended C5 on a command line with all flags and a branch, without `TOKEN`. -/
theorem validation_precedes_network_witness :
    (run hostOnly echoWorld exampleCommandLine [] 3).1 = [] ∧
      (run hostOnly echoWorld exampleCommandLine [] 3).2.exitStatus = some 2 :=
  have h := validation_precedes_network hostOnly echoWorld exampleCommandLine [] 3
    (Or.inr (Or.inr (Or.inr (Or.inr (Or.inl rfl)))))
  ⟨h.1, h.2.2 (by decide)⟩

/-- C5, counterexample. On the command line `-h` (and likewise `-help`) the values of
`-baseurl`, `-project` and `-stage` are empty and there is no branch argument, but the run
does not exit with status 2: `flag.Parse()` prints the usage text and exits with status 0,
whatever the API and `TOKEN` are. -/
theorem help_exits_zero :
    (parseFlags {} [lit "-h"]).1.baseurl = [] ∧ (parseFlags {} [lit "-h"]).1.project = [] ∧
    (parseFlags {} [lit "-h"]).1.stage = [] ∧ (parseFlags {} [lit "-h"]).2.1 = [] ∧
    (∀ (w : World) (TOKEN : GoString) (fuel : Nat),
      run hostOnly w [lit "-h"] TOKEN fuel = ([], .flagExit .help) ∧
      (run hostOnly w [lit "-h"] TOKEN fuel).2.exitStatus = some 0 ∧
      (run hostOnly w [lit "-h"] TOKEN fuel).2.exitStatus ≠ some 2) ∧
    (∀ (w : World) (TOKEN : GoString) (fuel : Nat),
      (run hostOnly w [lit "-help"] TOKEN fuel).2.exitStatus = some 0) := by
  have h1 : parseFlags {} [lit "-h"] = ({}, [], some .help) := by decide
  have h2 : parseFlags {} [lit "-help"] = ({}, [], some .help) := by decide
  refine ⟨by rw [h1], by rw [h1], by rw [h1], by rw [h1], fun w TOKEN fuel => ?_,
    fun w TOKEN fuel => ?_⟩
  · rw [run_of_flag_error hostOnly w _ TOKEN fuel .help (by rw [h1])]
    exact ⟨rfl, rfl, by decide⟩
  · rw [run_of_flag_error hostOnly w _ TOKEN fuel .help (by rw [h2])]
    rfl

end GitlabDl
